import Mathlib

/-!
KS10 console monitor.

A shallow embedding of the monitor execution engine of the KS10 console
program (`commands.cpp`): the boot-image loader (`rdword`, `getdata`,
`loadCode`), the breakpoint codec (`parseOctal`, `cmdBR`), the command
dispatcher (`execute`), the terminal multiplexer (`consoleOutput`) and the
bus accesses of `rd`, `wr` and the disassembly; and of two parts of the
console firmware: the formatted output (`printf` of `stdio.cpp`) and the
line erase of `commandLine` (`console.cpp`).  The properties proved about
them follow the definitions.

Machine integers are natural numbers; every value the code keeps in a
64-bit container stays below `2 ^ 64`, and the places where the code masks
a value (`& 0777777`, `& 0x7f`) are masked here in the same way.
-/

namespace KS10

/-! ## Boot-image loader -/

namespace ks10_t

/-- Modelled from the spec: `ks10_t::lh` is declared in `ks10.hpp`, which is
not part of the sources at hand.  The left half is bits 0..17 of the 36-bit
word, that is the 18 bits above the right half. -/
def lh (data : Nat) : Nat := (data >>> 18) &&& 0o777777

/-- Modelled from the spec: `ks10_t::rh` is declared in `ks10.hpp`, which is
not part of the sources at hand.  The right half is bits 18..35 of the
36-bit word, that is its 18 low-order bits. -/
def rh (data : Nat) : Nat := data &&& 0o777777

end ks10_t

/-- The function `rdword`: builds a 36-bit word from five bytes of a `.SAV`
file.  `b` is the byte buffer the pointer argument designates. -/
def rdword (b : List Nat) : Nat :=
  ((b.getD 0 0 &&& 0x7f) <<< 29) |||
  ((b.getD 1 0 &&& 0x7f) <<< 22) |||
  ((b.getD 2 0 &&& 0x7f) <<< 15) |||
  ((b.getD 3 0 &&& 0x7f) <<<  8) |||
  ((b.getD 4 0 &&& 0x7f) <<<  1) |||
  ((b.getD 4 0 &&& 0x80) >>>  7)

/-- Messages the loader prints. -/
inductive LoadMsg where
  /-- The text `KS10: fopen(<filename>) failed.` -/
  | fopenFailed
  /-- The text `KS10: getdata - read() failed.` -/
  | readFailed
  /-- The text `KS10: Starting Address: <lh>,,<rh>` -/
  | startingAddress (left right : Nat)
  deriving DecidableEq, Repr

/-- What the loader acts on: the unread bytes of the open file, the number of
`getdata` calls made so far, the calls of `ks10_t::writeMem` (address, data)
and of `ks10_t::writeRegCIR` in the order they were made, and the messages
printed. -/
structure LoadState where
  stream : List Nat
  calls : Nat
  mem : List (Nat × Nat)
  cir : List Nat
  out : List LoadMsg
  deriving DecidableEq, Repr

/-- The library call `fread(buffer, 1, size, fp)`: the bytes read overwrite the
start of `buffer`, the rest of `buffer` keeps what it held.  Returns the
buffer, the number of bytes read and the unread rest of the stream. -/
def fread (buffer : List Nat) (size : Nat) (stream : List Nat) :
    List Nat × Nat × List Nat :=
  ((stream.take size) ++ buffer.drop (stream.take size).length,
   (stream.take size).length,
   stream.drop size)

/-- The function `getdata`.  Its local `buffer` is not initialised, so what it
holds before `fread` is an input of the model: `junk n` is the content of the
five bytes of stack at call number `n`. -/
def getdata (junk : Nat → List Nat) (s : LoadState) : Nat × LoadState :=
  let r := fread (junk s.calls) 5 s.stream
  (rdword r.1,
   { s with
     stream := r.2.2
     calls := s.calls + 1
     out := if r.2.1 ≠ 5 then s.out ++ [LoadMsg.readFailed] else s.out })

/-- The inner loop of `loadCode`, `while ((words & 0400000) != 0)`: reads the
data words of one record and writes them to memory.  `fuel` bounds the number
of iterations; `none` means the bound was reached. -/
def readRecord (junk : Nat → List Nat) :
    Nat → Nat → Nat → LoadState → Option LoadState
  | fuel, words, addr, s =>
    if words &&& 0o400000 ≠ 0 then
      match fuel with
      | 0 => none
      | fuel + 1 =>
        let data36 := (getdata junk s).1
        let s1 := (getdata junk s).2
        let addr1 := (addr + 1) &&& 0o777777
        let s2 := { s1 with mem := s1.mem ++ [(addr1, data36)] }
        let words1 := (words + 1) &&& 0o777777
        readRecord junk fuel words1 addr1 s2
    else
      some s

/-- The outer loop of `loadCode`, `for (;;)`: reads a header and either
finishes or reads the record it announces.  `opJRST` is the constant
`ks10_t::opJRST` of `ks10.hpp`.  `fuel` bounds the number of iterations of
this loop and of each inner loop; `none` means the bound was reached. -/
def loadLoop (opJRST : Nat) (junk : Nat → List Nat) :
    Nat → LoadState → Option (Bool × LoadState)
  | 0, _ => none
  | fuel + 1, s =>
    let data36 := (getdata junk s).1
    let s1 := (getdata junk s).2
    let words := ks10_t.lh data36
    let addr := ks10_t.rh data36
    if words &&& 0o400000 = 0 then
      if words = opJRST then
        some (true,
          { s1 with
            out := s1.out ++
              [LoadMsg.startingAddress (ks10_t.lh data36) (ks10_t.rh data36)]
            cir := s1.cir ++ [data36] })
      else
        some (true, s1)
    else
      match readRecord junk fuel words addr s1 with
      | none => none
      | some s2 => loadLoop opJRST junk fuel s2

/-- The function `loadCode`.  `file` is what `fopen(filename, "r")` yields:
`none` when the file cannot be opened, else the bytes of the file. -/
def loadCode (opJRST : Nat) (junk : Nat → List Nat) (fuel : Nat)
    (file : Option (List Nat)) : Option (Bool × LoadState) :=
  match file with
  | none =>
    some (false,
      { stream := [], calls := 0, mem := [], cir := [],
        out := [LoadMsg.fopenFailed] })
  | some bytes =>
    loadLoop opJRST junk fuel
      { stream := bytes, calls := 0, mem := [], cir := [], out := [] }

/-- The data words `n` successive calls of `getdata` read from the stream,
and the state they leave. -/
def getWords (junk : Nat → List Nat) : Nat → LoadState → List Nat × LoadState
  | 0, s => ([], s)
  | n + 1, s =>
    ((getdata junk s).1 :: (getWords junk n (getdata junk s).2).1,
     (getWords junk n (getdata junk s).2).2)

/-- The memory writes the inner loop of `loadCode` makes for the data words
`ds`, starting from the address `a` taken from the header: the address is
incremented and masked before each write. -/
def recordWrites (a : Nat) : List Nat → List (Nat × Nat)
  | [] => []
  | d :: ds => ((a + 1) &&& 0o777777, d) :: recordWrites ((a + 1) &&& 0o777777) ds

/-! ## Breakpoint codec -/

/-- The NUL character that ends a C string. -/
def NUL : Char := Char.ofNat 0

/-- The character `s[i]` of the C string `s`; at the end of the string it is
the terminating NUL. -/
def cchar (s : List Char) (i : Nat) : Char := s.getD i NUL

/-- The loop of `parseOctal`, `for (int i = 0; i < 36; i += 3)`, with `n`
iterations left.  Returns `num` and whether `Parsed invalid character.` was
printed.  `num` is a 64-bit word. -/
def parseOctalLoop : Nat → List Char → Nat → Nat × Bool
  | 0, _, num => (num, false)
  | n + 1, buf, num =>
    if '0' ≤ cchar buf 0 ∧ cchar buf 0 ≤ '7' then
      parseOctalLoop n (buf.drop 1)
        ((((num + ((cchar buf 0).toNat - ('0').toNat)) % 2 ^ 64) <<< 3) % 2 ^ 64)
    else
      (num, decide (cchar buf 0 ≠ NUL))

/-- The function `parseOctal`: the number parsed and whether
`Parsed invalid character.` was printed. -/
def parseOctal (buf : List Char) : Nat × Bool :=
  ((parseOctalLoop 12 buf 0).1 >>> 3, (parseOctalLoop 12 buf 0).2)

/-- The constants of `ks10_t` (declared in `ks10.hpp`, which is not part of
the sources at hand) that the breakpoint command uses.  They are parameters
of the model. -/
structure BrConst where
  brarFETCH : Nat
  brarMEMRD : Nat
  brarMEMWR : Nat
  brarIORD : Nat
  brarIOWR : Nat
  brarMEMMASK : Nat
  brarIOMASK : Nat
  brmrFETCH : Nat
  brmrMEMRD : Nat
  brmrMEMWR : Nat
  brmrIORD : Nat
  brmrIOWR : Nat
  brmrMEMMASK : Nat
  brmrIOMASK : Nat
  flagFetch : Nat
  flagRead : Nat
  flagWrite : Nat
  flagPhys : Nat
  flagIO : Nat
  flagByte : Nat
  deriving DecidableEq, Repr

/-- Messages the breakpoint command prints. -/
inductive BrMsg where
  /-- The text `br<unit>: breakpoint disabled` -/
  | disabled (unit : Nat)
  /-- The text `br: all breakpoints disabled` -/
  | allDisabled
  /-- The three lines of `printBRxR`: the register name and value, the six
  flags, and the address field. -/
  | reg (regName : String) (dbxr : Nat) (fetch read write phys inout byte : Bool)
      (address : Nat)
  /-- The text `br: unrecognized option: <arg>` -/
  | unrecognized (arg : List Char)
  /-- The usage text. -/
  | usage
  /-- The text `br --raw not implemented.` -/
  | rawNotImplemented
  /-- The text `Parsed invalid character.` of `parseOctal`. -/
  | invalidChar
  /-- The lines the block under `#if 1` prints: `argc`, `index` and the
  first entries of `argv`. -/
  | debug (argc index : Nat)
  deriving DecidableEq, Repr

/-- A call of `ks10_t::writeBRAR` or `ks10_t::writeBRMR`. -/
inductive BrWrite where
  | brar (unit value : Nat)
  | brmr (unit value : Nat)
  deriving DecidableEq, Repr

/-- The breakpoint registers, the calls that wrote them and the messages
printed, in order. -/
structure BrState where
  brar : Nat → Nat
  brmr : Nat → Nat
  writes : List BrWrite
  out : List BrMsg

namespace ks10_t

/-- Modelled from the spec: `ks10_t::readBRAR` (defined outside the sources
at hand) reads the Address Register of a breakpoint unit. -/
def readBRAR (s : BrState) (unit : Nat) : Nat := s.brar unit

/-- Modelled from the spec: `ks10_t::readBRMR` (defined outside the sources
at hand) reads the Mask Register of a breakpoint unit. -/
def readBRMR (s : BrState) (unit : Nat) : Nat := s.brmr unit

/-- Modelled from the spec: `ks10_t::writeBRAR` (defined outside the sources
at hand) writes the Address Register of a breakpoint unit. -/
def writeBRAR (unit value : Nat) (s : BrState) : BrState :=
  { s with
    brar := Function.update s.brar unit value
    writes := s.writes ++ [BrWrite.brar unit value] }

/-- Modelled from the spec: `ks10_t::writeBRMR` (defined outside the sources
at hand) writes the Mask Register of a breakpoint unit. -/
def writeBRMR (unit value : Nat) (s : BrState) : BrState :=
  { s with
    brmr := Function.update s.brmr unit value
    writes := s.writes ++ [BrWrite.brmr unit value] }

end ks10_t

/-- The statement `printf(...)`: appends a message to the output. -/
def BrState.print (s : BrState) (m : BrMsg) : BrState :=
  { s with out := s.out ++ [m] }

/-- The function `printBRxR`. -/
def printBRxR (k : BrConst) (dbxr : Nat) (regName : String) (s : BrState) : BrState :=
  s.print (BrMsg.reg regName dbxr
    (dbxr &&& k.flagFetch != 0)
    (dbxr &&& k.flagRead != 0)
    (dbxr &&& k.flagWrite != 0)
    (dbxr &&& k.flagPhys != 0)
    (dbxr &&& k.flagIO != 0)
    (dbxr &&& k.flagByte != 0)
    (if dbxr &&& k.flagIO != 0 then dbxr &&& k.brarIOMASK else dbxr &&& k.brarMEMMASK))

/-- One `case` of `cmdBR_printStatus`, for the unit `n` and its two register
names. -/
def printStatusUnit (k : BrConst) (n : Nat) (arName mrName : String) (s : BrState) :
    BrState :=
  if ks10_t.readBRAR s n = 0 ∧ ks10_t.readBRMR s n = 0 then
    s.print (BrMsg.disabled n)
  else
    printBRxR k (ks10_t.readBRMR s n) mrName (printBRxR k (ks10_t.readBRAR s n) arName s)

/-- The function `cmdBR_printStatus`. -/
def cmdBR_printStatus (k : BrConst) (unit : Char) (s : BrState) : BrState :=
  if unit = '0' then printStatusUnit k 0 "BRAR0" "BRMR0" s
  else if unit = '1' then printStatusUnit k 1 "BRAR1" "BRMR1" s
  else if unit = '2' then printStatusUnit k 2 "BRAR2" "BRMR2" s
  else if unit = '3' then printStatusUnit k 3 "BRAR3" "BRMR3" s
  else s

/-- One result of `getopt_long` other than `-1`, as `cmdBR` sees it: either the
value `'?'`, or the value `0` of a long option together with the `index` the
call stored.  `arg` is the string `argv[optind-1]` after the call, which is
what `cmdBR` parses. -/
inductive Getopt where
  | unrecognized (arg : List Char)
  | option (index : Nat) (arg : List Char)
  deriving DecidableEq, Repr

/-- The bitwise complement `~x` of a 64-bit word. -/
def not64 (x : Nat) : Nat := (2 ^ 64 - 1) ^^^ (x % 2 ^ 64)

/-- How the option loop of `cmdBR` ends: with a `return true` inside the loop,
or with `break` and the values of `index`, `brar`, `brmr` and `mask`. -/
inductive BrParse where
  | returned (s : BrState)
  | parsed (index brar brmr mask : Nat) (s : BrState)

/-- The `case 1` of the option loop of `cmdBR`, `--disable`. -/
def cmdBR_disable (unit : Char) (s : BrState) : BrState :=
  if unit = '0' then
    (ks10_t.writeBRMR 0 0 (ks10_t.writeBRAR 0 0 s)).print (BrMsg.disabled 0)
  else if unit = '1' then
    (ks10_t.writeBRMR 1 0 (ks10_t.writeBRAR 1 0 s)).print (BrMsg.disabled 1)
  else if unit = '2' then
    (ks10_t.writeBRMR 2 0 (ks10_t.writeBRAR 2 0 s)).print (BrMsg.disabled 2)
  else if unit = '3' then
    (ks10_t.writeBRMR 3 0 (ks10_t.writeBRAR 3 0 s)).print (BrMsg.disabled 3)
  else if unit = NUL then
    ((List.range 4).foldl
      (fun t i => ks10_t.writeBRMR i 0 (ks10_t.writeBRAR i 0 t)) s).print BrMsg.allDisabled
  else s

/-- The call `parseOctal(argv[optind-1])` inside `cmdBR`: the number, and the
state after the message `parseOctal` may print. -/
def parseArg (arg : List Char) (s : BrState) : Nat × BrState :=
  ((parseOctal arg).1, if (parseOctal arg).2 then s.print BrMsg.invalidChar else s)

/-- The option loop of `cmdBR`, `for (;;)` around `getopt_long`.  `opts` are
the results of the successive calls of `getopt_long`; after the last of them
the call returns `-1`. -/
def cmdBR_options (k : BrConst) (unit : Char) :
    List Getopt → Nat → Nat → Nat → Nat → BrState → BrParse
  | [], index, brar, brmr, mask, s => BrParse.parsed index brar brmr mask s
  | Getopt.unrecognized arg :: _, _, _, _, _, s =>
    BrParse.returned (s.print (BrMsg.unrecognized arg))
  | Getopt.option index arg :: rest, _, brar, brmr, mask, s =>
    if index = 0 then BrParse.returned (s.print BrMsg.usage)
    else if index = 1 then BrParse.returned (cmdBR_disable unit s)
    else if index = 2 then
      cmdBR_options k unit rest index
        (k.brarFETCH ||| (k.brarMEMMASK &&& (parseArg arg s).1))
        (k.brmrFETCH ||| k.brmrMEMMASK) mask (parseArg arg s).2
    else if index = 3 then
      cmdBR_options k unit rest index
        (k.brarMEMWR ||| k.brarMEMRD ||| (k.brarMEMMASK &&& (parseArg arg s).1))
        (k.brmrMEMWR ||| k.brmrMEMWR ||| k.brmrMEMMASK) mask (parseArg arg s).2
    else if index = 4 then
      cmdBR_options k unit rest index
        (k.brarMEMRD ||| (k.brarMEMMASK &&& (parseArg arg s).1))
        (k.brmrMEMRD ||| k.brmrMEMMASK) mask (parseArg arg s).2
    else if index = 5 then
      cmdBR_options k unit rest index
        (k.brarMEMWR ||| (k.brarMEMMASK &&& (parseArg arg s).1))
        (k.brmrMEMWR ||| k.brmrMEMMASK) mask (parseArg arg s).2
    else if index = 6 then
      cmdBR_options k unit rest index
        (k.brarIORD ||| k.brarIOWR ||| (k.brarIOMASK &&& (parseArg arg s).1))
        (k.brmrIORD ||| k.brmrIOWR ||| k.brmrIOMASK) mask (parseArg arg s).2
    else if index = 7 then
      cmdBR_options k unit rest index
        (k.brarIORD ||| (k.brarIOMASK &&& (parseArg arg s).1))
        (k.brmrIORD ||| k.brmrIOMASK) mask (parseArg arg s).2
    else if index = 8 then
      cmdBR_options k unit rest index
        (k.brarIOWR ||| (k.brarIOMASK &&& (parseArg arg s).1))
        (k.brmrIOWR ||| k.brmrIOMASK) mask (parseArg arg s).2
    else if index = 9 then
      cmdBR_options k unit rest index brar brmr
        (k.brarIOMASK &&& (parseArg arg s).1) (parseArg arg s).2
    else if index = 10 then
      cmdBR_options k unit rest index brar brmr mask (s.print BrMsg.rawNotImplemented)
    else
      cmdBR_options k unit rest index brar brmr mask s

/-- The last `switch` of `cmdBR`, which sets the breakpoint registers. -/
def cmdBR_write (unit : Char) (brar brmr mask : Nat) (s : BrState) : BrState :=
  if unit = '0' then ks10_t.writeBRMR 0 (brmr &&& not64 mask) (ks10_t.writeBRAR 0 brar s)
  else if unit = '1' then ks10_t.writeBRMR 1 (brmr &&& not64 mask) (ks10_t.writeBRAR 1 brar s)
  else if unit = '2' then ks10_t.writeBRMR 2 (brmr &&& not64 mask) (ks10_t.writeBRAR 2 brar s)
  else if unit = '3' then ks10_t.writeBRMR 3 (brmr &&& not64 mask) (ks10_t.writeBRAR 3 brar s)
  else s

/-- The function `command_t::cmdBR`.  `argc` and `argv0` are the argument
count and the command token `argv[0]`; `opts` are the results of the
successive calls of `getopt_long` on the arguments. -/
def cmdBR (k : BrConst) (argc : Nat) (argv0 : List Char) (opts : List Getopt)
    (s : BrState) : Bool × BrState :=
  if argc = 1 then
    if cchar argv0 2 = '0' ∨ cchar argv0 2 = '1' ∨ cchar argv0 2 = '2'
        ∨ cchar argv0 2 = '3' then
      (true, cmdBR_printStatus k (cchar argv0 2) s)
    else
      (true, ['0', '1', '2', '3'].foldl (fun t ch => cmdBR_printStatus k ch t) s)
  else
    match cmdBR_options k (cchar argv0 2) opts 0 0 0 0 s with
    | BrParse.returned s1 => (true, s1)
    | BrParse.parsed index brar brmr mask s1 =>
      (true, cmdBR_write (cchar argv0 2) brar brmr mask (s1.print (BrMsg.debug argc index)))

/-- The break conditions of the `br` command, by the name of their option. -/
inductive BreakCond where
  | fetch | mem | memrd | memwr | io | iord | iowr
  deriving DecidableEq, Repr

/-- The index of a break condition in the `options` table of `cmdBR`. -/
def BreakCond.index : BreakCond → Nat
  | fetch => 2 | mem => 3 | memrd => 4 | memwr => 5 | io => 6 | iord => 7 | iowr => 8

/-- The condition-class bits of the Address Register for a break condition. -/
def classBits (k : BrConst) : BreakCond → Nat
  | BreakCond.fetch => k.brarFETCH
  | BreakCond.mem => k.brarMEMRD ||| k.brarMEMWR
  | BreakCond.memrd => k.brarMEMRD
  | BreakCond.memwr => k.brarMEMWR
  | BreakCond.io => k.brarIORD ||| k.brarIOWR
  | BreakCond.iord => k.brarIORD
  | BreakCond.iowr => k.brarIOWR

/-- The address-field mask of the Address Register for a break condition:
`brarMEMMASK` for the memory-space conditions, `brarIOMASK` for the I/O ones. -/
def fieldMask (k : BrConst) : BreakCond → Nat
  | BreakCond.fetch | BreakCond.mem | BreakCond.memrd | BreakCond.memwr => k.brarMEMMASK
  | BreakCond.io | BreakCond.iord | BreakCond.iowr => k.brarIOMASK

/-- The full address-field mask of the Mask Register for a break condition:
`brmrMEMMASK` for the memory-space conditions, `brmrIOMASK` for the I/O ones. -/
def fullFieldMask (k : BrConst) : BreakCond → Nat
  | BreakCond.fetch | BreakCond.mem | BreakCond.memrd | BreakCond.memwr => k.brmrMEMMASK
  | BreakCond.io | BreakCond.iord | BreakCond.iowr => k.brmrIOMASK

/-- The value `brmr` that `cmdBR` forms for a break condition, before the
mask is applied to it. -/
def codedMask (k : BrConst) : BreakCond → Nat
  | BreakCond.fetch => k.brmrFETCH ||| k.brmrMEMMASK
  | BreakCond.mem => k.brmrMEMWR ||| k.brmrMEMWR ||| k.brmrMEMMASK
  | BreakCond.memrd => k.brmrMEMRD ||| k.brmrMEMMASK
  | BreakCond.memwr => k.brmrMEMWR ||| k.brmrMEMMASK
  | BreakCond.io => k.brmrIORD ||| k.brmrIOWR ||| k.brmrIOMASK
  | BreakCond.iord => k.brmrIORD ||| k.brmrIOMASK
  | BreakCond.iowr => k.brmrIOWR ||| k.brmrIOMASK

/-- The character of the unit digit `u`. -/
def unitChar (u : Nat) : Char := Char.ofNat (48 + u)

/-- All the condition-class mask constants of the Mask Register together. -/
def classMaskBits (k : BrConst) : Nat :=
  k.brmrFETCH ||| k.brmrMEMRD ||| k.brmrMEMWR ||| k.brmrIORD ||| k.brmrIOWR

/-- The layout of the Mask Register that the `--mask` option relies on: the
address-mask field of either space lies inside the 22-bit field `brarIOMASK`
to which `cmdBR` confines the mask, and the condition-class bits lie outside
of it. -/
def BrConst.Layout (k : BrConst) : Prop :=
  k.brmrMEMMASK &&& k.brarIOMASK = k.brmrMEMMASK
  ∧ k.brmrIOMASK &&& k.brarIOMASK = k.brmrIOMASK
  ∧ classMaskBits k &&& k.brarIOMASK = 0

/-- Example values of the constants, laid out as the usage text of `br` and
the literals in `cmdLP` describe: the bus flags above a 22-bit address, a
20-bit memory address, a 22-bit I/O address. -/
def exampleConst : BrConst :=
  { brarFETCH := 0o100000000000
    brarMEMRD := 0o040000000000
    brarMEMWR := 0o010000000000
    brarIORD := 0o040200000000
    brarIOWR := 0o010200000000
    brarMEMMASK := 0o3777777
    brarIOMASK := 0o17777777
    brmrFETCH := 0o100000000000
    brmrMEMRD := 0o040200000000
    brmrMEMWR := 0o010200000000
    brmrIORD := 0o040200000000
    brmrIOWR := 0o010200000000
    brmrMEMMASK := 0o3777777
    brmrIOMASK := 0o17777777
    flagFetch := 0o100000000000
    flagRead := 0o040000000000
    flagWrite := 0o010000000000
    flagPhys := 0o001000000000
    flagIO := 0o000200000000
    flagByte := 0o000020000000 }

/-- A register file with every breakpoint register at `v`, nothing written
and nothing printed yet. -/
def BrState.init (v : Nat) : BrState :=
  { brar := fun _ => v, brmr := fun _ => v, writes := [], out := [] }

instance (k : BrConst) : Decidable k.Layout := by
  unfold BrConst.Layout
  infer_instance

/-! ## Command dispatcher -/

/-- The handlers bound in the command table of `execute`. -/
inductive Cmd where
  | cmdBA | cmdHE | cmdBR | cmdCE | cmdCO | cmdCL | cmdCPU | cmdDA | cmdDUP | cmdDZ
  | cmdEX | cmdGO | cmdHA | cmdHS | cmdLP | cmdMR | cmdMT | cmdQU | cmdRD | cmdRP
  | cmdSH | cmdSI | cmdST | cmdTE | cmdTP | cmdTR | cmdWR | cmdZM | cmdZZ
  deriving DecidableEq, Repr

/-- The table `cmdList` of `execute`: the name of each command and the handler
bound to it, in the order of the source. -/
def cmdList : List (List Char × Cmd) :=
  [ (['!'], Cmd.cmdBA),
    (['?'], Cmd.cmdHE),
    (['B', 'R'], Cmd.cmdBR),
    (['C', 'E'], Cmd.cmdCE),
    (['C', 'O'], Cmd.cmdCO),
    (['C', 'L'], Cmd.cmdCL),
    (['C', 'P'], Cmd.cmdCPU),
    (['D', 'A'], Cmd.cmdDA),
    (['D', 'U'], Cmd.cmdDUP),
    (['D', 'Z'], Cmd.cmdDZ),
    (['E', 'X'], Cmd.cmdEX),
    (['G', 'O'], Cmd.cmdGO),
    (['H', 'A'], Cmd.cmdHA),
    (['H', 'E'], Cmd.cmdHE),
    (['H', 'S'], Cmd.cmdHS),
    (['L', 'P'], Cmd.cmdLP),
    (['M', 'R'], Cmd.cmdMR),
    (['M', 'T'], Cmd.cmdMT),
    (['Q', 'U'], Cmd.cmdQU),
    (['R', 'D'], Cmd.cmdRD),
    (['R', 'P'], Cmd.cmdRP),
    (['S', 'H'], Cmd.cmdSH),
    (['S', 'I'], Cmd.cmdSI),
    (['S', 'T'], Cmd.cmdST),
    (['T', 'E'], Cmd.cmdTE),
    (['T', 'P'], Cmd.cmdTP),
    (['T', 'R'], Cmd.cmdTR),
    (['W', 'R'], Cmd.cmdWR),
    (['Z', 'M'], Cmd.cmdZM),
    (['Z', 'Z'], Cmd.cmdZZ) ]

/-- The values `sa.sa_handler` takes: the disposition of SIGINT. -/
inductive SigAction where
  | SIG_DFL | SIG_IGN | sigHandler
  deriving DecidableEq, Repr

/-- What the handlers act on, as far as `execute` is concerned: the variable
`optind` of the argument parser, the disposition of SIGINT, and the rest
(target machine, devices, terminal), which `execute` does not look at. -/
structure World (σ : Type) where
  optind : Nat
  sa_handler : SigAction
  dev : σ

/-- How a call of a handler ends: it returns a value; or SIGINT arrives while
`sigHandler` is installed and `longjmp` leaves the handler; or the handler
calls `exit`. -/
inductive Outcome where
  | returned (ret : Bool)
  | interrupted
  | exited
  deriving DecidableEq, Repr

/-- The handlers: each takes `argv` (with `argc` its length) and the world,
and yields the way it ends and the world it leaves.  A handler gets its
tokens by value: it does not write into the part of the buffer that `execute`
has yet to scan. -/
abbrev Handlers (σ : Type) := Cmd → List (List Char) → World σ → Outcome × World σ

/-- What `execute` does that can be observed: the calls of handlers with their
arguments and the way they end, and the messages `execute` prints itself. -/
inductive ExecEvent where
  /-- The call `(this->*cmdList[i].function)(argc, argv)`. -/
  | call (cmd : Cmd) (argv : List (List Char)) (outcome : Outcome)
  /-- The text `<token>: Command not found.` -/
  | notFound (token : List Char)
  /-- The text `KS10: Command aborted. Caught SIGINT.` -/
  | aborted
  deriving DecidableEq, Repr

/-- The local variable `ret` of `execute`, the world and the events so far. -/
structure ExecState (σ : Type) where
  ret : Bool
  world : World σ
  log : List ExecEvent

/-- The end of `execute`: the value returned (`none` when a handler called
`exit` and `execute` does not return), the world and the events. -/
structure ExecResult (σ : Type) where
  ret : Option Bool
  world : World σ
  log : List ExecEvent

/-- The constant `maxarg` of `execute`. -/
def maxarg : Nat := 16

/-- The inner loop of `execute`, `while (*p != 0 && *p != ';')`, followed by
`more = (*p == ';'); *p = 0;` and the later `p++`.  `p` is the rest of the
buffer, `argv` the tokens found so far and `process` the flag of the source.
Returns `argv`, `more` and the buffer after the segment.

In the source `argv[i]` points into the buffer and the token it designates
ends at the next byte the scan sets to NUL, that is at the next space or at
the end of the segment.  Here the tokens are kept as strings: a character the
source only steps over while `process` is false belongs to the token being
read and is appended to it. -/
def formArgv : List Char → List (List Char) → Bool → List (List Char) × Bool × List Char
  | [], argv, _ => (argv, false, [])
  | c :: p, argv, process =>
    if c = NUL then (argv, false, p)
    else if c = ';' then (argv, true, p)
    else if c = ' ' then formArgv p argv true
    else if process ∧ argv.length < maxarg then formArgv p (argv ++ [[c]]) false
    else if process then formArgv p argv process
    else formArgv p (argv.dropLast ++ [argv.getLastD [] ++ [c]]) process

/-- The search of the command table in `execute`: the first entry whose name
has the upper-cased first two characters of the token `argv[0]`. -/
def findCmd (token : List Char) : List (List Char × Cmd) → Option Cmd
  | [] => none
  | e :: es =>
    if cchar e.1 0 = (cchar token 0).toUpper ∧ cchar e.1 1 = (cchar token 1).toUpper then
      some e.2
    else findCmd token es

/-- The part of the body of the outer loop of `execute` under the comment
`Execute commands`: nothing for an empty `argv`, else the call of the handler
found, or the message `Command not found`.  Yields the state to go on with,
or the end of `execute` when the handler does not return. -/
def runCommand {σ : Type} (h : Handlers σ) (argv : List (List Char)) (st : ExecState σ) :
    Except (ExecResult σ) (ExecState σ) :=
  if argv.length ≠ 0 then
    match findCmd (argv.headD []) cmdList with
    | some cmd =>
      match (h cmd argv st.world).1 with
      | Outcome.returned r =>
        Except.ok
          { ret := r
            world := (h cmd argv st.world).2
            log := st.log ++ [ExecEvent.call cmd argv (Outcome.returned r)] }
      | Outcome.interrupted =>
        Except.error
          { ret := some true
            world := { (h cmd argv st.world).2 with sa_handler := SigAction.SIG_DFL }
            log := st.log ++
              [ExecEvent.call cmd argv Outcome.interrupted, ExecEvent.aborted] }
      | Outcome.exited =>
        Except.error
          { ret := none
            world := (h cmd argv st.world).2
            log := st.log ++ [ExecEvent.call cmd argv Outcome.exited] }
    | none =>
      Except.ok { st with log := st.log ++ [ExecEvent.notFound (argv.headD [])] }
  else
    Except.ok st

/-- The last statements of `execute`: the default disposition of SIGINT is
restored and `ret` is returned. -/
def finish {σ : Type} (st : ExecState σ) : ExecResult σ :=
  { ret := some st.ret
    world := { st.world with sa_handler := SigAction.SIG_DFL }
    log := st.log }

/-- The outer loop of `execute`, `do ... while (more)`.  `fuel` bounds the
number of iterations; `none` means the bound was reached. -/
def execLoop {σ : Type} (h : Handlers σ) :
    Nat → List Char → ExecState σ → Option (ExecResult σ)
  | 0, _, _ => none
  | fuel + 1, p, st =>
    match runCommand h (formArgv p [] true).1 st with
    | Except.error r => some r
    | Except.ok st1 =>
      if (formArgv p [] true).2.1 then execLoop h fuel (formArgv p [] true).2.2 st1
      else some (finish st1)

/-- The state in which `execute` enters its loop: `sigHandler` is installed,
`optind` is 0 and `ret` is true. -/
def enter {σ : Type} (w : World σ) : ExecState σ :=
  { ret := true
    world := { w with sa_handler := SigAction.sigHandler, optind := 0 }
    log := [] }

/-- The function `command_t::execute`.  Each iteration of the outer loop
steps over one character of the buffer at least, so that one more iteration
than the buffer has characters is enough. -/
def execute {σ : Type} (h : Handlers σ) (buf : List Char) (w : World σ) :
    Option (ExecResult σ) :=
  execLoop h (buf.length + 1) buf (enter w)

/-- The argument list of a segment in the words of the specification: the
maximal runs of non-space characters of the segment, in order, cut to the
first 16. -/
def specArgv (seg : List Char) : List (List Char) :=
  ((seg.splitOn ' ').filter (fun t => t ≠ [])).take 16

/-- The dispatcher in the words of the specification, on the argument lists
of the segments of a line: each segment in turn is looked up and run, and the
value of the last handler run is returned. -/
def specRun {σ : Type} (h : Handlers σ) :
    List (List (List Char)) → ExecState σ → ExecResult σ
  | [], st => finish st
  | argv :: rest, st =>
    match runCommand h argv st with
    | Except.error r => r
    | Except.ok st1 => specRun h rest st1

/-- The value the last handler that returned has returned according to the
log, and `true` when the log has no such call. -/
def lastReturned (log : List ExecEvent) : Bool :=
  ((log.filterMap (fun e =>
      match e with
      | ExecEvent.call _ _ (Outcome.returned r) => some r
      | _ => none)).getLast?).getD true

/-- A result with the events `pre` put in front of its log. -/
def ExecResult.after {σ : Type} (pre : List ExecEvent) (r : ExecResult σ) : ExecResult σ :=
  { r with log := pre ++ r.log }

/-- Handlers that do nothing and return `true`, for exercising `execute`. -/
def idleHandlers : Handlers Unit := fun _ _ w => (Outcome.returned true, w)

/-- Handlers that do nothing; `cmdCO` returns `false`, the others `true`. -/
def sampleHandlers : Handlers Unit :=
  fun cmd _ w => (Outcome.returned (decide (cmd ≠ Cmd.cmdCO)), w)

/-- A world for exercising `execute`. -/
def sampleWorld : World Unit :=
  { optind := 3, sa_handler := SigAction.SIG_DFL, dev := () }

/-- The upper-cased first two characters of a token, as a C string: the code
under which `execute` looks the token up. -/
def codeOf (token : List Char) : List Char :=
  [(cchar token 0).toUpper, (cchar token 1).toUpper].takeWhile (fun c => c ≠ NUL)

/-- Handlers for exercising the interrupt path of `execute`: the handler of
`HA` is interrupted, the others return `true`. -/
def abortHandlers : Handlers Unit :=
  fun cmd _ w =>
    (if cmd = Cmd.cmdHA then Outcome.interrupted else Outcome.returned true, w)

/-- No call in the log has been interrupted. -/
def noInterrupt (log : List ExecEvent) : Prop :=
  ∀ cmd argv, ExecEvent.call cmd argv Outcome.interrupted ∉ log

/-- The name under which `cmdBR_printStatus` prints the Address Register of
a unit. -/
def brarName : Nat → String
  | 0 => "BRAR0"
  | 1 => "BRAR1"
  | 2 => "BRAR2"
  | _ => "BRAR3"

/-- The name under which `cmdBR_printStatus` prints the Mask Register of a
unit. -/
def brmrName : Nat → String
  | 0 => "BRMR0"
  | 1 => "BRMR1"
  | 2 => "BRMR2"
  | _ => "BRMR3"

/-- The message `printBRxR` prints for the register value `dbxr`: the value,
its six flags, and its address field, which is taken with the mask of the I/O
space when the I/O flag of the value is set and with the mask of the memory
space when it is not. -/
def decoded (k : BrConst) (regName : String) (dbxr : Nat) : BrMsg :=
  BrMsg.reg regName dbxr
    (dbxr &&& k.flagFetch != 0) (dbxr &&& k.flagRead != 0) (dbxr &&& k.flagWrite != 0)
    (dbxr &&& k.flagPhys != 0) (dbxr &&& k.flagIO != 0) (dbxr &&& k.flagByte != 0)
    (if dbxr &&& k.flagIO != 0 then dbxr &&& k.brarIOMASK else dbxr &&& k.brarMEMMASK)

/-! ## Terminal multiplexer -/

/-- One turn of the polling loop of `consoleOutput` as the surroundings decide
it: `key` is the value `getchar` returns when `select` reports input and
`none` when `select` returns 0; `halted` is what `ks10_t::halt()` returns in
the loop condition at the end of the turn. -/
structure Poll where
  key : Option Int
  halted : Bool
  deriving DecidableEq, Repr

/-- What `consoleOutput` does that can be observed. -/
inductive ConsoleEvent where
  /-- The call `ks10_t::putchar(ch)`, which forwards a byte to the console of
  the target. -/
  | putchar (ch : Int)
  /-- The text `^E` printed on detach. -/
  | detachNotice
  /-- The call `printPCIR(ks10_t::readPCIR())`. -/
  | printPCIR
  /-- The call `ks10_t::writeLPCCR(ks10_t::lpONLINE | ks10_t::readLPCCR())`. -/
  | lpOnline
  deriving DecidableEq, Repr

/-- The flag `ISIG` of `termios.h`, with its value on Linux. -/
def ISIG : Nat := 1

/-- The local variable `escape` of `consoleOutput`, the flags `c_lflag` of the
terminal (32 bits), the disposition of SIGINT and the events so far. -/
structure ConsoleState where
  escape : Bool
  c_lflag : Nat
  sa_handler : SigAction
  events : List ConsoleEvent
  deriving DecidableEq, Repr

/-- How the polling loop is left: with `break` on the detach key, by its
condition when the target has halted, or not yet (the turns given are used
up and the loop is still polling). -/
inductive LoopEnd where
  | detached | halted | polling
  deriving DecidableEq, Repr

/-- The body of the `if (select(...) != 0)` of `consoleOutput` for the key
`ch`: the state it leaves and whether it leaves the loop with `break`. -/
def consoleKey (ch : Int) (s : ConsoleState) : ConsoleState × Bool :=
  if !s.escape ∧ ch = 0x1b then
    ({ s with escape := true }, false)
  else if !s.escape ∧ ch = 0x05 then
    ({ s with events := s.events ++ [ConsoleEvent.detachNotice] }, true)
  else if !s.escape ∧ ch = 0x14 then
    ({ s with events := s.events ++ [ConsoleEvent.printPCIR] }, false)
  else if !s.escape ∧ ch = 0x0c then
    ({ s with events := s.events ++ [ConsoleEvent.lpOnline] }, false)
  else
    ({ s with
       events := s.events ++ [ConsoleEvent.putchar (if ch = 0x0a then 0x0d else ch)]
       escape := false }, false)

/-- The loop `do ... while (!ks10_t::halt())` of `consoleOutput` over the
turns given. -/
def consoleLoop : List Poll → ConsoleState → ConsoleState × LoopEnd
  | [], s => (s, LoopEnd.polling)
  | p :: ps, s =>
    match p.key with
    | none => if p.halted then (s, LoopEnd.halted) else consoleLoop ps s
    | some ch =>
      if (consoleKey ch s).2 then ((consoleKey ch s).1, LoopEnd.detached)
      else if p.halted then ((consoleKey ch s).1, LoopEnd.halted)
      else consoleLoop ps (consoleKey ch s).1

/-- The statements of `consoleOutput` before its loop: `escape` is false, the
flag `ISIG` of the terminal is cleared and SIGINT is ignored. -/
def attach (s : ConsoleState) : ConsoleState :=
  { s with
    escape := false
    c_lflag := s.c_lflag &&& (0xffffffff ^^^ ISIG)
    sa_handler := SigAction.SIG_IGN }

/-- The function `command_t::consoleOutput`.  `polls` are the turns of the
loop and `haltedAtReturn` is what `ks10_t::halt()` returns in the `return`
statement.  `none` means that the loop is still polling after the turns
given. -/
def consoleOutput (polls : List Poll) (haltedAtReturn : Bool) (s : ConsoleState) :
    Option (Bool × ConsoleState) :=
  match consoleLoop polls (attach s) with
  | (_, LoopEnd.polling) => none
  | (s1, _) => some (!haltedAtReturn, { s1 with c_lflag := s1.c_lflag ||| ISIG })

/-- The bytes forwarded to the console of the target, in order. -/
def forwarded (events : List ConsoleEvent) : List Int :=
  events.filterMap (fun e =>
    match e with
    | ConsoleEvent.putchar ch => some ch
    | _ => none)

/-- The byte forwarded for a key: a newline is forwarded as a carriage
return, any other key as it is. -/
def translate (ch : Int) : Int := if ch = 0x0a then 0x0d else ch

/-- A terminal in its usual mode (`ISIG`, `ICANON`, `ECHO` set) with the
default disposition of SIGINT, for exercising `consoleOutput`. -/
def sampleConsole : ConsoleState :=
  { escape := false, c_lflag := 0o13, sa_handler := SigAction.SIG_DFL, events := [] }

/-! ## Return paths of the dispatcher -/

/-- Every call of a handler in the log has returned. -/
def allReturned (log : List ExecEvent) : Prop :=
  ∀ cmd argv outcome, ExecEvent.call cmd argv outcome ∈ log → ∃ b, outcome = Outcome.returned b

/-! ## Frame of the breakpoint command -/

/-- The unit a call of `writeBRAR` or `writeBRMR` addresses. -/
def BrWrite.unit : BrWrite → Nat
  | BrWrite.brar u _ => u
  | BrWrite.brmr u _ => u

/-- From the state `s` to the state `t` only registers of the unit `u` have
been written: the registers of the other units are the same and every call
added to the writes addresses `u`. -/
def onlyUnit (u : Nat) (s t : BrState) : Prop :=
  (∀ v, v ≠ u → t.brar v = s.brar v ∧ t.brmr v = s.brmr v)
  ∧ ∃ ws, t.writes = s.writes ++ ws ∧ ∀ w ∈ ws, w.unit = u

/-- From the state `s` to the state `t` no breakpoint register has been
written. -/
def noWrite (s t : BrState) : Prop :=
  t.brar = s.brar ∧ t.brmr = s.brmr ∧ t.writes = s.writes

/-- The state a run of the option loop of `cmdBR` leaves. -/
def BrParse.state : BrParse → BrState
  | BrParse.returned s => s
  | BrParse.parsed _ _ _ _ s => s

/-! ## Octal numbers -/

/-- The loop of `parseOctal` computed in unbounded integers, that is without
the truncation of `num` to 64 bits. -/
def parseOctalWide : Nat → List Char → Nat → Nat × Bool
  | 0, _, num => (num, false)
  | n + 1, buf, num =>
    if '0' ≤ cchar buf 0 ∧ cchar buf 0 ≤ '7' then
      parseOctalWide n (buf.drop 1) ((num + ((cchar buf 0).toNat - ('0').toNat)) <<< 3)
    else
      (num, decide (cchar buf 0 ≠ NUL))

/-- The number a string of octal digits denotes. -/
def octalValue (digits : List Char) : Nat :=
  digits.foldl (fun n c => 8 * n + (c.toNat - ('0').toNat)) 0

/-- The longest prefix of `s` made of octal digits, cut to its first 12
digits. -/
def octalDigits (s : List Char) : List Char :=
  (s.takeWhile (fun c => decide ('0' ≤ c ∧ c ≤ '7'))).take 12

/-! ## Termination of the loader -/

/-- Whether the stream holds a whole image: records, each a header with the
continuation bit set followed by all the data words it announces, up to a
header with the continuation bit clear.  `n` bounds the number of headers. -/
def wholeImage : Nat → List Nat → Bool
  | 0, _ => false
  | n + 1, bytes =>
    decide (5 ≤ bytes.length) &&
      (if ks10_t.lh (rdword (bytes.take 5)) &&& 0o400000 = 0 then true
       else
         decide (5 * (262144 - ks10_t.lh (rdword (bytes.take 5))) ≤ (bytes.drop 5).length) &&
           wholeImage n
             ((bytes.drop 5).drop (5 * (262144 - ks10_t.lh (rdword (bytes.take 5))))))

/-! ## Option scanning across the segments of a line -/

/-- The table `options` of `cmdBR`: the name of each long option and whether
it takes an argument (`required_argument`), in the order of their indices. -/
def brOptions : List (List Char × Bool) :=
  [ ("help".toList, false),
    ("disable".toList, false),
    ("fetch".toList, true),
    ("mem".toList, true),
    ("memrd".toList, true),
    ("memwr".toList, true),
    ("io".toList, true),
    ("iord".toList, true),
    ("iowr".toList, true),
    ("mask".toList, true),
    ("raw".toList, true) ]

/-- The index of the long option with the name `name` in a table, if there is
one. -/
def findOption (name : List Char) : List (List Char × Bool) → Nat → Option (Nat × Bool)
  | [], _ => none
  | o :: os, i => if o.1 = name then some (i, o.2) else findOption name os (i + 1)

/-- One call of the library function `getopt_long(argc, argv, "", options,
&index)` with the scan at the elements `rest` of `argv`, the first of which is
`argv[optind]`.  Yields the result (`none` for the value `-1`) and the value
of `optind` after the call.

An element `--name` or `--name=value` is looked up in the table by its full
name; an option that takes an argument and has none after `=` takes the next
element; an element that is no option is stepped over.  What the library does
beyond that is left out: abbreviated names, clusters of one-letter options
(any element that begins with one `-` counts as unrecognized) and the
reordering of `argv` that puts the elements stepped over behind the
options. -/
def getoptScan (options : List (List Char × Bool)) :
    List (List Char) → Nat → Option Getopt × Nat
  | [], optind => (none, optind)
  | e :: rest, optind =>
    if e = ['-', '-'] then (none, optind + 1)
    else if e.take 2 = ['-', '-'] then
      match findOption ((e.drop 2).takeWhile (fun c => c ≠ '=')) options 0 with
      | none => (some (Getopt.unrecognized e), optind + 1)
      | some (i, hasArg) =>
        if hasArg then
          if '=' ∈ e.drop 2 then (some (Getopt.option i e), optind + 1)
          else
            match rest with
            | [] => (some (Getopt.unrecognized e), optind + 1)
            | a :: _ => (some (Getopt.option i a), optind + 2)
        else if '=' ∈ e.drop 2 then (some (Getopt.unrecognized e), optind + 1)
        else (some (Getopt.option i e), optind + 1)
    else if cchar e 0 = '-' ∧ e ≠ ['-'] then (some (Getopt.unrecognized e), optind + 1)
    else getoptScan options rest (optind + 1)

/-- The library function `getopt_long` on the argument list `argv` with the
global `optind` as the caller left it: the value 0 of `optind` makes the
library start over at `argv[1]`; any other value is where the scan goes on,
and at `argc` there is nothing left to scan and the call yields `-1`.  (A
value beyond `argc`, where the library would look at elements past the end
of the list, is treated as the value `argc`.) -/
def getopt_long (options : List (List Char × Bool)) (argv : List (List Char))
    (optind : Nat) : Option Getopt × Nat :=
  getoptScan options (argv.drop (if optind = 0 then 1 else optind))
    (if optind = 0 then 1 else optind)

/-- The successive calls of `getopt_long` a loop `for (;;)` makes until the
value `-1`: the results with the value of `optind` after each, and the value
of `optind` after the last call.  `fuel` bounds the number of calls. -/
def getoptCalls (options : List (List Char × Bool)) (argv : List (List Char)) :
    Nat → Nat → List (Getopt × Nat) × Nat
  | 0, optind => ([], optind)
  | fuel + 1, optind =>
    match getopt_long options argv optind with
    | (none, optind1) => ([], optind1)
    | (some g, optind1) =>
      ((g, optind1) :: (getoptCalls options argv fuel optind1).1,
       (getoptCalls options argv fuel optind1).2)

/-- Whether the option loop of `cmdBR` returns at this result of
`getopt_long`: at `'?'`, at `--help` and at `--disable`. -/
def brStops : Getopt → Bool
  | Getopt.unrecognized _ => true
  | Getopt.option index _ => decide (index = 0 ∨ index = 1)

/-- The value of `optind` when `cmdBR` returns: the value after the call of
`getopt_long` at which the option loop returns, or after the call that
yields `-1`. -/
def brOptind (calls : List (Getopt × Nat)) (last : Nat) : Nat :=
  match calls.find? (fun c => brStops c.1) with
  | some c => c.2
  | none => last

/-- The handlers with `cmdBR` bound to the command `BR`: it runs on the
breakpoint registers with the results `getopt_long` yields from the value of
`optind` in the world, and leaves `optind` as the library left it.  With one
argument `cmdBR` returns before it calls `getopt_long`.  The other handlers
are not looked at here: they return `true` and change nothing. -/
def brHandlers (k : BrConst) : Handlers BrState :=
  fun cmd argv w =>
    if cmd = Cmd.cmdBR then
      if argv.length = 1 then
        (Outcome.returned (cmdBR k 1 (argv.headD []) [] w.dev).1,
         { w with dev := (cmdBR k 1 (argv.headD []) [] w.dev).2 })
      else
        (Outcome.returned
           (cmdBR k argv.length (argv.headD [])
              ((getoptCalls brOptions argv argv.length w.optind).1.map Prod.fst) w.dev).1,
         { w with
           optind := brOptind (getoptCalls brOptions argv argv.length w.optind).1
                       (getoptCalls brOptions argv argv.length w.optind).2
           dev := (cmdBR k argv.length (argv.headD [])
              ((getoptCalls brOptions argv argv.length w.optind).1.map Prod.fst) w.dev).2 })
    else (Outcome.returned true, w)

/-- A world with every breakpoint register at 0, for exercising `execute`
with `brHandlers`. -/
def brWorld : World BrState :=
  { optind := 0, sa_handler := SigAction.SIG_DFL, dev := BrState.init 0 }

/-! ## Line editing of the console -/

/-- The `case cntl_u` of `commandLine`, the loop `do ... while (--count != 0)`.
`count` is an `unsigned int` of 32 bits and `out` are the bytes given to
`putchar`.  `fuel` bounds the number of turns; `none` means the bound was
reached. -/
def cntl_u : Nat → Nat → List Nat → Option (Nat × List Nat)
  | 0, _, _ => none
  | fuel + 1, count, out =>
    if (count + 2 ^ 32 - 1) % 2 ^ 32 ≠ 0 then
      cntl_u fuel ((count + 2 ^ 32 - 1) % 2 ^ 32) (out ++ [0x08, 0x20, 0x08])
    else
      some ((count + 2 ^ 32 - 1) % 2 ^ 32, out ++ [0x08, 0x20, 0x08])

/-- The bytes of `n` erase sequences: backspace, space, backspace. -/
def eraseSequences : Nat → List Nat
  | 0 => []
  | n + 1 => [0x08, 0x20, 0x08] ++ eraseSequences n

/-! ## Bus accesses and the NXM flag -/

/-- The calls of the bus access functions of `ks10_t` in the order they are
made; `nxmnxd` carries the value the query returned. -/
inductive BusEvent where
  | readMem (addr : Nat)
  | writeMem (addr data : Nat)
  | readIO (addr : Nat)
  | writeIO (addr data : Nat)
  | nxmnxd (flag : Bool)
  deriving DecidableEq, Repr

/-- What the commands `rd`, `wr` and the disassembly print. -/
inductive BusMsg where
  /-- A text that reports a failed access, such as
  `rd mem: memory access failed with NXM`. -/
  | failed (text : String)
  /-- The text `<addr>: <data>` of `rd`. -/
  | word (addr data : Nat)
  /-- The text `<addr>: <instruction>` of the disassembly. -/
  | dasm (addr data : Nat)
  /-- Any other text. -/
  | text (text : String)
  /-- The text `parseOctal` prints at an invalid character. -/
  | invalidChar
  deriving DecidableEq, Repr

/-- The target as the bus access functions show it: the words the memory and
the I/O space return, and the value `nxmnxd` returns after the calls made so
far. -/
structure Bus where
  mem : Nat → Nat
  io : Nat → Nat
  nxm : List BusEvent → Bool

/-- The calls made on the bus and the messages printed, in order. -/
structure BusState where
  trace : List BusEvent
  out : List BusMsg
  deriving DecidableEq, Repr

/-- The statement `printf(...)`: appends a message to the output. -/
def BusState.print (s : BusState) (m : BusMsg) : BusState :=
  { s with out := s.out ++ [m] }

namespace ks10_t

/-- Modelled from the spec: `ks10_t::readMem` (defined outside the sources at
hand) reads a word of target memory over the bus. -/
def readMem (bus : Bus) (addr : Nat) (s : BusState) : Nat × BusState :=
  (bus.mem addr, { s with trace := s.trace ++ [BusEvent.readMem addr] })

/-- Modelled from the spec: `ks10_t::writeMem` (defined outside the sources
at hand) writes a word of target memory over the bus. -/
def writeMem (addr data : Nat) (s : BusState) : BusState :=
  { s with trace := s.trace ++ [BusEvent.writeMem addr data] }

/-- Modelled from the spec: `ks10_t::readIO` (defined outside the sources at
hand) reads a word of the I/O space over the bus. -/
def readIO (bus : Bus) (addr : Nat) (s : BusState) : Nat × BusState :=
  (bus.io addr, { s with trace := s.trace ++ [BusEvent.readIO addr] })

/-- Modelled from the spec: `ks10_t::writeIO` (defined outside the sources at
hand) writes a word of the I/O space over the bus. -/
def writeIO (addr data : Nat) (s : BusState) : BusState :=
  { s with trace := s.trace ++ [BusEvent.writeIO addr data] }

/-- Modelled from the spec: `ks10_t::nxmnxd` (defined outside the sources at
hand) queries the sticky flag that a failed access sets. -/
def nxmnxd (bus : Bus) (s : BusState) : Bool × BusState :=
  (bus.nxm s.trace, { s with trace := s.trace ++ [BusEvent.nxmnxd (bus.nxm s.trace)] })

end ks10_t

/-- A call `parseOctal(arg)` of `cmdRD` or `cmdWR`: the number, and the state
after the message `parseOctal` may print. -/
def parseNumber (arg : List Char) (s : BusState) : Nat × BusState :=
  ((parseOctal arg).1, if (parseOctal arg).2 then s.print BusMsg.invalidChar else s)

/-- The test `strncasecmp(a, b, n) == 0` on strings without NUL. -/
def strncasecmpEq (a b : List Char) (n : Nat) : Bool :=
  (a.take n).map Char.toLower = (b.take n).map Char.toLower

/-- One turn of the loop of `rd mem <addr> <len>`: the read, the query of the
flag and the line printed. -/
def readMemChecked (bus : Bus) (addr : Nat) (s : BusState) : BusState :=
  if (ks10_t.nxmnxd bus (ks10_t.readMem bus addr s).2).1 then
    (ks10_t.nxmnxd bus (ks10_t.readMem bus addr s).2).2.print
      (BusMsg.failed "rd mem: memory access failed with NXM")
  else
    (ks10_t.nxmnxd bus (ks10_t.readMem bus addr s).2).2.print
      (BusMsg.word addr (ks10_t.readMem bus addr s).1)

/-- The loop `for (unsigned int i = 0; i < len; i++)` of `rd mem`, with `n`
turns to go; `addr` is a 64-bit word. -/
def cmdRD_memLoop (bus : Bus) : Nat → Nat → BusState → BusState
  | 0, _, s => s
  | n + 1, addr, s => cmdRD_memLoop bus n ((addr + 1) % 2 ^ 64) (readMemChecked bus addr s)

/-- The branch `mem` of `cmdRD`. -/
def cmdRD_mem (bus : Bus) (argv : List (List Char)) (s : BusState) : BusState :=
  if argv.length = 3 then
    readMemChecked bus (parseNumber (argv.getD 2 []) s).1 (parseNumber (argv.getD 2 []) s).2
  else if argv.length = 4 then
    cmdRD_memLoop bus
      ((parseNumber (argv.getD 3 []) (parseNumber (argv.getD 2 []) s).2).1 % 2 ^ 32)
      (parseNumber (argv.getD 2 []) s).1
      (parseNumber (argv.getD 3 []) (parseNumber (argv.getD 2 []) s).2).2
  else
    s.print (BusMsg.text "rd mem: unrecognized command")

/-- The branch `io` of `cmdRD`. -/
def cmdRD_io (bus : Bus) (argv : List (List Char)) (s : BusState) : BusState :=
  if argv.length = 3 then
    if (ks10_t.nxmnxd bus (ks10_t.readIO bus (parseNumber (argv.getD 2 []) s).1
          (parseNumber (argv.getD 2 []) s).2).2).1 then
      (ks10_t.nxmnxd bus (ks10_t.readIO bus (parseNumber (argv.getD 2 []) s).1
          (parseNumber (argv.getD 2 []) s).2).2).2.print
        (BusMsg.failed "rd mem: IO access failed with NXM")
    else
      (ks10_t.nxmnxd bus (ks10_t.readIO bus (parseNumber (argv.getD 2 []) s).1
          (parseNumber (argv.getD 2 []) s).2).2).2.print
        (BusMsg.word (parseNumber (argv.getD 2 []) s).1
          (ks10_t.readIO bus (parseNumber (argv.getD 2 []) s).1
            (parseNumber (argv.getD 2 []) s).2).1)
  else
    s.print (BusMsg.text "rd io: unrecognized command")

/-- The end of a branch of `cmdWR` after the write: the text `data written`,
the query of the flag with its report, and the note on arguments left
over. -/
def wrReport (bus : Bus) (argc : Nat) (written failed ignored : String) (s : BusState) :
    BusState :=
  let s1 := s.print (BusMsg.text written)
  let s2 := if (ks10_t.nxmnxd bus s1).1 then (ks10_t.nxmnxd bus s1).2.print (BusMsg.failed failed)
            else (ks10_t.nxmnxd bus s1).2
  if argc > 4 then s2.print (BusMsg.text ignored) else s2

/-- The function `cmdWR` after its option loop, from `if (argc < 2)` on. -/
def cmdWR (bus : Bus) (argv : List (List Char)) (s : BusState) : BusState :=
  if argv.length < 2 then s.print (BusMsg.text "wr: missing arguments")
  else if strncasecmpEq (argv.getD 1 []) "io".toList 2 then
    if argv.length < 4 then s.print (BusMsg.text "wr io: missing arguments")
    else
      wrReport bus argv.length "wr io: data written" "wr io: IO access failed with NXM"
        "wr io: additional arguments ignored"
        (ks10_t.writeIO (parseNumber (argv.getD 2 []) s).1
          (parseNumber (argv.getD 3 []) (parseNumber (argv.getD 2 []) s).2).1
          (parseNumber (argv.getD 3 []) (parseNumber (argv.getD 2 []) s).2).2)
  else if strncasecmpEq (argv.getD 1 []) "mem".toList 3 then
    if argv.length < 4 then s.print (BusMsg.text "wr mem: missing arguments")
    else
      wrReport bus argv.length "wr mem: data written." "wr mem: memory access failed with NXM"
        "wr mem: additional arguments ignored"
        (ks10_t.writeMem (parseNumber (argv.getD 2 []) s).1
          (parseNumber (argv.getD 3 []) (parseNumber (argv.getD 2 []) s).2).1
          (parseNumber (argv.getD 3 []) (parseNumber (argv.getD 2 []) s).2).2)
  else s.print (BusMsg.text "wr: unrecognized command")

/-- The loop of `dasmMEM` over `len` words with `n` turns to go.
`maxMemAddr` is the constant `ks10_t::maxMemAddr` of `ks10.hpp`. -/
def dasmLoop (bus : Bus) (maxMemAddr : Nat) : Nat → Nat → BusState → BusState
  | 0, _, s => s
  | n + 1, addr, s =>
    dasmLoop bus maxMemAddr n ((addr + 1) % 2 ^ 64)
      (if (ks10_t.nxmnxd bus (ks10_t.readMem bus addr s).2).1 then
         (ks10_t.nxmnxd bus (ks10_t.readMem bus addr s).2).2.print
           (BusMsg.failed "  Failed. (NXM)")
       else
         (ks10_t.nxmnxd bus (ks10_t.readMem bus addr s).2).2.print
           (BusMsg.dasm (addr &&& maxMemAddr) (ks10_t.readMem bus addr s).1))

/-- The function `dasmMEM`; `len` is an `unsigned int` of 32 bits. -/
def dasmMEM (bus : Bus) (maxMemAddr : Nat) (addr len : Nat) (s : BusState) : BusState :=
  dasmLoop bus maxMemAddr (len % 2 ^ 32) addr
    (s.print (BusMsg.text "KS10: Memory disassembly:"))

/-- The bus calls of `loadCode`: one `ks10_t::writeMem` for each data word,
and no call of `ks10_t::nxmnxd`. -/
def loadBus (s : LoadState) : List BusEvent :=
  s.mem.map (fun p => BusEvent.writeMem p.1 p.2)

/-- Whether a call is an access of the bus, as opposed to the query of the
flag. -/
def BusEvent.isAccess : BusEvent → Bool
  | BusEvent.nxmnxd _ => false
  | _ => true

/-- Whether every access in a list of bus calls is followed by a query of
the flag before the next access; `pending` says that an access is waiting
for its query. -/
def checkedFrom : Bool → List BusEvent → Bool
  | pending, [] => !pending
  | pending, e :: rest =>
    if e.isAccess then !pending && checkedFrom true rest else checkedFrom false rest

/-- Every access in the list is followed by a query of the flag before the
next access. -/
def checked (trace : List BusEvent) : Bool := checkedFrom false trace

/-- Whether a message reports a failed access. -/
def BusMsg.isFailure : BusMsg → Bool
  | BusMsg.failed _ => true
  | _ => false

/-- Every query that found the flag set has its report: there are as many
messages of failure as queries that returned `true`. -/
def reported (s : BusState) : Prop :=
  (s.out.filter BusMsg.isFailure).length
    = (s.trace.filter (fun e => decide (e = BusEvent.nxmnxd true))).length

/-- A target whose memory and I/O space hold the address as data and where
the flag is found set after an access above `0o1000`. -/
def sampleBus : Bus :=
  { mem := fun a => a
    io := fun a => a
    nxm := fun t =>
      match t.getLast? with
      | some (BusEvent.readMem a) => decide (0o1000 < a)
      | some (BusEvent.writeMem a _) => decide (0o1000 < a)
      | some (BusEvent.readIO a) => decide (0o1000 < a)
      | some (BusEvent.writeIO a _) => decide (0o1000 < a)
      | _ => false }

/-! ## Formatted output of the console firmware -/

/-- The string `upper_digits` of `stdio.cpp`. -/
def upper_digits : List Char := "0123456789ABCDEFGHIJKLMNOPQRSTUVWXYZ".toList

/-- The string `lower_digits` of `stdio.cpp`. -/
def lower_digits : List Char := "0123456789abcdefghijklmnopqrstuvwxyz".toList

/-- The recursion of `__utoa` and of `__ultoa`: the digits of `value / radix`
when that is not zero, then the digit of `value % radix`.  The result is the
string written to the buffer.  `fuel` bounds the depth of the recursion. -/
def utoaDigits : Nat → Nat → Nat → List Char → List Char
  | 0, _, _, _ => []
  | fuel + 1, value, radix, digits =>
    (if value / radix ≠ 0 then utoaDigits fuel (value / radix) radix digits else [])
      ++ [cchar digits (value % radix)]

/-- The function `__utoa`, for a radix of 2 at least; `value` is an
`unsigned int` of 32 bits, so that 32 levels of recursion are enough. -/
def __utoa (value radix : Nat) (digits : List Char) : List Char :=
  utoaDigits 32 (value % 2 ^ 32) radix digits

/-- The function `__ultoa`, for a radix of 2 at least; `value` is an
`unsigned long` of `lbits` bits. -/
def __ultoa (lbits value radix : Nat) (digits : List Char) : List Char :=
  utoaDigits lbits (value % 2 ^ lbits) radix digits

/-- The recursion of `__ulltoa` for the radix 8 or 16, by shift and mask. -/
def ulltoaDigits : Nat → Nat → Nat → Nat → List Char → List Char
  | 0, _, _, _, _ => []
  | fuel + 1, value, shift, mask, digits =>
    (if value >>> shift ≠ 0 then ulltoaDigits fuel (value >>> shift) shift mask digits else [])
      ++ [cchar digits (value &&& mask)]

/-- The function `__ulltoa`; `value` is an `unsigned long long` of 64 bits.
For a radix other than 16 and 8 it copies the text `Not implemented` to the
buffer. -/
def __ulltoa (value radix : Nat) (digits : List Char) : List Char :=
  if radix = 16 then ulltoaDigits 64 (value % 2 ^ 64) 4 15 digits
  else if radix = 8 then ulltoaDigits 64 (value % 2 ^ 64) 3 7 digits
  else "Not implemented".toList

/-- The conversion of an integer to an unsigned type of `bits` bits. -/
def toUnsigned (bits : Nat) (v : Int) : Nat := (v % 2 ^ bits).toNat

/-- The conversion of an integer to a signed type of `bits` bits. -/
def toSigned (bits : Nat) (v : Int) : Int :=
  (v + 2 ^ (bits - 1)) % 2 ^ bits - 2 ^ (bits - 1)

/-- The function `itoa`; `value` is an `int` of 32 bits. -/
def itoa (value : Int) (radix : Int) : List Char :=
  if radix < 2 ∨ radix > 36 then []
  else if radix = 10 ∧ value < 0 then
    '-' :: __utoa (toUnsigned 32 (toSigned 32 (-value))) radix.toNat lower_digits
  else __utoa (toUnsigned 32 value) radix.toNat lower_digits

/-- The function `ltoa`; `value` is a `long` of `lbits` bits. -/
def ltoa (lbits : Nat) (value : Int) (radix : Int) : List Char :=
  if radix < 2 ∨ radix > 36 then []
  else if radix = 10 ∧ value < 0 then
    '-' :: __ultoa lbits (toUnsigned lbits (toSigned lbits (-value))) radix.toNat lower_digits
  else __ultoa lbits (toUnsigned lbits value) radix.toNat lower_digits

/-- The function `lltoa`; `value` is a `long long` of 64 bits. -/
def lltoa (value : Int) (radix : Int) : List Char :=
  if radix < 2 ∨ radix > 36 then []
  else if radix = 10 ∧ value < 0 then
    '-' :: __ulltoa (toUnsigned 64 (toSigned 64 (-value))) radix.toNat lower_digits
  else __ulltoa (toUnsigned 64 value) radix.toNat lower_digits

/-- The function `putchar` of `stdio.cpp`: a newline goes out as carriage
return and line feed.  `out` are the characters given to `putUART`. -/
def putchar (ch : Char) (out : List Char) : List Char :=
  if ch = '\n' then out ++ ['\r', '\n'] else out ++ [ch]

/-- The function `puts`. -/
def puts (s : List Char) (out : List Char) : List Char :=
  s.foldl (fun o ch => putchar ch o) out

/-- The function `padout`: `width` is an `int` that `printf` passes from an
`unsigned int`; the string is preceded by `padchar` up to the width. -/
def padout (width : Nat) (padchar : Char) (buffer : List Char) (out : List Char) :
    List Char :=
  puts buffer
    ((List.replicate (if width < 2 ^ 31 then width - buffer.length else 0) padchar).foldl
      (fun o ch => putchar ch o) out)

/-- An argument of `printf` after the format: a number or a string. -/
inductive Arg where
  | num (v : Int)
  | str (s : List Char)
  deriving DecidableEq, Repr

/-- The number `va_arg` takes from an argument. -/
def Arg.value : Arg → Int
  | Arg.num v => v
  | Arg.str _ => 0

/-- The string `va_arg` takes from an argument. -/
def Arg.string : Arg → List Char
  | Arg.num _ => []
  | Arg.str s => s

/-- The loops `while (ch >= '0' && ch <= '9')` of `printf` for the width and
the precision, in `unsigned int` arithmetic.  The head of the list is `ch`. -/
def scanNumber : List Char → Nat → Nat × List Char
  | [], n => (n, [])
  | c :: cs, n =>
    if '0' ≤ c ∧ c ≤ '9' then scanNumber cs ((n * 10 + (c.toNat - ('0').toNat)) % 2 ^ 32)
    else (n, c :: cs)

/-- What `printf` has parsed of a conversion when it reaches the `switch`:
the pad character, the width, the size (0, 1 for `l`, 2 for `ll`), the
conversion character `ch` and the rest of the format. -/
structure Conversion where
  padchar : Char
  width : Nat
  size : Nat
  ch : Char
  fmt : List Char
  deriving DecidableEq, Repr

/-- The statements of `printf` from the character after `%` to the `switch`:
the flag `-`, the pad character `0`, the width, the precision and the size
modifiers.  `p` is the format after the `%`. -/
def parseConversion (p : List Char) : Conversion :=
  let p1 := if cchar p 0 = '-' then p.drop 1 else p
  let p2 := if cchar p1 0 = '0' then p1.drop 1 else p1
  let p3 := (scanNumber p2 0).2
  let p4 := if cchar p3 0 = '.' then (scanNumber (p3.drop 1) 0).2 else p3
  let p5 := if cchar p4 0 = 'l' then p4.drop 1 else p4
  let p6 := if cchar p5 0 = 'l' then p5.drop 1 else p5
  { padchar := if cchar p1 0 = '0' then '0' else ' '
    width := (scanNumber p2 0).1
    size := if cchar p5 0 = 'l' then 2 else if cchar p4 0 = 'l' then 1 else 0
    ch := cchar p6 0
    fmt := p6.drop 1 }

/-- The string a numeric conversion of `printf` writes to its buffer: the
`switch (size)` under the cases `u`, `o`, `d`, `x` and `X`. -/
def convert (lbits : Nat) (ch : Char) (size : Nat) (v : Int) : List Char :=
  if ch = 'd' then
    if size = 0 then itoa (toSigned 32 v) 10
    else if size = 1 then ltoa lbits (toSigned lbits v) 10
    else lltoa (toSigned 64 v) 10
  else
    if size = 0 then
      __utoa (toUnsigned 32 v) (if ch = 'u' then 10 else if ch = 'o' then 8 else 16)
        (if ch = 'X' then upper_digits else lower_digits)
    else if size = 1 then
      __ultoa lbits (toUnsigned lbits v) (if ch = 'u' then 10 else if ch = 'o' then 8 else 16)
        (if ch = 'X' then upper_digits else lower_digits)
    else
      __ulltoa (toUnsigned 64 v) (if ch = 'u' then 10 else if ch = 'o' then 8 else 16)
        (if ch = 'X' then upper_digits else lower_digits)

/-- The loop `while ((ch = *fmt++))` of `printf`.  `lbits` is the number of
bits of a `long`, `args` are the arguments not yet taken and `out` the
characters given to `putUART`.  `fuel` bounds the number of turns; `none`
means the bound was reached. -/
def printfLoop (lbits : Nat) : Nat → List Char → List Arg → List Char → Option (List Char)
  | 0, _, _, _ => none
  | fuel + 1, fmt, args, out =>
    if cchar fmt 0 = NUL then some out
    else if cchar fmt 0 ≠ '%' then printfLoop lbits fuel (fmt.drop 1) args (putchar (cchar fmt 0) out)
    else
      let c := parseConversion (fmt.drop 1)
      if c.ch = NUL then some out
      else if c.ch = 'u' ∨ c.ch = 'o' ∨ c.ch = 'd' ∨ c.ch = 'x' ∨ c.ch = 'X' then
        printfLoop lbits fuel c.fmt (args.drop 1)
          (padout c.width c.padchar (convert lbits c.ch c.size (args.headD (Arg.num 0)).value) out)
      else if c.ch = 'c' then
        printfLoop lbits fuel c.fmt (args.drop 1)
          (putchar (Char.ofNat (toUnsigned 8 (args.headD (Arg.num 0)).value)) out)
      else if c.ch = 's' then
        printfLoop lbits fuel c.fmt (args.drop 1)
          (padout c.width NUL (args.headD (Arg.num 0)).string out)
      else if c.ch = '%' then printfLoop lbits fuel c.fmt args (putchar '%' out)
      else printfLoop lbits fuel c.fmt args out

/-- The function `printf` of `stdio.cpp`.  Each turn of its loop takes one
character of the format at least. -/
def printf (lbits : Nat) (fmt : List Char) (args : List Arg) : Option (List Char) :=
  printfLoop lbits (fmt.length + 1) fmt args []

/-- The value of a digit: 0 to 9 for `0` to `9`, 10 to 35 for `a` to `z`, and
36 for a character that is no digit. -/
def digitValue (c : Char) : Nat :=
  if '0' ≤ c ∧ c ≤ '9' then c.toNat - ('0').toNat
  else if 'a' ≤ c ∧ c ≤ 'z' then c.toNat - ('a').toNat + 10
  else 36

/-- The number a string of digits denotes in a radix. -/
def valueOf (radix : Nat) (s : List Char) : Nat :=
  s.foldl (fun n c => radix * n + digitValue c) 0

/-- The string `s` is the number `v` written in the radix `radix` with the
digits `0` to `9` and `a` to `z`, without leading zeros. -/
def isNumeral (radix v : Nat) (s : List Char) : Prop :=
  s ≠ [] ∧ (∀ c ∈ s, digitValue c < radix) ∧ valueOf radix s = v
    ∧ (s.head? = some '0' → s = ['0'])

/-! ## Properties of the boot-image loader -/

theorem and_7f_lt (x : Nat) : x &&& 0x7f < 128 :=
  Nat.and_lt_two_pow x (n := 7) (by norm_num)

theorem top_bit (x : Nat) (h : x < 256) : (x &&& 0x80) >>> 7 = x >>> 7 := by
  apply Nat.eq_of_testBit_eq
  intro i
  simp only [Nat.testBit_shiftRight, Nat.testBit_and]
  by_cases hi : i = 0
  · subst hi; simp; intro _; decide
  · have : x.testBit (7 + i) = false := by
      apply Nat.testBit_lt_two_pow
      calc x < 256 := h
        _ = 2 ^ 8 := by norm_num
        _ ≤ 2 ^ (7 + i) := Nat.pow_le_pow_right (by norm_num) (by omega)
    simp [this]

theorem shl_or (a b i : Nat) (h : b < 2 ^ i) : a * 2 ^ i ||| b = a * 2 ^ i + b := by
  rw [Nat.mul_comm a, Nat.mul_add_lt_is_or h]

theorem pack (f0 f1 f2 f3 f4 t : Nat) (h1 : f1 < 128) (h2 : f2 < 128) (h3 : f3 < 128)
    (h4 : f4 < 128) (ht : t < 2) :
    (f0 <<< 29) ||| (f1 <<< 22) ||| (f2 <<< 15) ||| (f3 <<< 8) ||| (f4 <<< 1) ||| t
      = f0 * 2^29 + f1 * 2^22 + f2 * 2^15 + f3 * 2^8 + f4 * 2 + t := by
  simp only [Nat.shiftLeft_eq]
  rw [shl_or f0 _ 29 (by omega)]
  have e2 : f0 * 2^29 + f1 * 2^22 = (f0 * 2^7 + f1) * 2^22 := by ring
  rw [e2, shl_or _ _ 22 (by omega)]
  have e3 : (f0 * 2^7 + f1) * 2^22 + f2 * 2^15 = (f0 * 2^14 + f1 * 2^7 + f2) * 2^15 := by ring
  rw [e3, shl_or _ _ 15 (by omega)]
  have e4 : (f0 * 2^14 + f1 * 2^7 + f2) * 2^15 + f3 * 2^8
      = (f0 * 2^21 + f1 * 2^14 + f2 * 2^7 + f3) * 2^8 := by ring
  rw [e4, shl_or _ _ 8 (by omega)]
  have e5 : (f0 * 2^21 + f1 * 2^14 + f2 * 2^7 + f3) * 2^8 + f4 * 2^1
      = (f0 * 2^28 + f1 * 2^21 + f2 * 2^14 + f3 * 2^7 + f4) * 2^1 := by ring
  rw [e5, shl_or _ _ 1 (by omega)]
  ring

/-- C1: for every group of five bytes, `rdword` is the sum of its six fields,
the low seven bits of bytes 0..3 at bit positions 29, 22, 15 and 8, the low
seven bits of byte 4 at position 1 and the top bit of byte 4 at position 0.
The code forms the word with bitwise OR, so the fields do not overlap; the
word is below `2 ^ 36`. -/
theorem rdword_fields (b0 b1 b2 b3 b4 : Nat) (_h0 : b0 < 256) (_h1 : b1 < 256)
    (_h2 : b2 < 256) (_h3 : b3 < 256) (h4 : b4 < 256) :
    rdword [b0, b1, b2, b3, b4]
      = (b0 &&& 0x7f) * 2^29 + (b1 &&& 0x7f) * 2^22 + (b2 &&& 0x7f) * 2^15
        + (b3 &&& 0x7f) * 2^8 + (b4 &&& 0x7f) * 2 + (b4 >>> 7)
    ∧ rdword [b0, b1, b2, b3, b4] < 2^36 := by
  have ht : b4 >>> 7 < 2 := by
    rw [Nat.shiftRight_eq_div_pow]; omega
  have e : rdword [b0, b1, b2, b3, b4]
      = (b0 &&& 0x7f) * 2^29 + (b1 &&& 0x7f) * 2^22 + (b2 &&& 0x7f) * 2^15
        + (b3 &&& 0x7f) * 2^8 + (b4 &&& 0x7f) * 2 + (b4 >>> 7) := by
    simp only [rdword, List.getD_cons_zero, List.getD_cons_succ, top_bit b4 h4]
    exact pack _ _ _ _ _ _ (and_7f_lt _) (and_7f_lt _) (and_7f_lt _) (and_7f_lt _) ht
  refine ⟨e, ?_⟩
  rw [e]
  have := and_7f_lt b0; have := and_7f_lt b1; have := and_7f_lt b2
  have := and_7f_lt b3; have := and_7f_lt b4
  omega

/-- C1 at the bytes `FF 81 7F 00 80`: the word is `0o774037700001`. -/
theorem rdword_fields_witness :
    rdword [0xff, 0x81, 0x7f, 0x00, 0x80]
      = (0xff &&& 0x7f) * 2^29 + (0x81 &&& 0x7f) * 2^22 + (0x7f &&& 0x7f) * 2^15
        + (0x00 &&& 0x7f) * 2^8 + (0x80 &&& 0x7f) * 2 + (0x80 >>> 7)
    ∧ rdword [0xff, 0x81, 0x7f, 0x00, 0x80] < 2^36 :=
  rdword_fields 0xff 0x81 0x7f 0x00 0x80 (by decide) (by decide) (by decide)
    (by decide) (by decide)

theorem and_bit17 (x : Nat) : x &&& 0o400000 = 0 ↔ x / 131072 % 2 = 0 := by
  have e : (0o400000 : Nat) = 2 ^ 17 := by norm_num
  rw [e]
  constructor
  · intro h
    have h1 : (x &&& 2 ^ 17).testBit 17 = false := by rw [h]; simp
    rw [Nat.testBit_and, Nat.testBit_two_pow_self, Bool.and_true,
      Nat.testBit_to_div_mod] at h1
    have h2 : ¬ (x / 2 ^ 17 % 2 = 1) := by simpa using h1
    norm_num at h2
    omega
  · intro h
    apply Nat.eq_of_testBit_eq
    intro j
    rw [Nat.testBit_and, Nat.testBit_two_pow, Nat.zero_testBit]
    by_cases hj : 17 = j
    · subst hj
      rw [Nat.testBit_to_div_mod]
      norm_num
      omega
    · simp [hj]

theorem and_mask18 (x : Nat) : x &&& 0o777777 = x % 262144 := by
  have e : (0o777777 : Nat) = 2 ^ 18 - 1 := by norm_num
  rw [e, Nat.and_pow_two_sub_one_eq_mod]

theorem getdata_mem (junk : Nat → List Nat) (s : LoadState) (m : List (Nat × Nat)) :
    getdata junk { s with mem := m }
      = ((getdata junk s).1, { (getdata junk s).2 with mem := m }) := rfl

theorem getWords_mem (junk : Nat → List Nat) (n : Nat) :
    ∀ (s : LoadState) (m : List (Nat × Nat)),
      getWords junk n { s with mem := m }
        = ((getWords junk n s).1, { (getWords junk n s).2 with mem := m }) := by
  induction n with
  | zero => intro s m; rfl
  | succ n ih =>
    intro s m
    have e : (getdata junk { s with mem := m }).2 = { (getdata junk s).2 with mem := m } := rfl
    have e1 : (getdata junk { s with mem := m }).1 = (getdata junk s).1 := rfl
    unfold getWords
    rw [e, e1, ih]

theorem getWords_mem_eq (junk : Nat → List Nat) (n : Nat) :
    ∀ s : LoadState, (getWords junk n s).2.mem = s.mem := by
  induction n with
  | zero => intro s; rfl
  | succ n ih => intro s; simp only [getWords, ih]; rfl

theorem readRecord_run (junk : Nat → List Nat) (n : Nat) :
    n ≤ 131072 → ∀ (a : Nat) (s : LoadState) (fuel : Nat), n ≤ fuel →
      readRecord junk fuel ((262144 - n) % 262144) a s
        = some { (getWords junk n s).2 with
                 mem := s.mem ++ recordWrites a (getWords junk n s).1 } := by
  induction n with
  | zero =>
    intro _ a s fuel _
    have h0 : (262144 - 0) % 262144 = 0 := by norm_num
    have hbit : ¬ ((0 : Nat) &&& 0o400000 ≠ 0) := by simp
    rw [h0]
    unfold readRecord
    rw [if_neg hbit]
    simp only [getWords, recordWrites, List.append_nil]
  | succ n ih =>
    intro hn a s fuel hf
    obtain ⟨f, rfl⟩ : ∃ f, fuel = f + 1 := ⟨fuel - 1, by omega⟩
    have hw : (262144 - (n + 1)) % 262144 = 262144 - (n + 1) := Nat.mod_eq_of_lt (by omega)
    have hbit : (262144 - (n + 1)) &&& 0o400000 ≠ 0 := by
      rw [Ne, and_bit17]; omega
    have hnext : (262144 - (n + 1) + 1) &&& 0o777777 = (262144 - n) % 262144 := by
      rw [and_mask18]; congr 1; omega
    rw [hw]
    unfold readRecord
    rw [if_pos hbit]
    simp only [hnext]
    rw [ih (by omega) _ _ f (by omega), getWords_mem]
    have hm : (getdata junk s).2.mem = s.mem := rfl
    simp [getWords, recordWrites, List.append_assoc, hm]


theorem recordWrites_eq (ds : List Nat) : ∀ a : Nat,
    recordWrites a ds
      = (List.range ds.length).map (fun k => ((a + (k + 1)) % 262144, ds.getD k 0)) := by
  induction ds with
  | nil => intro a; rfl
  | cons d ds ih =>
    intro a
    rw [recordWrites, ih, List.length_cons, List.range_succ_eq_map, List.map_cons,
      List.map_map, and_mask18]
    refine congrArg₂ List.cons rfl ?_
    apply List.map_congr_left
    intro k _
    simp only [Function.comp, List.getD_cons_succ, Prod.mk.injEq, and_true]
    omega

theorem getWords_length (junk : Nat → List Nat) (n : Nat) :
    ∀ s : LoadState, (getWords junk n s).1.length = n := by
  induction n with
  | zero => intro s; rfl
  | succ n ih => intro s; simp [getWords, ih]

theorem getWords_stream (junk : Nat → List Nat) (n : Nat) :
    ∀ s : LoadState, (getWords junk n s).2.stream = s.stream.drop (5 * n)
      ∧ (getWords junk n s).2.calls = s.calls + n
      ∧ (getWords junk n s).2.cir = s.cir := by
  induction n with
  | zero => intro s; simp [getWords]
  | succ n ih =>
    intro s
    have h1 : (getdata junk s).2.stream = s.stream.drop 5 := rfl
    have h2 : (getdata junk s).2.calls = s.calls + 1 := rfl
    have h3 : (getdata junk s).2.cir = s.cir := rfl
    simp only [getWords, ih, h1, h2, h3, List.drop_drop]
    refine ⟨?_, ?_, trivial⟩
    · congr 1; omega
    · omega

theorem getWords_getD (junk : Nat → List Nat) (n : Nat) :
    ∀ (s : LoadState) (k : Nat), k < n →
      (getWords junk n s).1.getD k 0
        = rdword (fread (junk (s.calls + k)) 5 (s.stream.drop (5 * k))).1 := by
  induction n with
  | zero => intro s k hk; omega
  | succ n ih =>
    intro s k hk
    cases k with
    | zero => simp [getWords, getdata]
    | succ k =>
      have h1 : (getdata junk s).2.stream = s.stream.drop 5 := rfl
      have h2 : (getdata junk s).2.calls = s.calls + 1 := rfl
      simp only [getWords, List.getD_cons_succ]
      rw [ih _ k (by omega), h1, h2, List.drop_drop]
      have e1 : s.calls + 1 + k = s.calls + (k + 1) := by omega
      have e2 : 5 + 5 * k = 5 * (k + 1) := by omega
      rw [e1, e2]

theorem lh_lt (d : Nat) : ks10_t.lh d < 262144 := by
  unfold ks10_t.lh
  rw [and_mask18]
  omega

/-- The image used to exercise the loader: the header `FF FF FF FF FF`
(`0777777,,0777777`), one data word and a terminating header of zeros. -/
theorem ffImage_header :
    (getdata (fun _ => [])
      { stream := [0xff, 0xff, 0xff, 0xff, 0xff, 1, 2, 3, 4, 5, 0, 0, 0, 0, 0],
        calls := 0, mem := [], cir := [], out := [] }).1 = 0o777777777777 := by
  decide

/-- C2: when the header the loader reads has the left half `w` with
`0400000 ≤ w` (so `w ≤ 0777777`) and the right half `a`, the loader, given
fuel for `n = 01000000 - w` iterations, reads exactly `n` data words
`d1 .. dn`, the word `dk` being decoded from the five bytes at offset `5 k`
after the header, and makes exactly the memory writes
`writeMem ((a + k) mod 2 ^ 18, dk)` for `k = 1 .. n` in that order; it then
goes on with the next header, read at offset `5 + 5 n`.  For the header
`0777777,,0777777` one data word is written, to address 0. -/
theorem loadCode_record (opJRST : Nat) (junk : Nat → List Nat) (s : LoadState) (f : Nat)
    (hw : 0o400000 ≤ ks10_t.lh (getdata junk s).1)
    (hf : 0o1000000 - ks10_t.lh (getdata junk s).1 ≤ f) :
    (getWords junk (0o1000000 - ks10_t.lh (getdata junk s).1) (getdata junk s).2).1.length
        = 0o1000000 - ks10_t.lh (getdata junk s).1
    ∧ (∀ k, k < 0o1000000 - ks10_t.lh (getdata junk s).1 →
        (getWords junk (0o1000000 - ks10_t.lh (getdata junk s).1) (getdata junk s).2).1.getD k 0
          = rdword (fread (junk (s.calls + 1 + k)) 5 (s.stream.drop (5 + 5 * k))).1)
    ∧ loadLoop opJRST junk (f + 1) s
        = loadLoop opJRST junk f
            { stream := s.stream.drop (5 + 5 * (0o1000000 - ks10_t.lh (getdata junk s).1))
              calls := s.calls + 1 + (0o1000000 - ks10_t.lh (getdata junk s).1)
              mem := s.mem ++
                (List.range (0o1000000 - ks10_t.lh (getdata junk s).1)).map
                  (fun k => ((ks10_t.rh (getdata junk s).1 + (k + 1)) % 2 ^ 18,
                    (getWords junk (0o1000000 - ks10_t.lh (getdata junk s).1)
                      (getdata junk s).2).1.getD k 0))
              cir := s.cir
              out := (getWords junk (0o1000000 - ks10_t.lh (getdata junk s).1)
                      (getdata junk s).2).2.out }
    ∧ ((getdata junk s).1 = 0o777777777777 →
        loadLoop opJRST junk (f + 1) s
          = loadLoop opJRST junk f
              { stream := s.stream.drop 10
                calls := s.calls + 2
                mem := s.mem ++ [(0, rdword (fread (junk (s.calls + 1)) 5 (s.stream.drop 5)).1)]
                cir := s.cir
                out := (getdata junk (getdata junk s).2).2.out }) := by
  have hlt := lh_lt (getdata junk s).1
  have h1 : (getdata junk s).2.stream = s.stream.drop 5 := rfl
  have h2 : (getdata junk s).2.calls = s.calls + 1 := rfl
  have h3 : (getdata junk s).2.cir = s.cir := rfl
  have h4 : (getdata junk s).2.mem = s.mem := rfl
  have hp : (2 : Nat) ^ 18 = 262144 := by norm_num
  have hbit : ¬ (ks10_t.lh (getdata junk s).1 &&& 0o400000 = 0) := by
    rw [and_bit17]; omega
  have main : ∀ n, 262144 - ks10_t.lh (getdata junk s).1 = n → n ≤ f →
      loadLoop opJRST junk (f + 1) s
        = loadLoop opJRST junk f
            { stream := s.stream.drop (5 + 5 * n)
              calls := s.calls + 1 + n
              mem := s.mem ++
                (List.range n).map
                  (fun k => ((ks10_t.rh (getdata junk s).1 + (k + 1)) % 262144,
                    (getWords junk n (getdata junk s).2).1.getD k 0))
              cir := s.cir
              out := (getWords junk n (getdata junk s).2).2.out } := by
    intro n hn hnf
    have hwn : ks10_t.lh (getdata junk s).1 = (262144 - n) % 262144 := by omega
    rw [loadLoop]
    simp only [if_neg hbit]
    rw [hwn, readRecord_run junk n (by omega) _ _ f hnf, recordWrites_eq, getWords_length]
    simp only []
    obtain ⟨e1, e2, e3⟩ := getWords_stream junk n (getdata junk s).2
    rw [e1, e2, e3, h1, h2, h3, h4, List.drop_drop]
  rw [hp]
  refine ⟨getWords_length junk _ _, ?_, main _ rfl hf, ?_⟩
  · intro k hk
    rw [getWords_getD junk _ _ k hk, h1, h2, List.drop_drop]
  · intro hff
    have hl : ks10_t.lh (getdata junk s).1 = 262143 := by rw [hff]; decide
    have hr : ks10_t.rh (getdata junk s).1 = 262143 := by rw [hff]; decide
    have hn : 262144 - ks10_t.lh (getdata junk s).1 = 1 := by omega
    rw [main 1 hn (by omega), hr]
    have e : (getWords junk 1 (getdata junk s).2).1.getD 0 0
        = rdword (fread (junk (s.calls + 1)) 5 (s.stream.drop 5)).1 := by
      rw [getWords_getD junk 1 _ 0 (by omega), h1, h2]
      simp
    have hr1 : List.range 1 = [0] := rfl
    simp only [hr1, List.map_cons, List.map_nil, e]
    rfl

/-- C2 on an image that starts with the bytes `FF FF FF FF FF`: the loader
reads the one data word that follows and writes it to address 0, then reads
the terminating header and returns. -/
theorem loadCode_record_witness :
    (0o400000 ≤ ks10_t.lh (getdata (fun _ => [])
      { stream := [0xff, 0xff, 0xff, 0xff, 0xff, 1, 2, 3, 4, 5, 0, 0, 0, 0, 0],
        calls := 0, mem := [], cir := [], out := [] }).1)
    ∧ loadCode 0o254000 (fun _ => []) 2
        (some [0xff, 0xff, 0xff, 0xff, 0xff, 1, 2, 3, 4, 5, 0, 0, 0, 0, 0])
      = some (true, { stream := [], calls := 3, mem := [(0, rdword [1, 2, 3, 4, 5])],
                      cir := [], out := [] }) := by
  refine ⟨by decide, ?_⟩
  unfold loadCode
  simp only []
  rw [(loadCode_record 0o254000 (fun _ => [])
    { stream := [0xff, 0xff, 0xff, 0xff, 0xff, 1, 2, 3, 4, 5, 0, 0, 0, 0, 0],
      calls := 0, mem := [], cir := [], out := [] } 1 (by decide) (by decide)).2.2.2
    ffImage_header]
  decide

theorem readRecord_grows (junk : Nat → List Nat) (fuel : Nat) :
    ∀ (words addr : Nat) (s s' : LoadState),
      readRecord junk fuel words addr s = some s' →
        s.calls ≤ s'.calls ∧ ∃ t, s'.mem = s.mem ++ t := by
  induction fuel with
  | zero =>
    intro words addr s s' h
    unfold readRecord at h
    by_cases hb : words &&& 0o400000 ≠ 0
    · rw [if_pos hb] at h; cases h
    · rw [if_neg hb] at h
      cases h
      exact ⟨le_refl _, [], by simp⟩
  | succ fuel ih =>
    intro words addr s s' h
    unfold readRecord at h
    by_cases hb : words &&& 0o400000 ≠ 0
    · rw [if_pos hb] at h
      obtain ⟨hc, t, ht⟩ := ih _ _ _ _ h
      refine ⟨?_, ((addr + 1) &&& 0o777777, (getdata junk s).1) :: t, ?_⟩
      · have : (getdata junk s).2.calls = s.calls + 1 := rfl
        simp only [this] at hc
        omega
      · rw [ht]
        have : (getdata junk s).2.mem = s.mem := rfl
        simp only [this, List.append_assoc, List.singleton_append]
    · rw [if_neg hb] at h
      cases h
      exact ⟨le_refl _, [], by simp⟩

theorem loadLoop_grows (opJRST : Nat) (junk : Nat → List Nat) (fuel : Nat) :
    ∀ (s : LoadState) (r : Bool × LoadState),
      loadLoop opJRST junk fuel s = some r →
        s.calls + 1 ≤ r.2.calls ∧ ∃ t, r.2.mem = s.mem ++ t := by
  induction fuel with
  | zero => intro s r h; cases h
  | succ fuel ih =>
    intro s r h
    rw [loadLoop] at h
    by_cases hb : ks10_t.lh (getdata junk s).1 &&& 0o400000 = 0
    · rw [if_pos hb] at h
      by_cases hj : ks10_t.lh (getdata junk s).1 = opJRST
      · rw [if_pos hj] at h
        cases h
        exact ⟨le_refl _, [], by simp [getdata]⟩
      · rw [if_neg hj] at h
        cases h
        exact ⟨le_refl _, [], by simp [getdata]⟩
    · rw [if_neg hb] at h
      cases hr : readRecord junk fuel (ks10_t.lh (getdata junk s).1)
          (ks10_t.rh (getdata junk s).1) (getdata junk s).2 with
      | none => rw [hr] at h; cases h
      | some s2 =>
        rw [hr] at h
        obtain ⟨hc, t, ht⟩ := readRecord_grows junk fuel _ _ _ _ hr
        obtain ⟨hc2, t2, ht2⟩ := ih _ _ h
        refine ⟨?_, t ++ t2, ?_⟩
        · have : (getdata junk s).2.calls = s.calls + 1 := rfl
          omega
        · have : (getdata junk s).2.mem = s.mem := rfl
          rw [ht2, ht, this, List.append_assoc]

/-- C3: the loader's end test looks at bit `0400000` of the left half of the
header and at nothing else.  When the bit is clear the loader returns `true`
at this header, whatever the right half is, having made no memory write and
read nothing further.  When the bit is set the loader does not finish at this
header: it reads the next word as a data word and writes it to memory before
anything else, and every result it can produce lies after that write and
after a further header. -/
theorem loadCode_end_test (opJRST : Nat) (junk : Nat → List Nat) (s : LoadState) (f : Nat) :
    (ks10_t.lh (getdata junk s).1 &&& 0o400000 = 0 →
      loadLoop opJRST junk (f + 1) s
        = some (true,
            if ks10_t.lh (getdata junk s).1 = opJRST then
              { (getdata junk s).2 with
                out := (getdata junk s).2.out ++
                  [LoadMsg.startingAddress (ks10_t.lh (getdata junk s).1)
                    (ks10_t.rh (getdata junk s).1)]
                cir := (getdata junk s).2.cir ++ [(getdata junk s).1] }
            else (getdata junk s).2)
      ∧ ∀ r, loadLoop opJRST junk (f + 1) s = some r →
          r.1 = true ∧ r.2.mem = s.mem ∧ r.2.calls = s.calls + 1
            ∧ r.2.stream = s.stream.drop 5)
    ∧ (ks10_t.lh (getdata junk s).1 &&& 0o400000 ≠ 0 →
      loadLoop opJRST junk (f + 2) s
        = (readRecord junk f
            ((ks10_t.lh (getdata junk s).1 + 1) &&& 0o777777)
            ((ks10_t.rh (getdata junk s).1 + 1) &&& 0o777777)
            { (getdata junk (getdata junk s).2).2 with
              mem := s.mem ++ [((ks10_t.rh (getdata junk s).1 + 1) &&& 0o777777,
                                (getdata junk (getdata junk s).2).1)] }).bind
            (loadLoop opJRST junk (f + 1))
      ∧ ∀ g r, loadLoop opJRST junk g s = some r →
          s.calls + 3 ≤ r.2.calls
            ∧ ∃ t, r.2.mem = s.mem ++
                ((ks10_t.rh (getdata junk s).1 + 1) &&& 0o777777,
                 (getdata junk (getdata junk s).2).1) :: t) := by
  constructor
  · intro hb
    have e : loadLoop opJRST junk (f + 1) s
        = some (true,
            if ks10_t.lh (getdata junk s).1 = opJRST then
              { (getdata junk s).2 with
                out := (getdata junk s).2.out ++
                  [LoadMsg.startingAddress (ks10_t.lh (getdata junk s).1)
                    (ks10_t.rh (getdata junk s).1)]
                cir := (getdata junk s).2.cir ++ [(getdata junk s).1] }
            else (getdata junk s).2) := by
      rw [loadLoop]
      simp only [if_pos hb]
      by_cases hj : ks10_t.lh (getdata junk s).1 = opJRST
      · simp only [if_pos hj]
      · simp only [if_neg hj]
    refine ⟨e, ?_⟩
    intro r hr
    rw [e] at hr
    cases hr
    by_cases hj : ks10_t.lh (getdata junk s).1 = opJRST
    · rw [if_pos hj]
      exact ⟨rfl, rfl, rfl, rfl⟩
    · rw [if_neg hj]
      exact ⟨rfl, rfl, rfl, rfl⟩
  · intro hb
    have hb' : ¬ (ks10_t.lh (getdata junk s).1 &&& 0o400000 = 0) := hb
    constructor
    · rw [loadLoop]
      simp only [if_neg hb']
      rw [readRecord, if_pos hb]
      simp only []
      have hm : (getdata junk (getdata junk s).2).2.mem = s.mem := rfl
      rw [hm]
      cases readRecord junk f
          ((ks10_t.lh (getdata junk s).1 + 1) &&& 0o777777)
          ((ks10_t.rh (getdata junk s).1 + 1) &&& 0o777777)
          { (getdata junk (getdata junk s).2).2 with
            mem := s.mem ++ [((ks10_t.rh (getdata junk s).1 + 1) &&& 0o777777,
                              (getdata junk (getdata junk s).2).1)] } <;> rfl
    · intro g r hr
      cases g with
      | zero => cases hr
      | succ g =>
        rw [loadLoop] at hr
        simp only [if_neg hb'] at hr
        cases h2 : readRecord junk g (ks10_t.lh (getdata junk s).1)
            (ks10_t.rh (getdata junk s).1) (getdata junk s).2 with
        | none => rw [h2] at hr; cases hr
        | some s2 =>
          rw [h2] at hr
          obtain ⟨hc2, t2, ht2⟩ := loadLoop_grows opJRST junk g _ _ hr
          cases g with
          | zero => rw [readRecord, if_pos hb] at h2; cases h2
          | succ g =>
            rw [readRecord, if_pos hb] at h2
            obtain ⟨hc, t, ht⟩ := readRecord_grows junk g _ _ _ _ h2
            have e1 : (getdata junk (getdata junk s).2).2.calls = s.calls + 2 := rfl
            have e2 : (getdata junk (getdata junk s).2).2.mem = s.mem := rfl
            simp only [e1, e2] at hc ht
            refine ⟨by omega, t ++ t2, ?_⟩
            rw [ht2, ht]
            simp only [List.append_assoc, List.singleton_append, List.cons_append,
              List.nil_append]

/-- C3 on two headers: `00 00 0F 7F FF` decodes to `0000001,,0777777`, whose
bit `0400000` is clear, and the loader returns `true` at once although the
right half is all ones; `FF FF FF FF FF` has the bit set and the loader goes
on to write the data word that follows. -/
theorem loadCode_end_test_witness :
    loadLoop 0o254000 (fun _ => []) 1
        { stream := [0x00, 0x00, 0x0f, 0x7f, 0xff, 1, 2, 3, 4, 5],
          calls := 0, mem := [], cir := [], out := [] }
      = some (true, { stream := [1, 2, 3, 4, 5], calls := 1, mem := [], cir := [], out := [] })
    ∧ ∀ g r, loadLoop 0o254000 (fun _ => []) g
        { stream := [0xff, 0xff, 0xff, 0xff, 0xff, 1, 2, 3, 4, 5, 0, 0, 0, 0, 0],
          calls := 0, mem := [], cir := [], out := [] } = some r →
        3 ≤ r.2.calls ∧ ∃ t, r.2.mem = (0, rdword [1, 2, 3, 4, 5]) :: t := by
  constructor
  · rw [((loadCode_end_test 0o254000 (fun _ => [])
      { stream := [0x00, 0x00, 0x0f, 0x7f, 0xff, 1, 2, 3, 4, 5],
        calls := 0, mem := [], cir := [], out := [] } 0).1 (by decide)).1]
    decide
  · intro g r hr
    have h := ((loadCode_end_test 0o254000 (fun _ => [])
      { stream := [0xff, 0xff, 0xff, 0xff, 0xff, 1, 2, 3, 4, 5, 0, 0, 0, 0, 0],
        calls := 0, mem := [], cir := [], out := [] } 0).2 (by decide)).2 g r hr
    exact h

/-! ## Properties of the breakpoint codec -/

theorem testBit_not64 (x i : Nat) :
    (not64 x).testBit i = (decide (i < 64) && !x.testBit i) := by
  unfold not64
  rw [Nat.testBit_xor, Nat.testBit_two_pow_sub_one, Nat.testBit_mod_two_pow]
  by_cases h : i < 64 <;> simp [h]

theorem testBit_of_and_eq {a b : Nat} (h : a &&& b = a) (i : Nat) :
    a.testBit i = true → b.testBit i = true := by
  intro ha
  have := congrArg (fun n => n.testBit i) h
  simp only [Nat.testBit_and, ha, Bool.true_and] at this
  exact this

theorem testBit_of_and_eq_zero {a b : Nat} (h : a &&& b = 0) (i : Nat) :
    a.testBit i = true → b.testBit i = false := by
  intro ha
  have := congrArg (fun n => n.testBit i) h
  simp only [Nat.testBit_and, ha, Bool.true_and, Nat.zero_testBit] at this
  exact this

/-- The address-mask field of the value `cmdBR` writes to the Mask Register. -/
theorem mask_field (cls ff iomask m : Nat) (h : ff &&& iomask = ff) :
    ((cls ||| ff) &&& not64 (iomask &&& m)) &&& ff = ff &&& not64 m := by
  apply Nat.eq_of_testBit_eq
  intro i
  simp only [Nat.testBit_and, Nat.testBit_or, testBit_not64]
  cases hf : ff.testBit i with
  | false => simp
  | true =>
    have := testBit_of_and_eq h i hf
    simp [this]

/-- Bits outside of `iomask` are the same with and without a mask. -/
theorem mask_class (b x iomask m : Nat) (h : x &&& iomask = 0) :
    (b &&& not64 (iomask &&& m)) &&& x = (b &&& not64 0) &&& x := by
  apply Nat.eq_of_testBit_eq
  intro i
  simp only [Nat.testBit_and, testBit_not64, Nat.zero_testBit]
  cases hx : x.testBit i with
  | false => simp
  | true =>
    have := testBit_of_and_eq_zero h i hx
    simp [this]

theorem and_not64_and (a m : Nat) : (a &&& not64 m) &&& m = 0 := by
  apply Nat.eq_of_testBit_eq
  intro i
  simp only [Nat.testBit_and, testBit_not64, Nat.zero_testBit]
  cases m.testBit i <;> simp

theorem unitChar_cases (u : Nat) (hu : u < 4) :
    (u = 0 ∧ unitChar u = '0') ∨ (u = 1 ∧ unitChar u = '1')
      ∨ (u = 2 ∧ unitChar u = '2') ∨ (u = 3 ∧ unitChar u = '3') := by
  interval_cases u
  · exact Or.inl ⟨rfl, by decide⟩
  · exact Or.inr (Or.inl ⟨rfl, by decide⟩)
  · exact Or.inr (Or.inr (Or.inl ⟨rfl, by decide⟩))
  · exact Or.inr (Or.inr (Or.inr ⟨rfl, by decide⟩))

/-- The last `switch` of `cmdBR` for a unit digit. -/
theorem cmdBR_write_unit (u : Nat) (hu : u < 4) (brar brmr mask : Nat) (s : BrState) :
    cmdBR_write (unitChar u) brar brmr mask s
      = ks10_t.writeBRMR u (brmr &&& not64 mask) (ks10_t.writeBRAR u brar s) := by
  rcases unitChar_cases u hu with ⟨rfl, h⟩ | ⟨rfl, h⟩ | ⟨rfl, h⟩ | ⟨rfl, h⟩ <;>
    rw [h] <;> simp [cmdBR_write]

theorem cmdBR_options_nil (k : BrConst) (unit : Char) (index brar brmr mask : Nat)
    (s : BrState) :
    cmdBR_options k unit [] index brar brmr mask s
      = BrParse.parsed index brar brmr mask s := by
  rw [cmdBR_options]

/-- What `cmdBR` does once its option loop has ended with `break`, for a unit
digit. -/
theorem cmdBR_eval (k : BrConst) (u : Nat) (hu : u < 4) (argc : Nat) (hargc : argc ≠ 1)
    (argv0 : List Char) (h0 : cchar argv0 2 = unitChar u) (opts : List Getopt)
    (s s1 : BrState) (index brar brmr mask : Nat)
    (h : cmdBR_options k (unitChar u) opts 0 0 0 0 s
      = BrParse.parsed index brar brmr mask s1) :
    cmdBR k argc argv0 opts s
      = (true, ks10_t.writeBRMR u (brmr &&& not64 mask)
          (ks10_t.writeBRAR u brar (s1.print (BrMsg.debug argc index)))) := by
  unfold cmdBR
  rw [if_neg hargc, h0, h]
  simp only [cmdBR_write_unit u hu]

/-- The value of the Mask Register before the mask is applied, as the option
loop of `cmdBR` forms it for a break condition. -/
theorem cmdBR_options_cond (k : BrConst) (unit : Char) (c : BreakCond) (A : List Char)
    (rest : List Getopt) (index brar brmr mask : Nat) (s : BrState) :
    cmdBR_options k unit (Getopt.option c.index A :: rest) index brar brmr mask s
      = cmdBR_options k unit rest c.index
          (classBits k c ||| ((parseOctal A).1 &&& fieldMask k c))
          (codedMask k c) mask (parseArg A s).2 := by
  cases c <;>
    simp [cmdBR_options, BreakCond.index, classBits, fieldMask, codedMask, parseArg,
      Nat.land_comm, Nat.lor_comm]

theorem cmdBR_options_mask (k : BrConst) (unit : Char) (M : List Char)
    (rest : List Getopt) (index brar brmr mask : Nat) (s : BrState) :
    cmdBR_options k unit (Getopt.option 9 M :: rest) index brar brmr mask s
      = cmdBR_options k unit rest 9 brar brmr (k.brarIOMASK &&& (parseOctal M).1)
          (parseArg M s).2 := by
  simp [cmdBR_options, parseArg]

/-- The runs of `cmdBR` for one break condition, alone, before a `--mask`
option and after one. -/
theorem cmdBR_cond_runs (k : BrConst) (c : BreakCond) (u : Nat) (hu : u < 4)
    (argc : Nat) (hargc : argc ≠ 1) (argv0 : List Char)
    (h0 : cchar argv0 2 = unitChar u) (A M : List Char) (s : BrState) :
    cmdBR k argc argv0 [Getopt.option c.index A] s
        = (true, ks10_t.writeBRMR u (codedMask k c &&& not64 0)
            (ks10_t.writeBRAR u (classBits k c ||| ((parseOctal A).1 &&& fieldMask k c))
              ((parseArg A s).2.print (BrMsg.debug argc c.index))))
    ∧ cmdBR k argc argv0 [Getopt.option c.index A, Getopt.option 9 M] s
        = (true, ks10_t.writeBRMR u
            (codedMask k c &&& not64 (k.brarIOMASK &&& (parseOctal M).1))
            (ks10_t.writeBRAR u (classBits k c ||| ((parseOctal A).1 &&& fieldMask k c))
              ((parseArg M (parseArg A s).2).2.print (BrMsg.debug argc 9))))
    ∧ cmdBR k argc argv0 [Getopt.option 9 M, Getopt.option c.index A] s
        = (true, ks10_t.writeBRMR u
            (codedMask k c &&& not64 (k.brarIOMASK &&& (parseOctal M).1))
            (ks10_t.writeBRAR u (classBits k c ||| ((parseOctal A).1 &&& fieldMask k c))
              ((parseArg A (parseArg M s).2).2.print (BrMsg.debug argc c.index)))) := by
  refine ⟨?_, ?_, ?_⟩
  · exact cmdBR_eval k u hu argc hargc argv0 h0 _ s _ _ _ _ _
      (by rw [cmdBR_options_cond, cmdBR_options_nil])
  · exact cmdBR_eval k u hu argc hargc argv0 h0 _ s _ _ _ _ _
      (by rw [cmdBR_options_cond, cmdBR_options_mask, cmdBR_options_nil])
  · exact cmdBR_eval k u hu argc hargc argv0 h0 _ s _ _ _ _ _
      (by rw [cmdBR_options_mask, cmdBR_options_cond, cmdBR_options_nil])

theorem writeBRMR_brar (u v : Nat) (s : BrState) :
    (ks10_t.writeBRMR u v s).brar = s.brar := rfl

theorem writeBRAR_brar (u v : Nat) (s : BrState) :
    (ks10_t.writeBRAR u v s).brar u = v := by
  simp [ks10_t.writeBRAR]

theorem writeBRMR_brmr (u v : Nat) (s : BrState) :
    (ks10_t.writeBRMR u v s).brmr u = v := by
  simp [ks10_t.writeBRMR]

theorem parseArg_writes (A : List Char) (s : BrState) :
    (parseArg A s).2.writes = s.writes := by
  unfold parseArg
  split <;> rfl

/-- C4: for each break condition `c`, every address text `A` and every unit
`u` in 0..3, `cmdBR` writes to the Address Register of unit `u` exactly the
condition-class bits of `c` OR-ed with the parsed address confined to the
address field of `c`, whether the condition comes alone, before a `--mask`
option or after one; the write of the Address Register is followed by one
write of the Mask Register of the same unit and by no other write. -/
theorem cmdBR_address_register (k : BrConst) (c : BreakCond) (u : Nat) (hu : u < 4)
    (argc : Nat) (hargc : argc ≠ 1) (argv0 : List Char)
    (h0 : cchar argv0 2 = unitChar u) (A M : List Char) (s : BrState) :
    (cmdBR k argc argv0 [Getopt.option c.index A] s).2.brar u
        = classBits k c ||| ((parseOctal A).1 &&& fieldMask k c)
    ∧ (cmdBR k argc argv0 [Getopt.option c.index A, Getopt.option 9 M] s).2.brar u
        = classBits k c ||| ((parseOctal A).1 &&& fieldMask k c)
    ∧ (cmdBR k argc argv0 [Getopt.option 9 M, Getopt.option c.index A] s).2.brar u
        = classBits k c ||| ((parseOctal A).1 &&& fieldMask k c)
    ∧ (cmdBR k argc argv0 [Getopt.option c.index A] s).2.writes
        = s.writes ++
          [BrWrite.brar u (classBits k c ||| ((parseOctal A).1 &&& fieldMask k c)),
           BrWrite.brmr u (codedMask k c &&& not64 0)] := by
  obtain ⟨e1, e2, e3⟩ := cmdBR_cond_runs k c u hu argc hargc argv0 h0 A M s
  rw [e1, e2, e3]
  refine ⟨?_, ?_, ?_, ?_⟩
  · rw [writeBRMR_brar, writeBRAR_brar]
  · rw [writeBRMR_brar, writeBRAR_brar]
  · rw [writeBRMR_brar, writeBRAR_brar]
  · simp only [ks10_t.writeBRMR, ks10_t.writeBRAR, BrState.print, parseArg_writes,
      List.append_assoc, List.singleton_append]

/-- C4 for `br2 --iord 03772440`: the Address Register of unit 2 receives the
I/O-read class bits and the address. -/
theorem cmdBR_address_register_witness :
    (cmdBR exampleConst 3 ['b', 'r', '2']
        [Getopt.option 7 ['0', '3', '7', '7', '2', '4', '4', '0']] (BrState.init 0)).2.brar 2
      = 0o040203772440 := by
  exact (cmdBR_address_register exampleConst BreakCond.iord 2 (by decide) 3 (by decide)
    ['b', 'r', '2'] (by decide) ['0', '3', '7', '7', '2', '4', '4', '0'] []
    (BrState.init 0)).1.trans (by decide)

theorem parseArg_brar (A : List Char) (s : BrState) :
    (parseArg A s).2.brar = s.brar := by
  unfold parseArg
  split <;> rfl

theorem parseArg_brmr (A : List Char) (s : BrState) :
    (parseArg A s).2.brmr = s.brmr := by
  unfold parseArg
  split <;> rfl

theorem codedMask_split (k : BrConst) (c : BreakCond) :
    ∃ cls, codedMask k c = cls ||| fullFieldMask k c := by
  cases c <;> exact ⟨_, rfl⟩

theorem layout_field (k : BrConst) (hk : k.Layout) (c : BreakCond) :
    fullFieldMask k c &&& k.brarIOMASK = fullFieldMask k c := by
  cases c
  all_goals first | exact hk.1 | exact hk.2.1

/-- C5: for a unit armed with the condition `c`, the address `A` and the
mask `M`, the address-field bits of the value written to the Mask Register
are the full field mask of `c` without the bits of `M`, so every bit set in
`M` is 0 there; the condition-class mask bits are the same as when no mask is
given; and the registers and the writes are the same whether `--mask` comes
after the break condition or before it.  The constants are taken to have the
layout `BrConst.Layout`. -/
theorem cmdBR_mask_register (k : BrConst) (hk : k.Layout) (c : BreakCond) (u : Nat)
    (hu : u < 4) (argc : Nat) (hargc : argc ≠ 1) (argv0 : List Char)
    (h0 : cchar argv0 2 = unitChar u) (A M : List Char) (s : BrState) :
    (cmdBR k argc argv0 [Getopt.option c.index A, Getopt.option 9 M] s).2.brmr u
          &&& fullFieldMask k c
        = fullFieldMask k c &&& not64 (parseOctal M).1
    ∧ ((cmdBR k argc argv0 [Getopt.option c.index A, Getopt.option 9 M] s).2.brmr u
          &&& fullFieldMask k c) &&& (parseOctal M).1 = 0
    ∧ (cmdBR k argc argv0 [Getopt.option c.index A, Getopt.option 9 M] s).2.brmr u
          &&& classMaskBits k
        = (cmdBR k argc argv0 [Getopt.option c.index A] s).2.brmr u &&& classMaskBits k
    ∧ (cmdBR k argc argv0 [Getopt.option 9 M, Getopt.option c.index A] s).2.brmr
        = (cmdBR k argc argv0 [Getopt.option c.index A, Getopt.option 9 M] s).2.brmr
    ∧ (cmdBR k argc argv0 [Getopt.option 9 M, Getopt.option c.index A] s).2.brar
        = (cmdBR k argc argv0 [Getopt.option c.index A, Getopt.option 9 M] s).2.brar
    ∧ (cmdBR k argc argv0 [Getopt.option 9 M, Getopt.option c.index A] s).2.writes
        = (cmdBR k argc argv0 [Getopt.option c.index A, Getopt.option 9 M] s).2.writes := by
  obtain ⟨e1, e2, e3⟩ := cmdBR_cond_runs k c u hu argc hargc argv0 h0 A M s
  obtain ⟨cls, hc⟩ := codedMask_split k c
  have hfield : (codedMask k c &&& not64 (k.brarIOMASK &&& (parseOctal M).1))
      &&& fullFieldMask k c = fullFieldMask k c &&& not64 (parseOctal M).1 := by
    rw [hc]
    exact mask_field cls _ _ _ (layout_field k hk c)
  rw [e1, e2, e3]
  simp only [writeBRMR_brmr]
  refine ⟨hfield, ?_, ?_, ?_, ?_, ?_⟩
  · rw [hfield]
    exact and_not64_and _ _
  · exact mask_class _ _ _ _ hk.2.2
  · simp only [ks10_t.writeBRMR, ks10_t.writeBRAR, BrState.print, parseArg_brmr]
  · simp only [ks10_t.writeBRMR, ks10_t.writeBRAR, BrState.print, parseArg_brar]
  · simp only [ks10_t.writeBRMR, ks10_t.writeBRAR, BrState.print, parseArg_writes]

/-- C5 for `br2 --iord 03772440 --mask 037` with the example constants: the
Mask Register of unit 2 receives the I/O-read class mask and the field mask
`017777777` without the bits `037`. -/
theorem cmdBR_mask_register_witness :
    exampleConst.Layout
    ∧ (cmdBR exampleConst 5 ['b', 'r', '2']
        [Getopt.option 7 ['0', '3', '7', '7', '2', '4', '4', '0'],
         Getopt.option 9 ['0', '3', '7']] (BrState.init 0)).2.brmr 2 &&& 0o17777777
      = 0o17777740 := by
  refine ⟨by decide, ?_⟩
  exact (cmdBR_mask_register exampleConst (by decide) BreakCond.iord 2 (by decide) 5
    (by decide) ['b', 'r', '2'] (by decide) ['0', '3', '7', '7', '2', '4', '4', '0']
    ['0', '3', '7'] (BrState.init 0)).1.trans (by decide)

/-- C6: what `cmdBR` programs for the combined conditions, on `br0 --mem A`
and `br0 --io A`.  The Address Register receives both sub-condition
patterns in both cases, and for `--io` the Mask Register receives
`brmrIORD | brmrIOWR` and the full field mask.  For `--mem` the Mask Register
receives `brmrMEMWR | brmrMEMWR` and the full field mask: the constant
`brmrMEMRD` is not used, so that the value written is the same whatever
`brmrMEMRD` is; with the example constants the read bit `040000000000` of
`brmrMEMRD` is missing from the Mask Register. -/
theorem cmdBR_combined_conditions (k : BrConst) (A : List Char) (s : BrState) (v : Nat) :
    (cmdBR k 3 ['b', 'r', '0'] [Getopt.option 3 A] s).2.brar 0
        = k.brarMEMRD ||| k.brarMEMWR ||| ((parseOctal A).1 &&& k.brarMEMMASK)
    ∧ (cmdBR k 3 ['b', 'r', '0'] [Getopt.option 6 A] s).2.brar 0
        = k.brarIORD ||| k.brarIOWR ||| ((parseOctal A).1 &&& k.brarIOMASK)
    ∧ (cmdBR k 3 ['b', 'r', '0'] [Getopt.option 6 A] s).2.brmr 0
        = (k.brmrIORD ||| k.brmrIOWR ||| k.brmrIOMASK) &&& not64 0
    ∧ (cmdBR k 3 ['b', 'r', '0'] [Getopt.option 3 A] s).2.brmr 0
        = (k.brmrMEMWR ||| k.brmrMEMWR ||| k.brmrMEMMASK) &&& not64 0
    ∧ (cmdBR { k with brmrMEMRD := v } 3 ['b', 'r', '0'] [Getopt.option 3 A] s).2.brmr 0
        = (cmdBR k 3 ['b', 'r', '0'] [Getopt.option 3 A] s).2.brmr 0
    ∧ (cmdBR exampleConst 3 ['b', 'r', '0']
          [Getopt.option 3 ['0', '3', '0', '0', '0', '0']] (BrState.init 0)).2.brmr 0
        = 0o010203777777
    ∧ (cmdBR exampleConst 3 ['b', 'r', '0']
          [Getopt.option 3 ['0', '3', '0', '0', '0', '0']] (BrState.init 0)).2.brmr 0
          &&& (exampleConst.brmrMEMRD ||| exampleConst.brmrMEMWR)
        ≠ exampleConst.brmrMEMRD ||| exampleConst.brmrMEMWR := by
  have h0 : cchar ['b', 'r', '0'] 2 = unitChar 0 := by decide
  have hm := fun k' => (cmdBR_cond_runs k' BreakCond.mem 0 (by decide) 3 (by decide)
    ['b', 'r', '0'] h0 A [] s).1
  have hi := (cmdBR_cond_runs k BreakCond.io 0 (by decide) 3 (by decide)
    ['b', 'r', '0'] h0 A [] s).1
  have em : BreakCond.mem.index = 3 := rfl
  have ei : BreakCond.io.index = 6 := rfl
  rw [em] at hm
  rw [ei] at hi
  refine ⟨?_, ?_, ?_, ?_, ?_, by decide, by decide⟩
  · rw [hm k, writeBRMR_brar, writeBRAR_brar]; rfl
  · rw [hi, writeBRMR_brar, writeBRAR_brar]; rfl
  · rw [hi, writeBRMR_brmr]; rfl
  · rw [hm k, writeBRMR_brmr]; rfl
  · rw [hm k, hm { k with brmrMEMRD := v }, writeBRMR_brmr, writeBRMR_brmr]; rfl

/-! ## Properties of the command dispatcher -/

theorem splitOn_cons_sep (a : Char) (s : List Char) :
    (a :: s).splitOn a = [] :: s.splitOn a := by
  simp [List.splitOn, List.splitOnP_cons]

theorem splitOn_cons_other (a c : Char) (s : List Char) (h : c ≠ a) :
    (c :: s).splitOn a = (c :: (s.splitOn a).headD []) :: (s.splitOn a).tail := by
  have hne : s.splitOn a ≠ [] := List.splitOnP_ne_nil _ _
  simp only [List.splitOn] at hne ⊢
  rw [List.splitOnP_cons]
  have : ((c == a) = true) = False := by simp [h]
  simp only [this, if_false]
  cases hs : List.splitOnP (fun x => x == a) s with
  | nil => exact absurd hs hne
  | cons f r => simp [List.modifyHead]

theorem take_of_length_eq {α : Type} (l m : List α) (n : Nat) (h : l.length = n) :
    (l ++ m).take n = l := by
  rw [List.take_append_of_le_length (by omega), List.take_of_length_le (by omega)]

/-- A segment: a piece of the buffer with no NUL and no `;` in it. -/
theorem formArgv_append_semi (seg : List Char) :
    (∀ c ∈ seg, c ≠ NUL ∧ c ≠ ';') → ∀ (rest : List Char) (argv : List (List Char))
      (process : Bool),
      formArgv (seg ++ ';' :: rest) argv process
        = ((formArgv seg argv process).1, true, rest) := by
  induction seg with
  | nil =>
    intro _ rest argv process
    have h1 : ¬ (';' = NUL) := by decide
    simp [formArgv, h1]
  | cons c s ih =>
    intro hc rest argv process
    have h1 := (hc c (List.mem_cons_self _ _)).1
    have h2 := (hc c (List.mem_cons_self _ _)).2
    have hs : ∀ c ∈ s, c ≠ NUL ∧ c ≠ ';' := fun x hx => hc x (List.mem_cons_of_mem _ hx)
    simp only [List.cons_append, formArgv, if_neg h1, if_neg h2]
    split
    · exact ih hs _ _ _
    · split
      · exact ih hs _ _ _
      · split
        · exact ih hs _ _ _
        · exact ih hs _ _ _

theorem formArgv_end (seg : List Char) :
    (∀ c ∈ seg, c ≠ NUL ∧ c ≠ ';') → ∀ (argv : List (List Char)) (process : Bool),
      (formArgv seg argv process).2 = (false, []) := by
  induction seg with
  | nil => intro _ argv process; simp [formArgv]
  | cons c s ih =>
    intro hc argv process
    have h1 := (hc c (List.mem_cons_self _ _)).1
    have h2 := (hc c (List.mem_cons_self _ _)).2
    have hs : ∀ c ∈ s, c ≠ NUL ∧ c ≠ ';' := fun x hx => hc x (List.mem_cons_of_mem _ hx)
    simp only [formArgv, if_neg h1, if_neg h2]
    split
    · exact ih hs _ _
    · split
      · exact ih hs _ _
      · split
        · exact ih hs _ _
        · exact ih hs _ _

/-- The tokens the scan of a segment yields, from a state between two tokens
and from a state inside a token. -/
theorem formArgv_tokens (seg : List Char) :
    (∀ c ∈ seg, c ≠ NUL ∧ c ≠ ';') →
      (∀ argv : List (List Char), argv.length ≤ 16 →
        (formArgv seg argv true).1
          = (argv ++ (seg.splitOn ' ').filter (fun t => t ≠ [])).take 16)
      ∧ (∀ (init : List (List Char)) (cur : List Char), init.length < 16 →
        (formArgv seg (init ++ [cur]) false).1
          = (init ++ [cur ++ (seg.splitOn ' ').headD []]
              ++ ((seg.splitOn ' ').tail).filter (fun t => t ≠ [])).take 16) := by
  induction seg with
  | nil =>
    intro _
    constructor
    · intro argv ha
      simp [formArgv, List.splitOn, List.splitOnP_nil, List.take_of_length_le ha]
    · intro init cur hi
      have : (init ++ [cur]).length ≤ 16 := by simp; omega
      simp [formArgv, List.splitOn, List.splitOnP_nil, List.take_of_length_le this]
  | cons c s ih =>
    intro hc
    have h1 := (hc c (List.mem_cons_self _ _)).1
    have h2 := (hc c (List.mem_cons_self _ _)).2
    have hs : ∀ c ∈ s, c ≠ NUL ∧ c ≠ ';' := fun x hx => hc x (List.mem_cons_of_mem _ hx)
    obtain ⟨iht, ihf⟩ := ih hs
    by_cases hsp : c = ' '
    · subst hsp
      constructor
      · intro argv ha
        simp only [formArgv, if_neg h1, if_neg h2, if_true, splitOn_cons_sep]
        rw [iht argv ha]
        simp
      · intro init cur hi
        simp only [formArgv, if_neg h1, if_neg h2, if_true, splitOn_cons_sep]
        rw [iht (init ++ [cur]) (by simp; omega)]
        simp
    · constructor
      · intro argv ha
        simp only [formArgv, if_neg h1, if_neg h2, if_neg hsp, splitOn_cons_other ' ' c s hsp]
        by_cases hl : argv.length < maxarg
        · have hl' : argv.length < 16 := hl
          rw [if_pos ⟨trivial, hl⟩, ihf argv [c] hl']
          simp
        · have hl' : argv.length = 16 := by
            have : ¬ argv.length < 16 := hl
            omega
          have hn : ¬ (True ∧ argv.length < maxarg) := fun h => hl h.2
          rw [if_neg hn, if_pos trivial, iht argv ha, take_of_length_eq _ _ _ hl',
            take_of_length_eq _ _ _ hl']
      · intro init cur hi
        simp only [formArgv, if_neg h1, if_neg h2, if_neg hsp, splitOn_cons_other ' ' c s hsp,
          Bool.false_eq_true, false_and, if_false]
        have e : (init ++ [cur]).dropLast ++ [(init ++ [cur]).getLastD [] ++ [c]]
            = init ++ [cur ++ [c]] := by simp
        rw [e, ihf init (cur ++ [c]) hi]
        simp

theorem formArgv_spec (seg : List Char) (h : ∀ c ∈ seg, c ≠ NUL ∧ c ≠ ';') :
    (formArgv seg [] true).1 = specArgv seg := by
  have := (formArgv_tokens seg h).1 [] (by simp)
  simpa [specArgv] using this

theorem first_occurrence (a : Char) (p : List Char) :
    a ∈ p → ∃ seg rest, p = seg ++ a :: rest ∧ a ∉ seg := by
  induction p with
  | nil => intro h; cases h
  | cons c s ih =>
    intro h
    by_cases hc : c = a
    · exact ⟨[], s, by simp [hc], by simp⟩
    · have hs : a ∈ s := by
        cases h with
        | head => exact absurd rfl hc
        | tail _ h' => exact h'
      obtain ⟨seg, rest, e, hn⟩ := ih hs
      refine ⟨c :: seg, rest, by simp [e], ?_⟩
      intro hm
      cases hm with
      | head => exact hc rfl
      | tail _ h' => exact hn h'

theorem splitOn_first (seg rest : List Char) (h : ';' ∉ seg) :
    (seg ++ ';' :: rest).splitOn ';' = seg :: rest.splitOn ';' := by
  simp only [List.splitOn]
  apply List.splitOnP_first
  · intro x hx hp
    have : x = ';' := by simpa using hp
    exact h (this ▸ hx)
  · simp

theorem splitOn_single (seg : List Char) (h : ';' ∉ seg) :
    seg.splitOn ';' = [seg] := by
  simp only [List.splitOn]
  apply List.splitOnP_eq_single
  intro x hx hp
  have : x = ';' := by simpa using hp
  exact h (this ▸ hx)

/-- The loop of `execute` over the characters of the buffer does what the
specification says in terms of segments and tokens. -/
theorem execLoop_spec {σ : Type} (h : Handlers σ) (fuel : Nat) :
    ∀ (p : List Char) (st : ExecState σ), (∀ c ∈ p, c ≠ NUL) → p.length < fuel →
      execLoop h fuel p st = some (specRun h ((p.splitOn ';').map specArgv) st) := by
  induction fuel with
  | zero => intro p st _ hl; omega
  | succ fuel ih =>
    intro p st hnul hl
    by_cases hsemi : ';' ∈ p
    · obtain ⟨seg, rest, e, hn⟩ := first_occurrence ';' p hsemi
      subst e
      have hseg : ∀ c ∈ seg, c ≠ NUL ∧ c ≠ ';' := fun c hc =>
        ⟨hnul c (by simp [hc]), fun hcs => hn (hcs ▸ hc)⟩
      have hrest : ∀ c ∈ rest, c ≠ NUL := fun c hc => hnul c (by simp [hc])
      have hlen : rest.length < fuel := by
        simp only [List.length_append, List.length_cons] at hl
        omega
      rw [execLoop, formArgv_append_semi seg hseg, formArgv_spec seg hseg,
        splitOn_first seg rest hn, List.map_cons, specRun]
      cases runCommand h (specArgv seg) st with
      | error r => rfl
      | ok st1 =>
        simp only [if_true]
        exact ih rest st1 hrest hlen
    · have hseg : ∀ c ∈ p, c ≠ NUL ∧ c ≠ ';' := fun c hc =>
        ⟨hnul c hc, fun hcs => hsemi (hcs ▸ hc)⟩
      have e2 := formArgv_end p hseg [] true
      have e21 : (formArgv p [] true).2.1 = false := by rw [e2]
      rw [execLoop, e21, formArgv_spec p hseg, splitOn_single p hsemi, List.map_cons,
        List.map_nil, specRun]
      cases runCommand h (specArgv p) st with
      | error r => rfl
      | ok st1 => simp [specRun]

theorem execute_spec {σ : Type} (h : Handlers σ) (buf : List Char) (w : World σ)
    (hnul : ∀ c ∈ buf, c ≠ NUL) :
    execute h buf w = some (specRun h ((buf.splitOn ';').map specArgv) (enter w)) :=
  execLoop_spec h _ buf _ hnul (Nat.lt_succ_self _)

theorem specArgv_length (seg : List Char) : (specArgv seg).length ≤ 16 := by
  unfold specArgv
  rw [List.length_take]
  exact Nat.min_le_left _ _

theorem mem_splitOn_not_sep (a : Char) (s : List Char) :
    ∀ t ∈ s.splitOn a, a ∉ t := by
  induction s with
  | nil =>
    intro t ht
    simp [List.splitOn, List.splitOnP_nil] at ht
    simp [ht]
  | cons c s ih =>
    intro t ht
    by_cases hc : c = a
    · subst hc
      rw [splitOn_cons_sep] at ht
      cases ht with
      | head => simp
      | tail _ h' => exact ih t h'
    · rw [splitOn_cons_other a c s hc] at ht
      have hne : s.splitOn a ≠ [] := List.splitOnP_ne_nil _ _
      cases hs : s.splitOn a with
      | nil => exact absurd hs hne
      | cons f r =>
        rw [hs] at ht ih
        simp only [List.headD_cons, List.tail_cons] at ht
        cases ht with
        | head =>
          intro hm
          cases hm with
          | head => exact hc rfl
          | tail _ h' => exact ih f (List.mem_cons_self _ _) h'
        | tail _ h' => exact ih t (List.mem_cons_of_mem _ h')

theorem mem_splitOn_subset (a : Char) (s : List Char) :
    ∀ t ∈ s.splitOn a, ∀ c ∈ t, c ∈ s := by
  induction s with
  | nil =>
    intro t ht c hc
    simp [List.splitOn, List.splitOnP_nil] at ht
    simp [ht] at hc
  | cons x s ih =>
    intro t ht c hc
    by_cases hx : x = a
    · subst hx
      rw [splitOn_cons_sep] at ht
      cases ht with
      | head => cases hc
      | tail _ h' => exact List.mem_cons_of_mem _ (ih t h' c hc)
    · rw [splitOn_cons_other a x s hx] at ht
      have hne : s.splitOn a ≠ [] := List.splitOnP_ne_nil _ _
      cases hs : s.splitOn a with
      | nil => exact absurd hs hne
      | cons f r =>
        rw [hs] at ht ih
        simp only [List.headD_cons, List.tail_cons] at ht
        cases ht with
        | head =>
          cases hc with
          | head => exact List.mem_cons_self _ _
          | tail _ h' => exact List.mem_cons_of_mem _ (ih f (List.mem_cons_self _ _) c h')
        | tail _ h' => exact List.mem_cons_of_mem _ (ih t (List.mem_cons_of_mem _ h') c hc)

/-- The tokens of a segment are not empty and hold no space; they hold no `;`
when the segment holds none. -/
theorem specArgv_tokens (seg : List Char) :
    ∀ t ∈ specArgv seg, t ≠ [] ∧ ' ' ∉ t ∧ ∀ c ∈ t, c ∈ seg := by
  intro t ht
  have h1 := List.mem_of_mem_take ht
  rw [List.mem_filter] at h1
  refine ⟨by simpa using h1.2, mem_splitOn_not_sep ' ' seg t h1.1,
    mem_splitOn_subset ' ' seg t h1.1⟩

/-- C7: for every input line, `execute` does what the dispatcher of the
specification does on the segments between the `;` of the line, each segment
being handed over as the list of its maximal runs of non-space characters cut
to the first 16.  The scan of a segment yields exactly that list; it has at
most 16 tokens, each of them non-empty and free of space and `;`.  The tokens
beyond the 16th leave no trace: the only events are calls of handlers and the
messages of the dispatcher. -/
theorem execute_tokenizes {σ : Type} (h : Handlers σ) (buf : List Char) (w : World σ)
    (hnul : ∀ c ∈ buf, c ≠ NUL) :
    execute h buf w = some (specRun h ((buf.splitOn ';').map specArgv) (enter w))
    ∧ ∀ seg ∈ buf.splitOn ';',
        (formArgv seg [] true).1 = specArgv seg
        ∧ (specArgv seg).length ≤ 16
        ∧ ∀ t ∈ specArgv seg, t ≠ [] ∧ ' ' ∉ t ∧ ';' ∉ t := by
  refine ⟨execute_spec h buf w hnul, ?_⟩
  intro seg hseg
  have hsemi : ';' ∉ seg := mem_splitOn_not_sep ';' buf seg hseg
  have hclean : ∀ c ∈ seg, c ≠ NUL ∧ c ≠ ';' := fun c hc =>
    ⟨hnul c (mem_splitOn_subset ';' buf seg hseg c hc), fun hcs => hsemi (hcs ▸ hc)⟩
  refine ⟨formArgv_spec seg hclean, specArgv_length seg, ?_⟩
  intro t ht
  obtain ⟨h1, h2, h3⟩ := specArgv_tokens seg t ht
  exact ⟨h1, h2, fun hm => hsemi (h3 _ hm)⟩

/-- C7 on a line of two segments, the second with 18 tokens: the handler of
the first gets its three tokens, the handler of the second the first 16. -/
theorem execute_tokenizes_witness :
    (∀ c ∈ "br2  --fetch 030000;ha 1 2 3 4 5 6 7 8 9 a b c d e f g h".toList, c ≠ NUL)
    ∧ (execute idleHandlers "br2  --fetch 030000;ha 1 2 3 4 5 6 7 8 9 a b c d e f g h".toList
        sampleWorld).map (fun r => r.log)
      = some
        [ExecEvent.call Cmd.cmdBR ["br2".toList, "--fetch".toList, "030000".toList]
          (Outcome.returned true),
         ExecEvent.call Cmd.cmdHA
          ["ha".toList, "1".toList, "2".toList, "3".toList, "4".toList, "5".toList,
           "6".toList, "7".toList, "8".toList, "9".toList, "a".toList, "b".toList,
           "c".toList, "d".toList, "e".toList, "f".toList]
          (Outcome.returned true)] := by
  refine ⟨by decide, ?_⟩
  rw [(execute_tokenizes idleHandlers
    "br2  --fetch 030000;ha 1 2 3 4 5 6 7 8 9 a b c d e f g h".toList sampleWorld
    (by decide)).1]
  decide

theorem findCmd_some (token : List Char) (l : List (List Char × Cmd)) (cmd : Cmd) :
    findCmd token l = some cmd →
      ∃ e ∈ l, (cchar e.1 0 = (cchar token 0).toUpper ∧ cchar e.1 1 = (cchar token 1).toUpper)
        ∧ e.2 = cmd := by
  induction l with
  | nil => intro h; cases h
  | cons e es ih =>
    intro h
    unfold findCmd at h
    split at h
    · rename_i hm
      cases h
      exact ⟨e, List.mem_cons_self _ _, hm, rfl⟩
    · obtain ⟨e', he', hm, hc⟩ := ih h
      exact ⟨e', List.mem_cons_of_mem _ he', hm, hc⟩

theorem findCmd_of_match (token : List Char) (l : List (List Char × Cmd)) :
    (∃ e ∈ l, cchar e.1 0 = (cchar token 0).toUpper ∧ cchar e.1 1 = (cchar token 1).toUpper) →
      ∃ e ∈ l, (cchar e.1 0 = (cchar token 0).toUpper ∧ cchar e.1 1 = (cchar token 1).toUpper)
        ∧ findCmd token l = some e.2 := by
  induction l with
  | nil => rintro ⟨e, he, _⟩; cases he
  | cons e es ih =>
    rintro ⟨e', he', hm'⟩
    by_cases hm : cchar e.1 0 = (cchar token 0).toUpper ∧ cchar e.1 1 = (cchar token 1).toUpper
    · exact ⟨e, List.mem_cons_self _ _, hm, by rw [findCmd, if_pos hm]⟩
    · have he'' : e' ∈ es := by
        cases he' with
        | head => exact absurd hm' hm
        | tail _ h => exact h
      obtain ⟨e2, he2, hm2, hf⟩ := ih ⟨e', he'', hm'⟩
      exact ⟨e2, List.mem_cons_of_mem _ he2, hm2, by rw [findCmd, if_neg hm]; exact hf⟩

/-- The names of the command table are C strings of one or two characters. -/
theorem cmdList_names :
    ∀ e ∈ cmdList, e.1 ≠ [] ∧ e.1 = [cchar e.1 0, cchar e.1 1].takeWhile (fun c => c ≠ NUL) := by
  decide

theorem cmdList_injective :
    ∀ e ∈ cmdList, ∀ e' ∈ cmdList, e.1 = e'.1 → e = e' := by
  decide

/-- An entry of the table matches a token in the test of `execute` exactly
when its name is the code of the token. -/
theorem match_iff_code (token : List Char) (e : List Char × Cmd) (he : e ∈ cmdList) :
    (cchar e.1 0 = (cchar token 0).toUpper ∧ cchar e.1 1 = (cchar token 1).toUpper)
      ↔ e.1 = codeOf token := by
  constructor
  · rintro ⟨h0, h1⟩
    have := (cmdList_names e he).2
    rw [h0, h1] at this
    exact this
  · intro h
    have hne := (cmdList_names e he).1
    unfold codeOf at h
    by_cases h0 : (cchar token 0).toUpper = NUL
    · rw [h0] at h
      have : e.1 = [] := by rw [h]; simp [List.takeWhile]
      exact absurd this hne
    · by_cases h1 : (cchar token 1).toUpper = NUL
      · have h' : e.1 = [(cchar token 0).toUpper] := by
          rw [h, h1]
          simp [List.takeWhile, h0]
        rw [h', h1]
        exact ⟨rfl, rfl⟩
      · have h' : e.1 = [(cchar token 0).toUpper, (cchar token 1).toUpper] := by
          rw [h]
          simp [List.takeWhile, h0, h1]
        rw [h']
        exact ⟨rfl, rfl⟩

theorem findCmd_iff (token : List Char) (cmd : Cmd) :
    findCmd token cmdList = some cmd ↔ ∃ e ∈ cmdList, e.1 = codeOf token ∧ e.2 = cmd := by
  constructor
  · intro h
    obtain ⟨e, he, hm, hc⟩ := findCmd_some token cmdList cmd h
    exact ⟨e, he, (match_iff_code token e he).1 hm, hc⟩
  · rintro ⟨e, he, hcode, hc⟩
    obtain ⟨e', he', hm', hf⟩ :=
      findCmd_of_match token cmdList ⟨e, he, (match_iff_code token e he).2 hcode⟩
    have : e' = e :=
      cmdList_injective e' he' e he (((match_iff_code token e' he').1 hm').trans hcode.symm)
    rw [hf, this, hc]

theorem findCmd_none_iff (token : List Char) :
    findCmd token cmdList = none ↔ ∀ e ∈ cmdList, e.1 ≠ codeOf token := by
  constructor
  · intro h e he hcode
    have := (findCmd_iff token e.2).2 ⟨e, he, hcode, rfl⟩
    rw [h] at this
    cases this
  · intro h
    cases hf : findCmd token cmdList with
    | none => rfl
    | some cmd =>
      obtain ⟨e, he, hcode, _⟩ := (findCmd_iff token cmd).1 hf
      exact absurd hcode (h e he)

theorem runCommand_found {σ : Type} (h : Handlers σ) (token : List Char)
    (args : List (List Char)) (st : ExecState σ) (cmd : Cmd) (r : Bool)
    (hf : findCmd token cmdList = some cmd)
    (hr : (h cmd (token :: args) st.world).1 = Outcome.returned r) :
    runCommand h (token :: args) st
      = Except.ok
          { ret := r
            world := (h cmd (token :: args) st.world).2
            log := st.log ++ [ExecEvent.call cmd (token :: args) (Outcome.returned r)] } := by
  simp only [runCommand, List.length_cons, ne_eq, Nat.succ_ne_zero, not_false_eq_true,
    if_true, List.headD_cons, hf, hr]

/-- C8: the command table has pairwise distinct names; a token resolves to a
handler exactly when an entry of the table has the code of the token (its
upper-cased first two characters) as its name, and then that entry is the only
one with that name and `execute` calls its handler with the argument list of
the segment; tokens with the same code resolve alike, as `ha`, `Ha` and
`HALT` do. -/
theorem execute_dispatch {σ : Type} (h : Handlers σ) (token : List Char)
    (args : List (List Char)) (st : ExecState σ) :
    (cmdList.map (fun e => e.1)).Nodup
    ∧ (∀ cmd, findCmd token cmdList = some cmd
        ↔ ∃ e ∈ cmdList, e.1 = codeOf token ∧ e.2 = cmd)
    ∧ (∀ e ∈ cmdList, ∀ e' ∈ cmdList, e.1 = codeOf token → e'.1 = codeOf token → e = e')
    ∧ (∀ cmd r, findCmd token cmdList = some cmd →
        (h cmd (token :: args) st.world).1 = Outcome.returned r →
        runCommand h (token :: args) st
          = Except.ok
              { ret := r
                world := (h cmd (token :: args) st.world).2
                log := st.log ++
                  [ExecEvent.call cmd (token :: args) (Outcome.returned r)] })
    ∧ (∀ token', codeOf token' = codeOf token →
        findCmd token' cmdList = findCmd token cmdList)
    ∧ findCmd "ha".toList cmdList = some Cmd.cmdHA
    ∧ findCmd "Ha".toList cmdList = some Cmd.cmdHA
    ∧ findCmd "HALT".toList cmdList = some Cmd.cmdHA := by
  refine ⟨by decide, findCmd_iff token, ?_, ?_, ?_, by decide, by decide, by decide⟩
  · intro e he e' he' h1 h2
    exact cmdList_injective e he e' he' (h1.trans h2.symm)
  · intro cmd r hf hr
    exact runCommand_found h token args st cmd r hf hr
  · intro token' hc
    cases hf : findCmd token cmdList with
    | none =>
      rw [findCmd_none_iff] at hf ⊢
      rw [hc]
      exact hf
    | some cmd =>
      rw [findCmd_iff] at hf ⊢
      rw [hc]
      exact hf

/-- C8 on the line `halt now`: the handler of the entry `HA` is called with
both tokens. -/
theorem execute_dispatch_witness :
    (execute sampleHandlers "halt now".toList sampleWorld).map (fun r => r.log)
      = some [ExecEvent.call Cmd.cmdHA ["halt".toList, "now".toList] (Outcome.returned true)] := by
  have h := (execute_dispatch sampleHandlers "halt".toList ["now".toList]
    (enter sampleWorld)).2.2.2.1 Cmd.cmdHA true (by decide) (by decide)
  rw [execute_spec sampleHandlers "halt now".toList sampleWorld (by decide)]
  have e : ("halt now".toList.splitOn ';').map specArgv = ["halt".toList :: ["now".toList]] := by
    decide
  rw [e, specRun, h]
  rfl

theorem runCommand_after {σ : Type} (h : Handlers σ) (argv : List (List Char))
    (st : ExecState σ) (pre : List ExecEvent) :
    runCommand h argv { st with log := pre ++ st.log }
      = match runCommand h argv st with
        | Except.ok s1 => Except.ok { s1 with log := pre ++ s1.log }
        | Except.error r => Except.error (r.after pre) := by
  unfold runCommand
  by_cases ha : argv.length ≠ 0
  · simp only [if_pos ha]
    cases findCmd (argv.headD []) cmdList with
    | none => simp [List.append_assoc]
    | some cmd =>
      simp only []
      cases (h cmd argv st.world).1 <;> simp [ExecResult.after, List.append_assoc]
  · simp only [if_neg ha]

theorem specRun_after {σ : Type} (h : Handlers σ) (segs : List (List (List Char))) :
    ∀ (st : ExecState σ) (pre : List ExecEvent),
      specRun h segs { st with log := pre ++ st.log } = (specRun h segs st).after pre := by
  induction segs with
  | nil => intro st pre; rfl
  | cons argv rest ih =>
    intro st pre
    rw [specRun, specRun, runCommand_after]
    cases runCommand h argv st with
    | error r => rfl
    | ok s1 => exact ih s1 pre

theorem runCommand_not_found {σ : Type} (h : Handlers σ) (token : List Char)
    (args : List (List Char)) (st : ExecState σ) (hnone : findCmd token cmdList = none) :
    runCommand h (token :: args) st
      = Except.ok { st with log := st.log ++ [ExecEvent.notFound token] } := by
  simp only [runCommand, List.length_cons, ne_eq, Nat.succ_ne_zero, not_false_eq_true,
    if_true, List.headD_cons, hnone]

/-- C9: a segment whose first token matches no name of the table prints
`<token>: Command not found.`, calls no handler and leaves `ret` as it is, and
the segments after it are run as if the line began with them: `execute` on
the whole line is `execute` on the rest of the line with that message in
front.  On `BADCMD;HA` the handler of `HA` is called and `execute` returns
what it returns. -/
theorem execute_not_found {σ : Type} (h : Handlers σ) (seg rest : List Char) (w : World σ)
    (token : List Char) (args : List (List Char))
    (hseg : ∀ c ∈ seg, c ≠ NUL ∧ c ≠ ';') (hrest : ∀ c ∈ rest, c ≠ NUL)
    (htok : specArgv seg = token :: args) (hnone : findCmd token cmdList = none) :
    (∀ st : ExecState σ, runCommand h (token :: args) st
        = Except.ok { st with log := st.log ++ [ExecEvent.notFound token] })
    ∧ (∀ (later : List (List (List Char))) (st : ExecState σ),
        specRun h ((token :: args) :: later) st
          = specRun h later { st with log := st.log ++ [ExecEvent.notFound token] })
    ∧ execute h (seg ++ ';' :: rest) w
        = (execute h rest w).map (ExecResult.after [ExecEvent.notFound token])
    ∧ execute h seg w
        = some { ret := some true
                 world := { (enter w).world with sa_handler := SigAction.SIG_DFL }
                 log := [ExecEvent.notFound token] }
    ∧ (∀ (r : Bool),
        (h Cmd.cmdHA ["HA".toList] (enter w).world).1 = Outcome.returned r →
        execute h "BADCMD;HA".toList w
          = some { ret := some r
                   world := { (h Cmd.cmdHA ["HA".toList] (enter w).world).2 with
                              sa_handler := SigAction.SIG_DFL }
                   log := [ExecEvent.notFound "BADCMD".toList,
                           ExecEvent.call Cmd.cmdHA ["HA".toList] (Outcome.returned r)] }) := by
  have hsemi : ';' ∉ seg := fun hm => (hseg _ hm).2 rfl
  have hall : ∀ c ∈ seg ++ ';' :: rest, c ≠ NUL := by
    intro c hc
    rcases List.mem_append.1 hc with h1 | h1
    · exact (hseg c h1).1
    · cases h1 with
      | head => decide
      | tail _ h2 => exact hrest c h2
  refine ⟨fun st => runCommand_not_found h token args st hnone, ?_, ?_, ?_, ?_⟩
  · intro later st
    rw [specRun, runCommand_not_found h token args st hnone]
  · rw [execute_spec h _ w hall, execute_spec h rest w hrest, splitOn_first seg rest hsemi,
      List.map_cons, htok, specRun, runCommand_not_found h token args _ hnone, Option.map_some']
    exact congrArg some (specRun_after h _ (enter w) [ExecEvent.notFound token])
  · rw [execute_spec h seg w (fun c hc => (hseg c hc).1), splitOn_single seg hsemi,
      List.map_cons, List.map_nil, htok, specRun, runCommand_not_found h token args _ hnone]
    rfl
  · intro r hr
    rw [execute_spec h _ w (by decide)]
    have e : ("BADCMD;HA".toList.splitOn ';').map specArgv
        = ["BADCMD".toList :: [], "HA".toList :: []] := by decide
    have h1 := runCommand_not_found h "BADCMD".toList [] (enter w) (by decide)
    have h2 := runCommand_found h "HA".toList []
      { enter w with log := (enter w).log ++ [ExecEvent.notFound "BADCMD".toList] }
      Cmd.cmdHA r (by decide) hr
    rw [e, specRun, h1]
    simp only []
    rw [specRun, h2]
    rfl

/-- C9 on the line `BADCMD;HA` with handlers that return `true`: the message
for `BADCMD`, then the call of the handler of `HA`, whose result is returned. -/
theorem execute_not_found_witness :
    (∀ c ∈ "BADCMD".toList, c ≠ NUL ∧ c ≠ ';') ∧ (∀ c ∈ "HA".toList, c ≠ NUL)
    ∧ specArgv "BADCMD".toList = "BADCMD".toList :: []
    ∧ findCmd "BADCMD".toList cmdList = none
    ∧ (execute sampleHandlers "BADCMD;HA".toList sampleWorld).map (fun r => (r.ret, r.log))
      = some (some true,
          [ExecEvent.notFound "BADCMD".toList,
           ExecEvent.call Cmd.cmdHA ["HA".toList] (Outcome.returned true)]) := by
  refine ⟨by decide, by decide, by decide, by decide, ?_⟩
  rw [(execute_not_found sampleHandlers "BADCMD".toList "HA".toList sampleWorld
    "BADCMD".toList [] (by decide) (by decide) (by decide) (by decide)).2.2.2.2 true
    (by decide)]
  rfl

theorem lastReturned_call (log : List ExecEvent) (cmd : Cmd) (argv : List (List Char))
    (r : Bool) :
    lastReturned (log ++ [ExecEvent.call cmd argv (Outcome.returned r)]) = r := by
  simp [lastReturned, List.filterMap_append]

theorem lastReturned_notFound (log : List ExecEvent) (token : List Char) :
    lastReturned (log ++ [ExecEvent.notFound token]) = lastReturned log := by
  simp [lastReturned, List.filterMap_append]

theorem lastReturned_of_notFound (log : List ExecEvent)
    (h : ∀ e ∈ log, ∃ t, e = ExecEvent.notFound t) : lastReturned log = true := by
  induction log using List.reverseRecOn with
  | nil => rfl
  | append_singleton l e ih =>
    obtain ⟨t, rfl⟩ := h e (by simp)
    rw [lastReturned_notFound]
    exact ih (fun e he => h e (by simp [he]))

/-- The value `execute` returns is the value of the last handler that
returned, unless a handler was interrupted or called `exit`. -/
theorem specRun_ret {σ : Type} (h : Handlers σ) (segs : List (List (List Char))) :
    ∀ st : ExecState σ, st.ret = lastReturned st.log →
      (specRun h segs st).ret = some (lastReturned (specRun h segs st).log)
      ∨ (∃ cmd argv, ExecEvent.call cmd argv Outcome.interrupted ∈ (specRun h segs st).log)
      ∨ (∃ cmd argv, ExecEvent.call cmd argv Outcome.exited ∈ (specRun h segs st).log) := by
  induction segs with
  | nil =>
    intro st hst
    left
    simp [specRun, finish, hst]
  | cons argv rest ih =>
    intro st hst
    rw [specRun]
    unfold runCommand
    by_cases ha : argv.length ≠ 0
    · simp only [if_pos ha]
      cases hf : findCmd (argv.headD []) cmdList with
      | none =>
        simp only []
        exact ih _ (by simp [lastReturned_notFound, hst])
      | some cmd =>
        simp only []
        cases ho : (h cmd argv st.world).1 with
        | returned r =>
          simp only []
          exact ih _ (by simp [lastReturned_call])
        | interrupted =>
          right; left
          exact ⟨cmd, argv, by simp⟩
        | exited =>
          right; right
          exact ⟨cmd, argv, by simp⟩
    · simp only [if_neg ha]
      exact ih st hst

theorem specArgv_blank (seg : List Char) (h : ∀ c ∈ seg, c = ' ') : specArgv seg = [] := by
  have : (seg.splitOn ' ').filter (fun t => t ≠ []) = [] := by
    induction seg with
    | nil => simp [List.splitOn, List.splitOnP_nil]
    | cons c s ih =>
      have hc : c = ' ' := h c (List.mem_cons_self _ _)
      subst hc
      rw [splitOn_cons_sep]
      simpa using ih (fun x hx => h x (List.mem_cons_of_mem _ hx))
  rw [specArgv, this]
  rfl

theorem splitOn_append_last (buf seg : List Char) (h : ';' ∉ seg) :
    (buf ++ ';' :: seg).splitOn ';' = buf.splitOn ';' ++ [seg] := by
  induction buf with
  | nil =>
    rw [List.nil_append, splitOn_cons_sep, splitOn_single seg h]
    simp [List.splitOn, List.splitOnP_nil]
  | cons c s ih =>
    have hne : s.splitOn ';' ≠ [] := List.splitOnP_ne_nil _ _
    by_cases hc : c = ';'
    · subst hc
      rw [List.cons_append, splitOn_cons_sep, splitOn_cons_sep, ih, List.cons_append]
    · rw [List.cons_append, splitOn_cons_other ';' c _ hc, splitOn_cons_other ';' c _ hc, ih]
      cases hs : s.splitOn ';' with
      | nil => exact absurd hs hne
      | cons f r => simp

theorem specRun_append_blank {σ : Type} (h : Handlers σ) (segs : List (List (List Char))) :
    ∀ st : ExecState σ, specRun h (segs ++ [[]]) st = specRun h segs st := by
  induction segs with
  | nil => intro st; rfl
  | cons argv rest ih =>
    intro st
    rw [List.cons_append, specRun, specRun]
    cases runCommand h argv st with
    | error r => rfl
    | ok s1 => exact ih s1

/-- C10: when no handler is interrupted and none calls `exit`, `execute`
returns the value of the last handler that was called, and `true` when none
was called; in particular it returns `true` when all it did was to print
`Command not found` messages.  A blank segment calls no handler, prints
nothing and leaves `ret` as it is: a line with a blank segment in front or at
the end does what the line without it does. -/
theorem execute_return {σ : Type} (h : Handlers σ) (buf : List Char) (w : World σ)
    (hnul : ∀ c ∈ buf, c ≠ NUL) :
    ∃ r, execute h buf w = some r
      ∧ ((∀ cmd argv, ExecEvent.call cmd argv Outcome.interrupted ∉ r.log
            ∧ ExecEvent.call cmd argv Outcome.exited ∉ r.log) →
          r.ret = some (lastReturned r.log))
      ∧ ((∀ e ∈ r.log, ∃ t, e = ExecEvent.notFound t) → r.ret = some true)
      ∧ (∀ st : ExecState σ, runCommand h [] st = Except.ok st)
      ∧ (∀ seg : List Char, (∀ c ∈ seg, c = ' ') →
          execute h (seg ++ ';' :: buf) w = execute h buf w
          ∧ execute h (buf ++ ';' :: seg) w = execute h buf w) := by
  have hspec := execute_spec h buf w hnul
  have hret := specRun_ret h ((buf.splitOn ';').map specArgv) (enter w) rfl
  have hmain : (∀ cmd argv,
      ExecEvent.call cmd argv Outcome.interrupted
          ∉ (specRun h ((buf.splitOn ';').map specArgv) (enter w)).log
        ∧ ExecEvent.call cmd argv Outcome.exited
          ∉ (specRun h ((buf.splitOn ';').map specArgv) (enter w)).log) →
      (specRun h ((buf.splitOn ';').map specArgv) (enter w)).ret
        = some (lastReturned (specRun h ((buf.splitOn ';').map specArgv) (enter w)).log) := by
    intro hno
    rcases hret with h1 | ⟨cmd, argv, h2⟩ | ⟨cmd, argv, h3⟩
    · exact h1
    · exact absurd h2 (hno cmd argv).1
    · exact absurd h3 (hno cmd argv).2
  refine ⟨_, hspec, hmain, ?_, fun st => rfl, ?_⟩
  · intro hall
    rw [hmain, lastReturned_of_notFound _ hall]
    intro cmd argv
    constructor
    · intro hm
      obtain ⟨t, ht⟩ := hall _ hm
      cases ht
    · intro hm
      obtain ⟨t, ht⟩ := hall _ hm
      cases ht
  · intro seg hblank
    have hsp : (' ' : Char) ≠ ';' := by decide
    have hsn : (' ' : Char) ≠ NUL := by decide
    have hsemi : ';' ∉ seg := fun hm => hsp (hblank _ hm).symm
    have hseg : ∀ c ∈ seg, c ≠ NUL := fun c hc => by rw [hblank c hc]; exact hsn
    have hsc : (';' : Char) ≠ NUL := by decide
    constructor
    · have hall : ∀ c ∈ seg ++ ';' :: buf, c ≠ NUL := by
        intro c hc
        rcases List.mem_append.1 hc with h1 | h1
        · exact hseg c h1
        · cases h1 with
          | head => exact hsc
          | tail _ h2 => exact hnul c h2
      rw [execute_spec h _ w hall, hspec, splitOn_first seg buf hsemi, List.map_cons,
        specArgv_blank seg hblank, specRun]
      rfl
    · have hall : ∀ c ∈ buf ++ ';' :: seg, c ≠ NUL := by
        intro c hc
        rcases List.mem_append.1 hc with h1 | h1
        · exact hnul c h1
        · cases h1 with
          | head => exact hsc
          | tail _ h2 => exact hseg c h2
      rw [execute_spec h _ w hall, hspec, splitOn_append_last buf seg hsemi,
        List.map_append, List.map_cons, List.map_nil, specArgv_blank seg hblank,
        specRun_append_blank]

/-- C10 on the line `ha;co; ;xx;`: the handlers of `HA` and `CO` are called,
the blank segments and the unmatched `xx` change nothing, and the value
`false` of the handler of `CO` is returned. -/
theorem execute_return_witness :
    (∀ c ∈ "ha;co; ;xx;".toList, c ≠ NUL)
    ∧ ∃ r, execute sampleHandlers "ha;co; ;xx;".toList sampleWorld = some r
        ∧ r.ret = some false
        ∧ r.log = [ExecEvent.call Cmd.cmdHA ["ha".toList] (Outcome.returned true),
                   ExecEvent.call Cmd.cmdCO ["co".toList] (Outcome.returned false),
                   ExecEvent.notFound "xx".toList] := by
  refine ⟨by decide, ?_⟩
  obtain ⟨r, hr, h1, _⟩ := execute_return sampleHandlers "ha;co; ;xx;".toList sampleWorld
    (by decide)
  have hc : execute sampleHandlers "ha;co; ;xx;".toList sampleWorld
      = some { ret := some false
               world := { (enter sampleWorld).world with sa_handler := SigAction.SIG_DFL }
               log := [ExecEvent.call Cmd.cmdHA ["ha".toList] (Outcome.returned true),
                       ExecEvent.call Cmd.cmdCO ["co".toList] (Outcome.returned false),
                       ExecEvent.notFound "xx".toList] } := by
    rfl
  have hlog : r.log = [ExecEvent.call Cmd.cmdHA ["ha".toList] (Outcome.returned true),
      ExecEvent.call Cmd.cmdCO ["co".toList] (Outcome.returned false),
      ExecEvent.notFound "xx".toList] := by
    rw [hc] at hr
    cases hr
    rfl
  refine ⟨r, hr, ?_, hlog⟩
  rw [h1 (by rw [hlog]; intro cmd argv; simp), hlog]
  decide

/-! ## The dispatcher and the interrupt -/

theorem runCommand_interrupted {σ : Type} (h : Handlers σ) (token : List Char)
    (args : List (List Char)) (st : ExecState σ) (cmd : Cmd)
    (hf : findCmd token cmdList = some cmd)
    (hi : (h cmd (token :: args) st.world).1 = Outcome.interrupted) :
    runCommand h (token :: args) st
      = Except.error
          { ret := some true
            world := { (h cmd (token :: args) st.world).2 with
                       sa_handler := SigAction.SIG_DFL }
            log := st.log ++
              [ExecEvent.call cmd (token :: args) Outcome.interrupted, ExecEvent.aborted] } := by
  simp only [runCommand, List.length_cons, ne_eq, Nat.succ_ne_zero, not_false_eq_true,
    if_true, List.headD_cons, hf, hi]

/-- Once a handler is interrupted nothing more is done: the log ends with the
interrupted call and the abort notice. -/
theorem specRun_interrupt {σ : Type} (h : Handlers σ) (segs : List (List (List Char))) :
    ∀ st : ExecState σ, noInterrupt st.log →
      noInterrupt (specRun h segs st).log
      ∨ ((specRun h segs st).ret = some true
          ∧ (specRun h segs st).world.sa_handler = SigAction.SIG_DFL
          ∧ ∃ pre cmd argv, noInterrupt pre
              ∧ (specRun h segs st).log
                = pre ++ [ExecEvent.call cmd argv Outcome.interrupted, ExecEvent.aborted]) := by
  induction segs with
  | nil =>
    intro st hst
    left
    exact hst
  | cons argv rest ih =>
    intro st hst
    rw [specRun]
    unfold runCommand
    by_cases ha : argv.length ≠ 0
    · simp only [if_pos ha]
      cases hf : findCmd (argv.headD []) cmdList with
      | none =>
        simp only []
        apply ih
        intro cmd a hm
        simp only [List.mem_append, List.mem_singleton] at hm
        rcases hm with hm | hm
        · exact hst cmd a hm
        · cases hm
      | some cmd =>
        simp only []
        cases ho : (h cmd argv st.world).1 with
        | returned r =>
          simp only []
          apply ih
          intro c a hm
          simp only [List.mem_append, List.mem_singleton] at hm
          rcases hm with hm | hm
          · exact hst c a hm
          · cases hm
        | interrupted =>
          right
          exact ⟨rfl, rfl, st.log, cmd, argv, hst, rfl⟩
        | exited =>
          left
          intro c a hm
          simp only [List.mem_append, List.mem_singleton] at hm
          rcases hm with hm | hm
          · exact hst c a hm
          · cases hm
    · simp only [if_neg ha]
      exact ih st hst

/-- C11 (as the code has it): when an interrupt aborts the handler of a
segment, `execute` prints the abort notice, restores the default disposition
of SIGINT and returns `true` at once; the log ends with the interrupted call
and the abort notice, so that no segment after the aborted one is attempted,
whatever the rest of the line is. -/
theorem execute_interrupted {σ : Type} (h : Handlers σ) (seg rest : List Char) (w : World σ)
    (token : List Char) (args : List (List Char)) (cmd : Cmd)
    (hseg : ∀ c ∈ seg, c ≠ NUL ∧ c ≠ ';') (hrest : ∀ c ∈ rest, c ≠ NUL)
    (htok : specArgv seg = token :: args) (hf : findCmd token cmdList = some cmd)
    (hi : (h cmd (token :: args) (enter w).world).1 = Outcome.interrupted) :
    execute h (seg ++ ';' :: rest) w
        = some { ret := some true
                 world := { (h cmd (token :: args) (enter w).world).2 with
                            sa_handler := SigAction.SIG_DFL }
                 log := [ExecEvent.call cmd (token :: args) Outcome.interrupted,
                         ExecEvent.aborted] }
    ∧ (∀ (line : List Char), (∀ c ∈ line, c ≠ NUL) →
        ∃ r, execute h line w = some r
          ∧ (noInterrupt r.log
              ∨ (r.ret = some true ∧ r.world.sa_handler = SigAction.SIG_DFL
                  ∧ ∃ pre c a, noInterrupt pre
                      ∧ r.log = pre ++
                          [ExecEvent.call c a Outcome.interrupted, ExecEvent.aborted]))) := by
  have hsemi : ';' ∉ seg := fun hm => (hseg _ hm).2 rfl
  have hall : ∀ c ∈ seg ++ ';' :: rest, c ≠ NUL := by
    intro c hc
    rcases List.mem_append.1 hc with h1 | h1
    · exact (hseg c h1).1
    · cases h1 with
      | head => decide
      | tail _ h2 => exact hrest c h2
  constructor
  · rw [execute_spec h _ w hall, splitOn_first seg rest hsemi, List.map_cons, htok, specRun,
      runCommand_interrupted h token args (enter w) cmd hf hi]
    rfl
  · intro line hline
    refine ⟨_, execute_spec h line w hline, ?_⟩
    apply specRun_interrupt
    intro c a hm
    cases hm

/-- C11 on the line `ha;co` when the handler of `HA` is interrupted: `execute`
returns `true` after the abort notice and the handler of `CO` is not called. -/
theorem execute_interrupted_witness :
    (execute abortHandlers "ha;co".toList sampleWorld).map (fun r => (r.ret, r.log))
      = some (some true,
          [ExecEvent.call Cmd.cmdHA ["ha".toList] Outcome.interrupted, ExecEvent.aborted]) := by
  have h := (execute_interrupted abortHandlers "ha".toList "co".toList sampleWorld
    "ha".toList [] Cmd.cmdHA (by decide) (by decide) (by decide) (by decide) (by decide)).1
  have e : "ha".toList ++ ';' :: "co".toList = "ha;co".toList := by decide
  rw [e] at h
  rw [h]
  rfl

/-- C11 as stated fails on the line `ha;co` when the handler of `HA` is
interrupted: the segment `co` resolves to a handler, yet `execute` returns
without any call of it. -/
theorem execute_interrupted_counterexample :
    (abortHandlers Cmd.cmdHA ["ha".toList] (enter sampleWorld).world).1 = Outcome.interrupted
    ∧ findCmd "co".toList cmdList = some Cmd.cmdCO
    ∧ ∃ r, execute abortHandlers "ha;co".toList sampleWorld = some r
        ∧ r.ret = some true
        ∧ ∀ argv outcome, ExecEvent.call Cmd.cmdCO argv outcome ∉ r.log := by
  refine ⟨by decide, by decide,
    { ret := some true
      world := { (enter sampleWorld).world with sa_handler := SigAction.SIG_DFL }
      log := [ExecEvent.call Cmd.cmdHA ["ha".toList] Outcome.interrupted, ExecEvent.aborted] },
    rfl, rfl, ?_⟩
  intro argv outcome hm
  simp at hm

/-! ## More on the boot-image loader -/

theorem and_7f_mod (x : Nat) : x &&& 0x7f = x % 128 := by
  have e : (0x7f : Nat) = 2 ^ 7 - 1 := by norm_num
  rw [e, Nat.and_pow_two_sub_one_eq_mod]

theorem top_lt (x : Nat) : (x &&& 0x80) >>> 7 < 2 := by
  have h : x &&& 0x80 ≤ 0x80 := Nat.and_le_right
  rw [Nat.shiftRight_eq_div_pow]
  omega

theorem top_eq (x : Nat) : (x &&& 0x80) >>> 7 = x / 128 % 2 := by
  have e1 : x / 128 % 2 = (x >>> 7) % 2 ^ 1 := by
    rw [Nat.shiftRight_eq_div_pow]
    norm_num
  have e2 : (0x80 : Nat) = 2 ^ 7 := by norm_num
  rw [e1, e2]
  apply Nat.eq_of_testBit_eq
  intro i
  rw [Nat.testBit_shiftRight, Nat.testBit_and, Nat.testBit_mod_two_pow, Nat.testBit_shiftRight,
    Nat.testBit_two_pow]
  by_cases hi : i = 0
  · subst hi; simp
  · have h1 : ¬ (7 = 7 + i) := by omega
    have h2 : ¬ (i < 1) := by omega
    simp [h1, h2]

/-- The word `rdword` builds from any buffer, as a sum of its six fields. -/
theorem rdword_sum (b : List Nat) :
    rdword b
      = (b.getD 0 0 % 128) * 2^29 + (b.getD 1 0 % 128) * 2^22 + (b.getD 2 0 % 128) * 2^15
        + (b.getD 3 0 % 128) * 2^8 + (b.getD 4 0 % 128) * 2 + b.getD 4 0 / 128 % 2 := by
  unfold rdword
  rw [pack _ _ _ _ _ _ (and_7f_lt _) (and_7f_lt _) (and_7f_lt _) (and_7f_lt _) (top_lt _)]
  simp only [and_7f_mod, top_eq]

theorem fields_of_sum (f0 f1 f2 f3 f4 t w : Nat) (h0 : f0 < 128) (h1 : f1 < 128)
    (h2 : f2 < 128) (h3 : f3 < 128) (h4 : f4 < 128) (ht : t < 2)
    (hw : w = f0 * 536870912 + f1 * 4194304 + f2 * 32768 + f3 * 256 + f4 * 2 + t) :
    w / 536870912 % 128 = f0 ∧ w / 4194304 % 128 = f1 ∧ w / 32768 % 128 = f2
      ∧ w / 256 % 128 = f3 ∧ w / 2 % 128 = f4 ∧ w % 2 = t
      ∧ w / 2 = f0 * 268435456 + f1 * 2097152 + f2 * 16384 + f3 * 128 + f4 := by
  subst hw
  refine ⟨?_, ?_, ?_, ?_, ?_, ?_, ?_⟩ <;> omega

/-- The fields of the word `rdword` builds from any buffer. -/
theorem rdword_fields_of (b : List Nat) :
    rdword b / 536870912 % 128 = b.getD 0 0 % 128
    ∧ rdword b / 4194304 % 128 = b.getD 1 0 % 128
    ∧ rdword b / 32768 % 128 = b.getD 2 0 % 128
    ∧ rdword b / 256 % 128 = b.getD 3 0 % 128
    ∧ rdword b / 2 % 128 = b.getD 4 0 % 128
    ∧ rdword b % 2 = b.getD 4 0 / 128 % 2
    ∧ rdword b / 2 = b.getD 0 0 % 128 * 268435456 + b.getD 1 0 % 128 * 2097152
        + b.getD 2 0 % 128 * 16384 + b.getD 3 0 % 128 * 128 + b.getD 4 0 % 128 := by
  have hb := rdword_sum b
  simp only [Nat.reducePow] at hb
  exact fields_of_sum _ _ _ _ _ _ _ (Nat.mod_lt _ (by norm_num)) (Nat.mod_lt _ (by norm_num))
    (Nat.mod_lt _ (by norm_num)) (Nat.mod_lt _ (by norm_num)) (Nat.mod_lt _ (by norm_num))
    (Nat.mod_lt _ (by norm_num)) hb

/-- C12: the six fields of the word `rdword` builds are the 7-bit-masked
bytes and the top bit of byte 4, each at its own place, so that the masked
bytes are recovered from the word; the lowest bit of the word (bit 35) is the
top bit of byte 4, and the rest of the word does not depend on that bit; and
`rdword` is injective on the groups whose bytes 0..3 have the top bit clear. -/
theorem rdword_roundtrip (b0 b1 b2 b3 b4 : Nat) (_h0 : b0 < 256) (_h1 : b1 < 256)
    (_h2 : b2 < 256) (_h3 : b3 < 256) (h4 : b4 < 256) :
    (rdword [b0, b1, b2, b3, b4] >>> 29) &&& 0x7f = b0 &&& 0x7f
    ∧ (rdword [b0, b1, b2, b3, b4] >>> 22) &&& 0x7f = b1 &&& 0x7f
    ∧ (rdword [b0, b1, b2, b3, b4] >>> 15) &&& 0x7f = b2 &&& 0x7f
    ∧ (rdword [b0, b1, b2, b3, b4] >>> 8) &&& 0x7f = b3 &&& 0x7f
    ∧ (rdword [b0, b1, b2, b3, b4] >>> 1) &&& 0x7f = b4 &&& 0x7f
    ∧ rdword [b0, b1, b2, b3, b4] &&& 1 = b4 >>> 7
    ∧ (∀ c0 c1 c2 c3 c4 : Nat, c4 < 256 → c4 >>> 7 = b4 >>> 7 →
        rdword [c0, c1, c2, c3, c4] &&& 1 = rdword [b0, b1, b2, b3, b4] &&& 1)
    ∧ (∀ c4 : Nat, c4 &&& 0x7f = b4 &&& 0x7f →
        rdword [b0, b1, b2, b3, c4] >>> 1 = rdword [b0, b1, b2, b3, b4] >>> 1)
    ∧ (∀ c0 c1 c2 c3 c4 : Nat, b0 < 128 → b1 < 128 → b2 < 128 → b3 < 128 →
        c0 < 128 → c1 < 128 → c2 < 128 → c3 < 128 → c4 < 256 →
        rdword [c0, c1, c2, c3, c4] = rdword [b0, b1, b2, b3, b4] →
        c0 = b0 ∧ c1 = b1 ∧ c2 = b2 ∧ c3 = b3 ∧ c4 = b4) := by
  obtain ⟨f0, f1, f2, f3, f4, f5, f6⟩ := rdword_fields_of [b0, b1, b2, b3, b4]
  simp only [List.getD_cons_zero, List.getD_cons_succ] at f0 f1 f2 f3 f4 f5 f6
  simp only [Nat.shiftRight_eq_div_pow, and_7f_mod, Nat.and_one_is_mod, Nat.reducePow,
    Nat.pow_one]
  refine ⟨f0, f1, f2, f3, f4, by omega, ?_, ?_, ?_⟩
  · intro c0 c1 c2 c3 c4 hc4 hc
    have g5 := (rdword_fields_of [c0, c1, c2, c3, c4]).2.2.2.2.2.1
    simp only [List.getD_cons_zero, List.getD_cons_succ] at g5
    omega
  · intro c4 hc
    have g6 := (rdword_fields_of [b0, b1, b2, b3, c4]).2.2.2.2.2.2
    simp only [List.getD_cons_zero, List.getD_cons_succ] at g6
    rw [g6, f6, hc]
  · intro c0 c1 c2 c3 c4 _ _ _ _ _ _ _ _ hc4 hc
    obtain ⟨g0, g1, g2, g3, g4, g5, _⟩ := rdword_fields_of [c0, c1, c2, c3, c4]
    simp only [List.getD_cons_zero, List.getD_cons_succ] at g0 g1 g2 g3 g4 g5
    rw [hc] at g0 g1 g2 g3 g4 g5
    refine ⟨?_, ?_, ?_, ?_, ?_⟩ <;> omega

/-- C12 at the bytes `FF 81 7F 00 80`: the fields of the word `0o774037700001`
are `7F 01 7F 00 00` and the lowest bit is 1. -/
theorem rdword_roundtrip_witness :
    (rdword [0xff, 0x81, 0x7f, 0x00, 0x80] >>> 29) &&& 0x7f = 0x7f
    ∧ (rdword [0xff, 0x81, 0x7f, 0x00, 0x80] >>> 22) &&& 0x7f = 0x01
    ∧ (rdword [0xff, 0x81, 0x7f, 0x00, 0x80] >>> 15) &&& 0x7f = 0x7f
    ∧ (rdword [0xff, 0x81, 0x7f, 0x00, 0x80] >>> 8) &&& 0x7f = 0x00
    ∧ (rdword [0xff, 0x81, 0x7f, 0x00, 0x80] >>> 1) &&& 0x7f = 0x00
    ∧ rdword [0xff, 0x81, 0x7f, 0x00, 0x80] &&& 1 = 1 := by
  have h := rdword_roundtrip 0xff 0x81 0x7f 0x00 0x80 (by decide) (by decide) (by decide)
    (by decide) (by decide)
  exact ⟨h.1, h.2.1, h.2.2.1, h.2.2.2.1, h.2.2.2.2.1, h.2.2.2.2.2.1⟩

theorem readRecord_cir (junk : Nat → List Nat) (fuel : Nat) :
    ∀ (words addr : Nat) (s s' : LoadState),
      readRecord junk fuel words addr s = some s' → s'.cir = s.cir := by
  induction fuel with
  | zero =>
    intro words addr s s' h
    unfold readRecord at h
    by_cases hb : words &&& 0o400000 ≠ 0
    · rw [if_pos hb] at h; cases h
    · rw [if_neg hb] at h; cases h; rfl
  | succ fuel ih =>
    intro words addr s s' h
    unfold readRecord at h
    by_cases hb : words &&& 0o400000 ≠ 0
    · rw [if_pos hb] at h
      have h' := ih _ _ _ _ h
      exact h'
    · rw [if_neg hb] at h; cases h; rfl

/-- What a run of the loader's loop leaves: the value `true`, and at most one
more write of the Console Instruction Register, of a terminating header whose
left half is `opJRST`. -/
theorem loadLoop_result (opJRST : Nat) (junk : Nat → List Nat) (fuel : Nat) :
    ∀ (s : LoadState) (r : Bool × LoadState),
      loadLoop opJRST junk fuel s = some r →
        r.1 = true
        ∧ (r.2.cir = s.cir
            ∨ ∃ d, r.2.cir = s.cir ++ [d] ∧ ks10_t.lh d = opJRST
                ∧ ks10_t.lh d &&& 0o400000 = 0) := by
  induction fuel with
  | zero => intro s r h; cases h
  | succ fuel ih =>
    intro s r h
    rw [loadLoop] at h
    by_cases hb : ks10_t.lh (getdata junk s).1 &&& 0o400000 = 0
    · rw [if_pos hb] at h
      by_cases hj : ks10_t.lh (getdata junk s).1 = opJRST
      · rw [if_pos hj] at h
        cases h
        exact ⟨rfl, Or.inr ⟨(getdata junk s).1, rfl, hj, hb⟩⟩
      · rw [if_neg hj] at h
        cases h
        exact ⟨rfl, Or.inl rfl⟩
    · rw [if_neg hb] at h
      cases hr : readRecord junk fuel (ks10_t.lh (getdata junk s).1)
          (ks10_t.rh (getdata junk s).1) (getdata junk s).2 with
      | none => rw [hr] at h; cases h
      | some s2 =>
        rw [hr] at h
        have hc : s2.cir = s.cir := by
          have h' := readRecord_cir junk fuel _ _ _ _ hr
          exact h'
        obtain ⟨h1, h2⟩ := ih _ _ h
        rw [hc] at h2
        exact ⟨h1, h2⟩

/-- C13: at a terminating header (bit `0400000` of the left half clear) the
loader writes the whole header word to the Console Instruction Register, once,
and returns, when the left half is `opJRST`; when the left half has another
value it returns without a write of that register.  Over a whole run of
`loadCode` the register is written at most once, with such a header. -/
theorem loadCode_start_address (opJRST : Nat) (junk : Nat → List Nat) (s : LoadState)
    (f : Nat) (hb : ks10_t.lh (getdata junk s).1 &&& 0o400000 = 0) :
    (ks10_t.lh (getdata junk s).1 = opJRST →
      ∃ s', loadLoop opJRST junk (f + 1) s = some (true, s')
        ∧ s'.cir = s.cir ++ [(getdata junk s).1] ∧ s'.mem = s.mem)
    ∧ (ks10_t.lh (getdata junk s).1 ≠ opJRST →
      ∃ s', loadLoop opJRST junk (f + 1) s = some (true, s')
        ∧ s'.cir = s.cir ∧ s'.mem = s.mem)
    ∧ (∀ (fuel : Nat) (bytes : List Nat) (r : Bool × LoadState),
        loadCode opJRST junk fuel (some bytes) = some r →
          r.2.cir = []
          ∨ ∃ d, r.2.cir = [d] ∧ ks10_t.lh d = opJRST ∧ ks10_t.lh d &&& 0o400000 = 0) := by
  refine ⟨?_, ?_, ?_⟩
  · intro hj
    refine ⟨{ (getdata junk s).2 with
              out := (getdata junk s).2.out ++
                [LoadMsg.startingAddress (ks10_t.lh (getdata junk s).1)
                  (ks10_t.rh (getdata junk s).1)]
              cir := (getdata junk s).2.cir ++ [(getdata junk s).1] }, ?_, rfl, rfl⟩
    rw [loadLoop]
    simp only [if_pos hb, if_pos hj]
  · intro hj
    refine ⟨(getdata junk s).2, ?_, rfl, rfl⟩
    rw [loadLoop]
    simp only [if_pos hb, if_neg hj]
  · intro fuel bytes r hr
    have := (loadLoop_result opJRST junk fuel _ r hr).2
    simpa using this

/-- C13 on two images: `2B 00 00 02 00` is the header `0254000,,0001000`, a
jump to `01000`, which is written to the Console Instruction Register; the
header `0000001,,0777777` ends the image without a write of the register. -/
theorem loadCode_start_address_witness :
    (∃ s', loadLoop 0o254000 (fun _ => []) 1
          { stream := [0x2b, 0x00, 0x00, 0x02, 0x00], calls := 0, mem := [], cir := [],
            out := [] } = some (true, s')
        ∧ s'.cir = [0o254000001000] ∧ s'.mem = [])
    ∧ ∃ s', loadLoop 0o254000 (fun _ => []) 1
          { stream := [0x00, 0x00, 0x0f, 0x7f, 0xff], calls := 0, mem := [], cir := [],
            out := [] } = some (true, s')
        ∧ s'.cir = [] ∧ s'.mem = [] := by
  constructor
  · obtain ⟨s', h1, h2, h3⟩ := (loadCode_start_address 0o254000 (fun _ => [])
      { stream := [0x2b, 0x00, 0x00, 0x02, 0x00], calls := 0, mem := [], cir := [], out := [] }
      0 (by decide)).1 (by decide)
    exact ⟨s', h1, h2.trans (by decide), h3⟩
  · exact (loadCode_start_address 0o254000 (fun _ => [])
      { stream := [0x00, 0x00, 0x0f, 0x7f, 0xff], calls := 0, mem := [], cir := [], out := [] }
      0 (by decide)).2.1 (by decide)

/-- C14: `loadCode` returns `false`, after the message about `fopen`, when the
file cannot be opened; when the file opens, every result it produces is
`true`, whatever the bytes of the file are and whatever a short read leaves in
the buffer.  So a result is `false` exactly when the file could not be
opened. -/
theorem loadCode_result (opJRST : Nat) (junk : Nat → List Nat) (fuel : Nat) :
    loadCode opJRST junk fuel none
        = some (false, { stream := [], calls := 0, mem := [], cir := [],
                         out := [LoadMsg.fopenFailed] })
    ∧ (∀ (bytes : List Nat) (r : Bool × LoadState),
        loadCode opJRST junk fuel (some bytes) = some r → r.1 = true)
    ∧ (∀ (file : Option (List Nat)) (r : Bool × LoadState),
        loadCode opJRST junk fuel file = some r → (r.1 = false ↔ file = none)) := by
  have h2 : ∀ (bytes : List Nat) (r : Bool × LoadState),
      loadCode opJRST junk fuel (some bytes) = some r → r.1 = true :=
    fun bytes r hr => (loadLoop_result opJRST junk fuel _ r hr).1
  refine ⟨rfl, h2, ?_⟩
  intro file r hr
  cases file with
  | none =>
    cases hr
    simp
  | some bytes =>
    have := h2 bytes r hr
    simp [this]

/-- C14 on an image of three bytes, `FF FF FF`, with a buffer that held
zeros: the read is short and reported, the word read is a header with the
continuation bit set, the data word and the next header are read from the
exhausted file, and `loadCode` returns `true`. -/
theorem loadCode_result_witness :
    ∃ r, loadCode 0o254000 (fun _ => [0, 0, 0, 0, 0]) 2 (some [0xff, 0xff, 0xff]) = some r
      ∧ r.1 = true
      ∧ r.2.mem = [(0o700001, 0)]
      ∧ r.2.out = [LoadMsg.readFailed, LoadMsg.readFailed, LoadMsg.readFailed] := by
  have e : loadCode 0o254000 (fun _ => [0, 0, 0, 0, 0]) 2 (some [0xff, 0xff, 0xff])
      = some (true,
          { stream := [], calls := 3, mem := [(0o700001, 0)], cir := [],
            out := [LoadMsg.readFailed, LoadMsg.readFailed, LoadMsg.readFailed] }) := by
    decide
  exact ⟨_, e,
    (loadCode_result 0o254000 (fun _ => [0, 0, 0, 0, 0]) 2).2.1 [0xff, 0xff, 0xff] _ e,
    rfl, rfl⟩

/-- C15 (as the code has it): at a position where fewer than five bytes
remain, `getdata` reports the read failure, takes the bytes that remain and
returns the word `rdword` builds from the buffer: the fields of the bytes that
were read are those bytes, 7-bit-masked.  The loader goes on with that word:
in a record it is written to memory as a data word. -/
theorem getdata_short (junk : Nat → List Nat) (s : LoadState) (h : s.stream.length < 5) :
    (getdata junk s).2.out = s.out ++ [LoadMsg.readFailed]
    ∧ (getdata junk s).2.stream = []
    ∧ (∀ i, i < s.stream.length →
        ((getdata junk s).1 >>> (29 - 7 * i)) &&& 0x7f = s.stream.getD i 0 &&& 0x7f)
    ∧ (∀ (f words addr : Nat), words &&& 0o400000 ≠ 0 →
        readRecord junk (f + 1) words addr s
          = readRecord junk f ((words + 1) &&& 0o777777) ((addr + 1) &&& 0o777777)
              { stream := []
                calls := s.calls + 1
                mem := s.mem ++ [((addr + 1) &&& 0o777777, (getdata junk s).1)]
                cir := s.cir
                out := s.out ++ [LoadMsg.readFailed] }) := by
  have htake : (List.take 5 s.stream) = s.stream := List.take_of_length_le (by omega)
  have hout : (getdata junk s).2.out = s.out ++ [LoadMsg.readFailed] := by
    simp only [getdata, fread, htake]
    rw [if_pos (by omega)]
  have hstream : (getdata junk s).2.stream = [] := by
    simp only [getdata, fread]
    exact List.drop_of_length_le (by omega)
  have hword : (getdata junk s).1
      = rdword (s.stream ++ (junk s.calls).drop s.stream.length) := by
    simp only [getdata, fread, htake]
  refine ⟨hout, hstream, ?_, ?_⟩
  · intro i hi
    obtain ⟨f0, f1, f2, f3, _, _, _⟩ :=
      rdword_fields_of (s.stream ++ (junk s.calls).drop s.stream.length)
    have hg : (s.stream ++ (junk s.calls).drop s.stream.length).getD i 0
        = s.stream.getD i 0 := by
      simp only [List.getD_eq_getElem?_getD, List.getElem?_append_left hi]
    rw [hword, and_7f_mod, and_7f_mod, Nat.shiftRight_eq_div_pow, ← hg]
    have hi4 : i = 0 ∨ i = 1 ∨ i = 2 ∨ i = 3 := by omega
    rcases hi4 with rfl | rfl | rfl | rfl
    · exact f0
    · exact f1
    · exact f2
    · exact f3
  · intro f words addr hb
    rw [readRecord, if_pos hb]
    simp only []
    congr 1
    have h1 : (getdata junk s).2.calls = s.calls + 1 := rfl
    have h2 : (getdata junk s).2.mem = s.mem := rfl
    have h3 : (getdata junk s).2.cir = s.cir := rfl
    rw [hstream, hout, h1, h2, h3]

/-- C15 at a position where the bytes `FF 81` remain, with a buffer that held
`01 02 03 04 05`: the word returned has the fields `7F` and `01` of the bytes
read, the read failure is reported and the file is exhausted. -/
theorem getdata_short_witness :
    (getdata (fun _ => [1, 2, 3, 4, 5])
        { stream := [0xff, 0x81], calls := 0, mem := [], cir := [], out := [] }).2.out
      = [LoadMsg.readFailed]
    ∧ ((getdata (fun _ => [1, 2, 3, 4, 5])
        { stream := [0xff, 0x81], calls := 0, mem := [], cir := [], out := [] }).1 >>> 22)
          &&& 0x7f = 0x01 := by
  have h := getdata_short (fun _ => [1, 2, 3, 4, 5])
    { stream := [0xff, 0x81], calls := 0, mem := [], cir := [], out := [] } (by decide)
  exact ⟨h.1, (h.2.2.1 1 (by decide)).trans (by decide)⟩

/-- C15 as stated fails where the one byte `FF` remains, even with a buffer
that held zeros: the read is short and the word `getdata` returns is
`0o774000000000`, not zero. -/
theorem getdata_short_counterexample :
    ([0xff] : List Nat).length < 5
    ∧ (getdata (fun _ => [0, 0, 0, 0, 0])
        { stream := [0xff], calls := 0, mem := [], cir := [], out := [] }).1
      = 0o774000000000
    ∧ (getdata (fun _ => [0, 0, 0, 0, 0])
        { stream := [0xff], calls := 0, mem := [], cir := [], out := [] }).1 ≠ 0 := by
  decide

/-! ## Disarming and status of the breakpoint units -/

theorem cmdBR_disable_unit (u : Nat) (hu : u < 4) (s : BrState) :
    cmdBR_disable (unitChar u) s
      = (ks10_t.writeBRMR u 0 (ks10_t.writeBRAR u 0 s)).print (BrMsg.disabled u) := by
  rcases unitChar_cases u hu with ⟨rfl, h⟩ | ⟨rfl, h⟩ | ⟨rfl, h⟩ | ⟨rfl, h⟩ <;>
    rw [h] <;> simp [cmdBR_disable]

theorem cmdBR_printStatus_unit (k : BrConst) (u : Nat) (hu : u < 4) (s : BrState) :
    cmdBR_printStatus k (unitChar u) s
      = if s.brar u = 0 ∧ s.brmr u = 0 then s.print (BrMsg.disabled u)
        else (s.print (decoded k (brarName u) (s.brar u))).print
          (decoded k (brmrName u) (s.brmr u)) := by
  rcases unitChar_cases u hu with ⟨rfl, h⟩ | ⟨rfl, h⟩ | ⟨rfl, h⟩ | ⟨rfl, h⟩ <;>
    rw [h] <;>
    simp [cmdBR_printStatus, printStatusUnit, printBRxR, decoded, brarName, brmrName,
      ks10_t.readBRAR, ks10_t.readBRMR, BrState.print]

/-- The status command `br<u>`, for a unit digit. -/
theorem cmdBR_status (k : BrConst) (u : Nat) (hu : u < 4) (argv0 : List Char)
    (h0 : cchar argv0 2 = unitChar u) (opts : List Getopt) (s : BrState) :
    cmdBR k 1 argv0 opts s
      = (true,
          if s.brar u = 0 ∧ s.brmr u = 0 then s.print (BrMsg.disabled u)
          else (s.print (decoded k (brarName u) (s.brar u))).print
            (decoded k (brmrName u) (s.brmr u))) := by
  have hc : cchar argv0 2 = '0' ∨ cchar argv0 2 = '1' ∨ cchar argv0 2 = '2'
      ∨ cchar argv0 2 = '3' := by
    rw [h0]
    rcases unitChar_cases u hu with ⟨_, h⟩ | ⟨_, h⟩ | ⟨_, h⟩ | ⟨_, h⟩ <;> simp [h]
  unfold cmdBR
  rw [if_pos rfl, if_pos hc, h0, cmdBR_printStatus_unit k u hu]

/-- The command `br<u> --disable`, for a unit digit. -/
theorem cmdBR_disarm (k : BrConst) (u : Nat) (hu : u < 4) (argc : Nat) (hargc : argc ≠ 1)
    (argv0 : List Char) (h0 : cchar argv0 2 = unitChar u) (arg : List Char)
    (rest : List Getopt) (s : BrState) :
    cmdBR k argc argv0 (Getopt.option 1 arg :: rest) s
      = (true, (ks10_t.writeBRMR u 0 (ks10_t.writeBRAR u 0 s)).print (BrMsg.disabled u)) := by
  unfold cmdBR
  rw [if_neg hargc, h0]
  simp only [cmdBR_options]
  simp [cmdBR_disable_unit u hu]

theorem cmdBR_disable_all (s : BrState) :
    cmdBR_disable NUL s
      = ((ks10_t.writeBRMR 3 0 (ks10_t.writeBRAR 3 0
          (ks10_t.writeBRMR 2 0 (ks10_t.writeBRAR 2 0
            (ks10_t.writeBRMR 1 0 (ks10_t.writeBRAR 1 0
              (ks10_t.writeBRMR 0 0 (ks10_t.writeBRAR 0 0 s)))))))).print
          BrMsg.allDisabled) := by
  have h0 : ¬ (NUL = '0') := by decide
  have h1 : ¬ (NUL = '1') := by decide
  have h2 : ¬ (NUL = '2') := by decide
  have h3 : ¬ (NUL = '3') := by decide
  have hr : List.range 4 = [0, 1, 2, 3] := rfl
  simp only [cmdBR_disable, if_neg h0, if_neg h1, if_neg h2, if_neg h3, if_true, hr,
    List.foldl_cons, List.foldl_nil]

/-- C16: the command `br<u> --disable` writes zero to both registers of unit
`u` and nothing else; after it the status of the unit is `breakpoint
disabled`; on a unit that was disarmed already it leaves the registers as
they were, at zero; after the unit was armed with any condition, address and
mask it returns both registers to zero; and `br --disable`, with no unit
digit, leaves the registers of all four units at zero. -/
theorem cmdBR_disarm_unit (k : BrConst) (u : Nat) (hu : u < 4) (argc : Nat)
    (hargc : argc ≠ 1) (argv0 : List Char) (h0 : cchar argv0 2 = unitChar u)
    (arg : List Char) (rest : List Getopt) (s : BrState) :
    (cmdBR k argc argv0 (Getopt.option 1 arg :: rest) s).2.brar u = 0
    ∧ (cmdBR k argc argv0 (Getopt.option 1 arg :: rest) s).2.brmr u = 0
    ∧ (cmdBR k argc argv0 (Getopt.option 1 arg :: rest) s).2.writes
        = s.writes ++ [BrWrite.brar u 0, BrWrite.brmr u 0]
    ∧ (cmdBR k argc argv0 (Getopt.option 1 arg :: rest) s).2.out
        = s.out ++ [BrMsg.disabled u]
    ∧ (cmdBR k 1 argv0 [] (cmdBR k argc argv0 (Getopt.option 1 arg :: rest) s).2).2.out
        = s.out ++ [BrMsg.disabled u, BrMsg.disabled u]
    ∧ (s.brar u = 0 → s.brmr u = 0 →
        (cmdBR k argc argv0 (Getopt.option 1 arg :: rest) s).2.brar = s.brar
        ∧ (cmdBR k argc argv0 (Getopt.option 1 arg :: rest) s).2.brmr = s.brmr)
    ∧ (∀ (c : BreakCond) (A M : List Char),
        (cmdBR k argc argv0 (Getopt.option 1 arg :: rest)
          (cmdBR k argc argv0 [Getopt.option c.index A, Getopt.option 9 M] s).2).2.brar u = 0
        ∧ (cmdBR k argc argv0 (Getopt.option 1 arg :: rest)
          (cmdBR k argc argv0 [Getopt.option c.index A, Getopt.option 9 M] s).2).2.brmr u = 0)
    ∧ (∀ argvB : List Char, cchar argvB 2 = NUL → ∀ i, i < 4 →
        (cmdBR k argc argvB (Getopt.option 1 arg :: rest) s).2.brar i = 0
        ∧ (cmdBR k argc argvB (Getopt.option 1 arg :: rest) s).2.brmr i = 0) := by
  have hd := fun t => cmdBR_disarm k u hu argc hargc argv0 h0 arg rest t
  refine ⟨?_, ?_, ?_, ?_, ?_, ?_, ?_, ?_⟩
  · rw [hd]; simp [ks10_t.writeBRMR, ks10_t.writeBRAR, BrState.print]
  · rw [hd]; simp [ks10_t.writeBRMR, ks10_t.writeBRAR, BrState.print]
  · rw [hd]; simp [ks10_t.writeBRMR, ks10_t.writeBRAR, BrState.print]
  · rw [hd]; simp [ks10_t.writeBRMR, ks10_t.writeBRAR, BrState.print]
  · rw [cmdBR_status k u hu argv0 h0, hd]
    simp [ks10_t.writeBRMR, ks10_t.writeBRAR, BrState.print]
  · intro ha hm
    rw [hd]
    simp only [ks10_t.writeBRMR, ks10_t.writeBRAR, BrState.print]
    exact ⟨by rw [← ha]; exact Function.update_eq_self u s.brar,
      by rw [← hm]; exact Function.update_eq_self u s.brmr⟩
  · intro c A M
    rw [hd]
    simp [ks10_t.writeBRMR, ks10_t.writeBRAR, BrState.print]
  · intro argvB hB i hi
    have e : cmdBR k argc argvB (Getopt.option 1 arg :: rest) s
        = (true, cmdBR_disable NUL s) := by
      unfold cmdBR
      rw [if_neg hargc, hB]
      simp only [cmdBR_options]
      simp
    rw [e, cmdBR_disable_all]
    have hi4 : i = 0 ∨ i = 1 ∨ i = 2 ∨ i = 3 := by omega
    rcases hi4 with rfl | rfl | rfl | rfl <;>
      simp [ks10_t.writeBRMR, ks10_t.writeBRAR, BrState.print, Function.update]

/-- C16 for `br2 --disable` and `br --disable` on units that hold `0o777`
in every register, with the example constants. -/
theorem cmdBR_disarm_unit_witness :
    (cmdBR exampleConst 2 "br2".toList [Getopt.option 1 "--disable".toList]
        (BrState.init 0o777)).2.writes = [BrWrite.brar 2 0, BrWrite.brmr 2 0]
    ∧ (cmdBR exampleConst 2 "br".toList [Getopt.option 1 "--disable".toList]
        (BrState.init 0o777)).2.brmr 3 = 0 := by
  have h := cmdBR_disarm_unit exampleConst 2 (by decide) 2 (by decide) "br2".toList
    (by decide) "--disable".toList [] (BrState.init 0o777)
  exact ⟨h.2.2.1, (h.2.2.2.2.2.2.2 "br".toList (by decide) 3 (by decide)).2⟩

/-- C17: for a unit `u` in 0..3 the status command `br<u>` writes no
register and prints `br<u>: breakpoint disabled` when both registers of the
unit read zero, and in no other case; otherwise it prints the Address
Register and then the Mask Register decoded, each with its flags and with its
address field, which is the register AND-ed with `brarIOMASK` when the I/O
flag of the register is set and with `brarMEMMASK` when it is not. -/
theorem cmdBR_status_report (k : BrConst) (u : Nat) (hu : u < 4) (argv0 : List Char)
    (h0 : cchar argv0 2 = unitChar u) (opts : List Getopt) (s : BrState) :
    (s.brar u = 0 ∧ s.brmr u = 0 →
      (cmdBR k 1 argv0 opts s).2.out = s.out ++ [BrMsg.disabled u])
    ∧ (¬ (s.brar u = 0 ∧ s.brmr u = 0) →
      (cmdBR k 1 argv0 opts s).2.out
        = s.out ++
          [BrMsg.reg (brarName u) (s.brar u)
            (s.brar u &&& k.flagFetch != 0) (s.brar u &&& k.flagRead != 0)
            (s.brar u &&& k.flagWrite != 0) (s.brar u &&& k.flagPhys != 0)
            (s.brar u &&& k.flagIO != 0) (s.brar u &&& k.flagByte != 0)
            (if s.brar u &&& k.flagIO != 0 then s.brar u &&& k.brarIOMASK
              else s.brar u &&& k.brarMEMMASK),
           BrMsg.reg (brmrName u) (s.brmr u)
            (s.brmr u &&& k.flagFetch != 0) (s.brmr u &&& k.flagRead != 0)
            (s.brmr u &&& k.flagWrite != 0) (s.brmr u &&& k.flagPhys != 0)
            (s.brmr u &&& k.flagIO != 0) (s.brmr u &&& k.flagByte != 0)
            (if s.brmr u &&& k.flagIO != 0 then s.brmr u &&& k.brarIOMASK
              else s.brmr u &&& k.brarMEMMASK)])
    ∧ ((∃ v, BrMsg.disabled v ∈ ((cmdBR k 1 argv0 opts s).2.out).drop s.out.length)
        ↔ (s.brar u = 0 ∧ s.brmr u = 0))
    ∧ (cmdBR k 1 argv0 opts s).2.brar = s.brar
    ∧ (cmdBR k 1 argv0 opts s).2.brmr = s.brmr
    ∧ (cmdBR k 1 argv0 opts s).2.writes = s.writes
    ∧ (cmdBR k 1 argv0 opts s).1 = true := by
  rw [cmdBR_status k u hu argv0 h0]
  by_cases hz : s.brar u = 0 ∧ s.brmr u = 0
  · rw [if_pos hz]
    refine ⟨fun _ => rfl, fun h => absurd hz h, ?_, rfl, rfl, rfl, rfl⟩
    simp [BrState.print, hz]
  · rw [if_neg hz]
    refine ⟨fun h => absurd h hz, fun _ => ?_, ?_, rfl, rfl, rfl, rfl⟩
    · simp [BrState.print, decoded]
    · simp [BrState.print, decoded, hz]

/-- C17 for `br2` with the example constants: on a unit whose registers read
zero the report is `breakpoint disabled`; on a unit armed for an I/O read at
`03772440` both registers are printed with the address field under the I/O
mask. -/
theorem cmdBR_status_report_witness :
    (cmdBR exampleConst 1 "br2".toList [] (BrState.init 0)).2.out = [BrMsg.disabled 2]
    ∧ (cmdBR exampleConst 1 "br2".toList []
        { brar := fun _ => 0o040203772440, brmr := fun _ => 0o040217777740,
          writes := [], out := [] }).2.out
      = [BrMsg.reg "BRAR2" 0o040203772440 false true false false true false 0o3772440,
         BrMsg.reg "BRMR2" 0o040217777740 false true false false true false 0o17777740] := by
  constructor
  · exact (cmdBR_status_report exampleConst 2 (by decide) "br2".toList (by decide) []
      (BrState.init 0)).1 (by decide)
  · exact ((cmdBR_status_report exampleConst 2 (by decide) "br2".toList (by decide) []
      { brar := fun _ => 0o040203772440, brmr := fun _ => 0o040217777740,
        writes := [], out := [] }).2.1 (by decide)).trans (by decide)

/-! ## Properties of the terminal multiplexer -/

theorem consoleKey_escaped (ch : Int) (s : ConsoleState) (h : s.escape = true) :
    consoleKey ch s
      = ({ s with
           events := s.events ++ [ConsoleEvent.putchar (if ch = 0x0a then 0x0d else ch)]
           escape := false }, false) := by
  simp [consoleKey, h]

theorem consoleKey_escape (s : ConsoleState) (h : s.escape = false) :
    consoleKey 0x1b s = ({ s with escape := true }, false) := by
  simp [consoleKey, h]

theorem consoleLoop_key (ch : Int) (ps : List Poll) (s : ConsoleState)
    (hb : (consoleKey ch s).2 = false) :
    consoleLoop ({ key := some ch, halted := false } :: ps) s
      = consoleLoop ps (consoleKey ch s).1 := by
  rw [consoleLoop]
  simp [hb]

/-- C18: an escape character that arrives while no escape is pending is
consumed, with no event at all, and makes the escape pending; the key that
arrives while an escape is pending, whatever it is, is forwarded to the
console of the target (a newline as a carriage return), causes no other
event, does not end the loop and clears the pending escape.  So an escape
followed by `^E`, `^T`, `^L` or another escape forwards that one key. -/
theorem consoleOutput_escape (s : ConsoleState) (h : s.escape = false) (ch : Int)
    (ps : List Poll) :
    consoleKey 0x1b s = ({ s with escape := true }, false)
    ∧ consoleKey ch { s with escape := true }
        = ({ s with
             events := s.events ++ [ConsoleEvent.putchar (if ch = 0x0a then 0x0d else ch)]
             escape := false }, false)
    ∧ consoleLoop
          ({ key := some 0x1b, halted := false } :: { key := some ch, halted := false } :: ps) s
        = consoleLoop ps
            { s with
              events := s.events ++ [ConsoleEvent.putchar (if ch = 0x0a then 0x0d else ch)] }
    ∧ consoleLoop
          ({ key := some 0x1b, halted := false } :: { key := some 0x1b, halted := false } :: ps) s
        = consoleLoop ps { s with events := s.events ++ [ConsoleEvent.putchar 0x1b] }
    ∧ consoleLoop
          ({ key := some 0x1b, halted := false } :: { key := some 0x05, halted := false } :: ps) s
        = consoleLoop ps { s with events := s.events ++ [ConsoleEvent.putchar 0x05] } := by
  have h1 := consoleKey_escape s h
  have h2 : ∀ c : Int, consoleKey c { s with escape := true }
      = ({ s with
           events := s.events ++ [ConsoleEvent.putchar (if c = 0x0a then 0x0d else c)]
           escape := false }, false) :=
    fun c => consoleKey_escaped c { s with escape := true } rfl
  have h3 : ∀ c : Int, consoleLoop
        ({ key := some 0x1b, halted := false } :: { key := some c, halted := false } :: ps) s
      = consoleLoop ps
          { s with
            events := s.events ++ [ConsoleEvent.putchar (if c = 0x0a then 0x0d else c)] } := by
    intro c
    rw [consoleLoop_key 0x1b _ s (by rw [h1]), h1,
      consoleLoop_key c _ _ (by rw [h2 c]), h2 c]
    simp only []
    congr 1
    cases s
    simp only at h
    simp [h]
  refine ⟨h1, h2 ch, h3 ch, ?_, ?_⟩
  · have := h3 0x1b
    simpa using this
  · have := h3 0x05
    simpa using this

/-- C18 on the keys escape, `^E`, escape, escape, `^E`: the first `^E` and
one escape are forwarded, the last `^E` detaches. -/
theorem consoleOutput_escape_witness :
    consoleLoop
        [{ key := some 0x1b, halted := false }, { key := some 0x05, halted := false },
         { key := some 0x1b, halted := false }, { key := some 0x1b, halted := false },
         { key := some 0x05, halted := false }] sampleConsole
      = ({ sampleConsole with
           events := [ConsoleEvent.putchar 0x05, ConsoleEvent.putchar 0x1b,
                      ConsoleEvent.detachNotice] }, LoopEnd.detached) := by
  rw [(consoleOutput_escape sampleConsole rfl 0x05
    [{ key := some 0x1b, halted := false }, { key := some 0x1b, halted := false },
     { key := some 0x05, halted := false }]).2.2.1]
  decide

theorem forwarded_append (a b : List ConsoleEvent) :
    forwarded (a ++ b) = forwarded a ++ forwarded b := by
  simp [forwarded, List.filterMap_append]

/-- What one key adds to the bytes forwarded: nothing, or the key translated. -/
theorem consoleKey_forwards (ch : Int) (s : ConsoleState) :
    ∃ ks : List Int, ks.Sublist [ch]
      ∧ forwarded (consoleKey ch s).1.events = forwarded s.events ++ ks.map translate := by
  unfold consoleKey
  split
  · exact ⟨[], by simp, by simp⟩
  · split
    · exact ⟨[], by simp, by simp [forwarded_append, forwarded]⟩
    · split
      · exact ⟨[], by simp, by simp [forwarded_append, forwarded]⟩
      · split
        · exact ⟨[], by simp, by simp [forwarded_append, forwarded]⟩
        · exact ⟨[ch], by simp, by simp [forwarded_append, forwarded, translate]⟩

theorem consoleLoop_forwards (polls : List Poll) :
    ∀ s : ConsoleState, ∃ ks : List Int,
      ks.Sublist (polls.filterMap (fun p => p.key))
      ∧ forwarded (consoleLoop polls s).1.events = forwarded s.events ++ ks.map translate := by
  induction polls with
  | nil => intro s; exact ⟨[], by simp, by simp [consoleLoop]⟩
  | cons p ps ih =>
    intro s
    rw [consoleLoop]
    cases hk : p.key with
    | none =>
      simp only [List.filterMap_cons, hk]
      by_cases hh : p.halted = true
      · simp only [hh, if_true]
        exact ⟨[], by simp, by simp⟩
      · have hh' : p.halted = false := by simpa using hh
        simp only [hh', Bool.false_eq_true, if_false]
        exact ih s
    | some ch =>
      simp only [List.filterMap_cons, hk]
      obtain ⟨k1, hs1, hf1⟩ := consoleKey_forwards ch s
      have hsub : k1.Sublist (ch :: ps.filterMap (fun p => p.key)) := by
        have : k1.Sublist ([ch] ++ ps.filterMap (fun p => p.key)) :=
          List.Sublist.trans hs1 (List.sublist_append_left _ _)
        simpa using this
      by_cases hb : (consoleKey ch s).2 = true
      · simp only [hb, if_true]
        exact ⟨k1, hsub, hf1⟩
      · have hb' : (consoleKey ch s).2 = false := by simpa using hb
        simp only [hb', Bool.false_eq_true, if_false]
        by_cases hh : p.halted = true
        · simp only [hh, if_true]
          exact ⟨k1, hsub, hf1⟩
        · have hh' : p.halted = false := by simpa using hh
          simp only [hh', Bool.false_eq_true, if_false]
          obtain ⟨k2, hs2, hf2⟩ := ih (consoleKey ch s).1
          refine ⟨k1 ++ k2, ?_, ?_⟩
          · have : (k1 ++ k2).Sublist ([ch] ++ ps.filterMap (fun p => p.key)) :=
              List.Sublist.append hs1 hs2
            simpa using this
          · rw [hf2, hf1, List.map_append, List.append_assoc]

theorem translate_ne_newline (ch : Int) : translate ch ≠ 0x0a := by
  unfold translate
  split
  · decide
  · assumption

/-- C19: whatever keys arrive, the bytes `consoleOutput` forwards to the
console of the target are keys that arrived, in their order, each forwarded as
it is except the newline, which is forwarded as a carriage return, also when
it follows an escape; no byte forwarded is a newline. -/
theorem consoleOutput_forwards (polls : List Poll) (s : ConsoleState) :
    (∃ ks : List Int, ks.Sublist (polls.filterMap (fun p => p.key))
      ∧ forwarded (consoleLoop polls (attach s)).1.events
          = forwarded s.events ++ ks.map translate
      ∧ (∀ b ∈ ks.map translate, b ≠ 0x0a)
      ∧ (∀ (haltedAtReturn : Bool) (r : Bool × ConsoleState),
          consoleOutput polls haltedAtReturn s = some r →
            forwarded r.2.events = forwarded s.events ++ ks.map translate))
    ∧ translate 0x0a = 0x0d
    ∧ (∀ ch : Int, ch ≠ 0x0a → translate ch = ch)
    ∧ (∀ t : ConsoleState,
        forwarded (consoleKey 0x0a t).1.events = forwarded t.events ++ [0x0d])
    ∧ (∀ t : ConsoleState, t.escape = true →
        forwarded (consoleLoop [{ key := some 0x0a, halted := false }] t).1.events
          = forwarded t.events ++ [0x0d]) := by
  refine ⟨?_, by decide, ?_, ?_, ?_⟩
  · obtain ⟨ks, hs, hf⟩ := consoleLoop_forwards polls (attach s)
    have ha : (attach s).events = s.events := rfl
    rw [ha] at hf
    refine ⟨ks, hs, hf, ?_, ?_⟩
    · intro b hb
      obtain ⟨c, _, rfl⟩ := List.mem_map.1 hb
      exact translate_ne_newline c
    · intro har r hr
      unfold consoleOutput at hr
      split at hr
      · cases hr
      · rename_i s1 e hne heq
        cases hr
        rw [heq] at hf
        exact hf
  · intro ch hch
    simp [translate, hch]
  · intro t
    simp [consoleKey, forwarded_append, forwarded]
  · intro t ht
    rw [consoleLoop_key 0x0a [] t (by rw [consoleKey_escaped 0x0a t ht]), consoleLoop,
      consoleKey_escaped 0x0a t ht]
    simp [forwarded_append, forwarded]

/-- C19 on the keys `A`, newline, escape, newline, `^T`, `B`: the bytes
forwarded are `A`, carriage return, carriage return, `B`. -/
theorem consoleOutput_forwards_witness :
    forwarded (consoleLoop
        [{ key := some 0x41, halted := false }, { key := some 0x0a, halted := false },
         { key := some 0x1b, halted := false }, { key := some 0x0a, halted := false },
         { key := some 0x14, halted := false }, { key := some 0x42, halted := false }]
        (attach sampleConsole)).1.events = [0x41, 0x0d, 0x0d, 0x42]
    ∧ ∃ ks : List Int,
        forwarded (consoleLoop
          [{ key := some 0x41, halted := false }, { key := some 0x0a, halted := false },
           { key := some 0x1b, halted := false }, { key := some 0x0a, halted := false },
           { key := some 0x14, halted := false }, { key := some 0x42, halted := false }]
          (attach sampleConsole)).1.events = forwarded sampleConsole.events ++ ks.map translate
        ∧ ∀ b ∈ ks.map translate, b ≠ 0x0a := by
  refine ⟨by decide, ?_⟩
  obtain ⟨ks, _, h2, h3, _⟩ := (consoleOutput_forwards
    [{ key := some 0x41, halted := false }, { key := some 0x0a, halted := false },
     { key := some 0x1b, halted := false }, { key := some 0x0a, halted := false },
     { key := some 0x14, halted := false }, { key := some 0x42, halted := false }]
    sampleConsole).1
  exact ⟨ks, h2, h3⟩

theorem consoleLoop_append (pre : List Poll) :
    ∀ (post : List Poll) (s : ConsoleState), (consoleLoop pre s).2 = LoopEnd.polling →
      consoleLoop (pre ++ post) s = consoleLoop post (consoleLoop pre s).1 := by
  induction pre with
  | nil => intro post s _; rfl
  | cons p ps ih =>
    intro post s h
    rw [consoleLoop] at h
    rw [List.cons_append, consoleLoop, consoleLoop]
    cases hk : p.key with
    | none =>
      simp only [hk] at h ⊢
      by_cases hh : p.halted = true
      · simp only [hh, if_true] at h
        cases h
      · have hh' : p.halted = false := by simpa using hh
        simp only [hh', Bool.false_eq_true, if_false] at h ⊢
        exact ih post s h
    | some ch =>
      simp only [hk] at h ⊢
      by_cases hb : (consoleKey ch s).2 = true
      · simp only [hb, if_true] at h
        cases h
      · have hb' : (consoleKey ch s).2 = false := by simpa using hb
        simp only [hb', Bool.false_eq_true, if_false] at h ⊢
        by_cases hh : p.halted = true
        · simp only [hh, if_true] at h
          cases h
        · have hh' : p.halted = false := by simpa using hh
          simp only [hh', Bool.false_eq_true, if_false] at h ⊢
          exact ih post _ h

theorem consoleLoop_detach (hh : Bool) (ps : List Poll) (t : ConsoleState)
    (ht : t.escape = false) :
    consoleLoop ({ key := some 0x05, halted := hh } :: ps) t
      = ({ t with events := t.events ++ [ConsoleEvent.detachNotice] }, LoopEnd.detached) := by
  rw [consoleLoop]
  simp [consoleKey, ht]

/-- C20: whenever `consoleOutput` returns, it returns the negation of what
`ks10_t::halt()` reads in the `return` statement.  The key `^E` with no escape
pending ends the loop at once, with the notice `^E` and without forwarding
the key (nor reading the halt state in that turn), and `consoleOutput` then
returns `true` when the target is running at the return.  When the loop ends
because the target has halted and the target is still halted at the return,
`consoleOutput` returns `false`. -/
theorem consoleOutput_return (polls : List Poll) (haltedAtReturn : Bool)
    (s : ConsoleState) :
    (∀ r, consoleOutput polls haltedAtReturn s = some r → r.1 = !haltedAtReturn)
    ∧ (∀ (t : ConsoleState) (hh : Bool) (ps : List Poll), t.escape = false →
        consoleLoop ({ key := some 0x05, halted := hh } :: ps) t
          = ({ t with events := t.events ++ [ConsoleEvent.detachNotice] }, LoopEnd.detached))
    ∧ (∀ (hh : Bool) (post : List Poll),
        (consoleLoop polls (attach s)).2 = LoopEnd.polling →
        (consoleLoop polls (attach s)).1.escape = false →
        consoleOutput (polls ++ { key := some 0x05, halted := hh } :: post) haltedAtReturn s
          = some (!haltedAtReturn,
              { (consoleLoop polls (attach s)).1 with
                events := (consoleLoop polls (attach s)).1.events ++ [ConsoleEvent.detachNotice]
                c_lflag := (consoleLoop polls (attach s)).1.c_lflag ||| ISIG })
        ∧ (haltedAtReturn = false →
            ∃ r, consoleOutput (polls ++ { key := some 0x05, halted := hh } :: post)
                haltedAtReturn s = some r ∧ r.1 = true
              ∧ forwarded r.2.events = forwarded (consoleLoop polls (attach s)).1.events))
    ∧ ((consoleLoop polls (attach s)).2 = LoopEnd.halted → haltedAtReturn = true →
        ∃ r, consoleOutput polls haltedAtReturn s = some r ∧ r.1 = false) := by
  refine ⟨?_, ?_, ?_, ?_⟩
  · intro r hr
    unfold consoleOutput at hr
    split at hr
    · cases hr
    · cases hr
      rfl
  · intro t hh ps ht
    exact consoleLoop_detach hh ps t ht
  · intro hh post hp he
    have e : consoleOutput (polls ++ { key := some 0x05, halted := hh } :: post)
        haltedAtReturn s
        = some (!haltedAtReturn,
            { (consoleLoop polls (attach s)).1 with
              events := (consoleLoop polls (attach s)).1.events ++ [ConsoleEvent.detachNotice]
              c_lflag := (consoleLoop polls (attach s)).1.c_lflag ||| ISIG }) := by
      unfold consoleOutput
      rw [consoleLoop_append polls _ _ hp, consoleLoop_detach hh post _ he]
    refine ⟨e, ?_⟩
    intro hr
    refine ⟨_, e, by simp [hr], ?_⟩
    simp [forwarded_append, forwarded]
  · intro hl hr
    unfold consoleOutput
    cases hc : consoleLoop polls (attach s) with
    | mk s1 e =>
      rw [hc] at hl
      simp only at hl
      subst hl
      exact ⟨_, rfl, by simp [hr]⟩

/-- C20 on two runs: the keys `A` and `^E` with the target running at the
return give `true`, the `^E` not being forwarded; the key `A` in a turn at the
end of which the target has halted gives `false`. -/
theorem consoleOutput_return_witness :
    consoleOutput
        [{ key := some 0x41, halted := false }, { key := some 0x05, halted := false }]
        false sampleConsole
      = some (true,
          { escape := false, c_lflag := 0o13, sa_handler := SigAction.SIG_IGN,
            events := [ConsoleEvent.putchar 0x41, ConsoleEvent.detachNotice] })
    ∧ ∃ r, consoleOutput [{ key := some 0x41, halted := true }] true sampleConsole = some r
        ∧ r.1 = false := by
  constructor
  · have h := ((consoleOutput_return [{ key := some 0x41, halted := false }] false
      sampleConsole).2.2.1 false [] (by decide) (by decide)).1
    exact h.trans (by decide)
  · exact (consoleOutput_return [{ key := some 0x41, halted := true }] true
      sampleConsole).2.2.2 (by decide) rfl

/-! ## Terminal mode across the multiplexer -/

theorem consoleKey_lflag (ch : Int) (s : ConsoleState) :
    (consoleKey ch s).1.c_lflag = s.c_lflag := by
  unfold consoleKey
  split_ifs <;> rfl

theorem consoleLoop_lflag (polls : List Poll) (s : ConsoleState) :
    (consoleLoop polls s).1.c_lflag = s.c_lflag := by
  induction polls generalizing s with
  | nil => rfl
  | cons p ps ih =>
    unfold consoleLoop
    cases hk : p.key with
    | none =>
      simp only []
      split_ifs
      · rfl
      · exact ih s
    | some ch =>
      simp only []
      split_ifs
      · exact consoleKey_lflag ch s
      · exact consoleKey_lflag ch s
      · rw [ih, consoleKey_lflag]

theorem clear_set_isig (x : Nat) (h : x < 2 ^ 32) :
    (x &&& (0xffffffff ^^^ ISIG)) ||| ISIG = x ||| ISIG := by
  have e : (0xffffffff ^^^ ISIG) = 2 ^ 32 - 1 - 1 := by decide
  apply Nat.eq_of_testBit_eq
  intro i
  simp only [Nat.testBit_or, Nat.testBit_and]
  by_cases hi : i = 0
  · subst hi
    simp [ISIG]
  · by_cases h32 : i < 32
    · have : (0xffffffff ^^^ ISIG).testBit i = true := by
        have hi' : i = 1 ∨ i = 2 ∨ i = 3 ∨ i = 4 ∨ i = 5 ∨ i = 6 ∨ i = 7 ∨ i = 8 ∨ i = 9 ∨ i = 10
          ∨ i = 11 ∨ i = 12 ∨ i = 13 ∨ i = 14 ∨ i = 15 ∨ i = 16 ∨ i = 17 ∨ i = 18 ∨ i = 19
          ∨ i = 20 ∨ i = 21 ∨ i = 22 ∨ i = 23 ∨ i = 24 ∨ i = 25 ∨ i = 26 ∨ i = 27 ∨ i = 28
          ∨ i = 29 ∨ i = 30 ∨ i = 31 := by omega
        rcases hi' with h | h | h | h | h | h | h | h | h | h | h | h | h | h | h | h | h | h
          | h | h | h | h | h | h | h | h | h | h | h | h | h <;> subst h <;> decide
      rw [this, Bool.and_true]
    · have hx : x.testBit i = false := by
        apply Nat.testBit_lt_two_pow
        calc x < 2 ^ 32 := h
          _ ≤ 2 ^ i := Nat.pow_le_pow_right (by decide) (by omega)
      rw [hx, Bool.false_and]

/-- C21 (as the code has it): for every terminal state before the call and
every path by which `consoleOutput` returns (detach or halt of the target),
the flags of the terminal after the return are those before the call with
`ISIG` set: the other flags are as they were, and `ISIG` is set whatever it
was before.  So the signal-converting mode after the return is the one before
the call whenever `ISIG` was set then. -/
theorem consoleOutput_isig (polls : List Poll) (haltedAtReturn : Bool) (s : ConsoleState)
    (r : Bool × ConsoleState) (hflag : s.c_lflag < 2 ^ 32)
    (hret : consoleOutput polls haltedAtReturn s = some r) :
    r.2.c_lflag = s.c_lflag ||| ISIG
    ∧ r.2.c_lflag &&& ISIG = ISIG
    ∧ (s.c_lflag &&& ISIG = ISIG → r.2.c_lflag = s.c_lflag) := by
  have hl := consoleLoop_lflag polls (attach s)
  have key : r.2.c_lflag = s.c_lflag ||| ISIG := by
    unfold consoleOutput at hret
    cases hc : consoleLoop polls (attach s) with
    | mk s1 e =>
      rw [hc] at hret hl
      cases e with
      | polling => simp at hret
      | detached =>
        simp only [Option.some.injEq] at hret
        rw [← hret]
        show s1.c_lflag ||| ISIG = _
        rw [hl]
        exact clear_set_isig _ hflag
      | halted =>
        simp only [Option.some.injEq] at hret
        rw [← hret]
        show s1.c_lflag ||| ISIG = _
        rw [hl]
        exact clear_set_isig _ hflag
  refine ⟨key, ?_, ?_⟩
  · rw [key]
    apply Nat.eq_of_testBit_eq
    intro i
    simp only [Nat.testBit_and, Nat.testBit_or]
    cases (s.c_lflag.testBit i) <;> simp
  · intro hs
    rw [key]
    apply Nat.eq_of_testBit_eq
    intro i
    have := congrArg (fun x => x.testBit i) hs
    simp only [Nat.testBit_and] at this
    simp only [Nat.testBit_or]
    cases hh : (s.c_lflag.testBit i) <;> cases hj : (ISIG.testBit i) <;> simp_all

/-- C21 on a terminal in its usual mode, left with the detach key: the flags
after the return are those before the call. -/
theorem consoleOutput_isig_witness :
    consoleOutput [{ key := some 0x05, halted := false }] false sampleConsole
      = some (true, { escape := false, c_lflag := 0o13, sa_handler := SigAction.SIG_IGN,
                      events := [ConsoleEvent.detachNotice] })
    ∧ (0o13 : Nat) = sampleConsole.c_lflag := by
  have h := consoleOutput_isig [{ key := some 0x05, halted := false }] false sampleConsole
    (true, { escape := false, c_lflag := 0o13, sa_handler := SigAction.SIG_IGN,
             events := [ConsoleEvent.detachNotice] }) (by decide) (by decide)
  exact ⟨by decide, h.2.2 (by decide)⟩

/-- C21 as stated fails on a terminal whose flag `ISIG` is clear before the
call: `consoleOutput`, left when the target halts, returns with `ISIG` set,
so that the flags after the return are not those before the call. -/
theorem consoleOutput_isig_counterexample :
    ({ sampleConsole with c_lflag := 0o12 } : ConsoleState).c_lflag &&& ISIG = 0
    ∧ ∃ r, consoleOutput [{ key := none, halted := true }] true
            { sampleConsole with c_lflag := 0o12 } = some r
        ∧ r.2.c_lflag &&& ISIG = ISIG
        ∧ r.2.c_lflag ≠ ({ sampleConsole with c_lflag := 0o12 } : ConsoleState).c_lflag := by
  refine ⟨by decide, _, rfl, by decide, by decide⟩

/-! ## Return paths of the dispatcher -/

theorem allReturned_append (l : List ExecEvent) (e : ExecEvent) (hl : allReturned l)
    (he : ∀ cmd argv outcome, e = ExecEvent.call cmd argv outcome →
      ∃ b, outcome = Outcome.returned b) : allReturned (l ++ [e]) := by
  intro c a o hm
  rcases List.mem_append.1 hm with h1 | h1
  · exact hl c a o h1
  · exact he c a o (List.mem_singleton.1 h1).symm

/-- The ways `specRun` ends: all segments done, a handler interrupted, or a
handler that called `exit`. -/
theorem specRun_paths {σ : Type} (h : Handlers σ) (segs : List (List (List Char))) :
    ∀ st : ExecState σ, allReturned st.log →
      ((∃ b, (specRun h segs st).ret = some b)
          ∧ (specRun h segs st).world.sa_handler = SigAction.SIG_DFL
          ∧ allReturned (specRun h segs st).log)
      ∨ ((specRun h segs st).ret = some true
          ∧ (specRun h segs st).world.sa_handler = SigAction.SIG_DFL
          ∧ ∃ pre cmd argv, allReturned pre
              ∧ (specRun h segs st).log
                = pre ++ [ExecEvent.call cmd argv Outcome.interrupted, ExecEvent.aborted])
      ∨ ((specRun h segs st).ret = none
          ∧ ∃ pre cmd argv, allReturned pre
              ∧ (specRun h segs st).log = pre ++ [ExecEvent.call cmd argv Outcome.exited]) := by
  induction segs with
  | nil =>
    intro st hst
    left
    exact ⟨⟨st.ret, rfl⟩, rfl, hst⟩
  | cons argv rest ih =>
    intro st hst
    unfold specRun
    unfold runCommand
    by_cases ha : argv.length ≠ 0
    · simp only [if_pos ha]
      cases hf : findCmd (argv.headD []) cmdList with
      | none =>
        simp only []
        apply ih
        exact allReturned_append _ _ hst (by intro c a o he; cases he)
      | some cmd =>
        simp only []
        cases ho : (h cmd argv st.world).1 with
        | returned b =>
          simp only []
          apply ih
          apply allReturned_append _ _ hst
          intro c a o he
          cases he
          exact ⟨b, rfl⟩
        | interrupted =>
          right
          left
          exact ⟨rfl, rfl, st.log, cmd, argv, hst, rfl⟩
        | exited =>
          right
          right
          exact ⟨rfl, st.log, cmd, argv, hst, rfl⟩
    · simp only [if_neg ha]
      exact ih st hst

/-- C22: `execute` ends on every line, and whenever it returns (all segments
done, be they run, unmatched or blank, or a handler aborted by an interrupt)
the disposition of SIGINT is the default again, so that the checkpoint is
disarmed.  An interrupt aborts the one handler it arrives in: `execute`
itself returns `true`, the calls before the aborted one have all returned,
and the log ends with the aborted call and the abort notice.  The only way
`execute` does not return is a handler that calls `exit`. -/
theorem execute_disarms {σ : Type} (h : Handlers σ) (line : List Char) (w : World σ)
    (hline : ∀ c ∈ line, c ≠ NUL) :
    ∃ r, execute h line w = some r
      ∧ (r.ret ≠ none → r.world.sa_handler = SigAction.SIG_DFL)
      ∧ (((∃ b, r.ret = some b) ∧ allReturned r.log)
        ∨ (r.ret = some true
            ∧ ∃ pre cmd argv, allReturned pre
                ∧ r.log = pre ++ [ExecEvent.call cmd argv Outcome.interrupted, ExecEvent.aborted])
        ∨ (r.ret = none
            ∧ ∃ pre cmd argv, allReturned pre
                ∧ r.log = pre ++ [ExecEvent.call cmd argv Outcome.exited])) := by
  refine ⟨_, execute_spec h line w hline, ?_, ?_⟩
  · intro hr
    rcases specRun_paths h ((line.splitOn ';').map specArgv) (enter w)
      (by intro c a o hm; cases hm) with h1 | h1 | h1
    · exact h1.2.1
    · exact h1.2.1
    · exact absurd h1.1 hr
  · rcases specRun_paths h ((line.splitOn ';').map specArgv) (enter w)
      (by intro c a o hm; cases hm) with h1 | h1 | h1
    · exact Or.inl ⟨h1.1, h1.2.2⟩
    · exact Or.inr (Or.inl ⟨h1.1, h1.2.2⟩)
    · exact Or.inr (Or.inr h1)

/-- C22 on the line `co;ha;co` when the handler of `HA` is interrupted: the
first `CO` has returned, `HA` is aborted, and `execute` returns with the
default disposition of SIGINT. -/
theorem execute_disarms_witness :
    ∃ r, execute abortHandlers "co;ha;co".toList sampleWorld = some r
      ∧ r.world.sa_handler = SigAction.SIG_DFL
      ∧ r.log = [ExecEvent.call Cmd.cmdCO ["co".toList] (Outcome.returned true),
                 ExecEvent.call Cmd.cmdHA ["ha".toList] Outcome.interrupted,
                 ExecEvent.aborted] := by
  obtain ⟨r, hr, hd, _⟩ := execute_disarms abortHandlers "co;ha;co".toList sampleWorld
    (by decide)
  have e : execute abortHandlers "co;ha;co".toList sampleWorld
      = some { ret := some true
               world := { (enter sampleWorld).world with sa_handler := SigAction.SIG_DFL }
               log := [ExecEvent.call Cmd.cmdCO ["co".toList] (Outcome.returned true),
                 ExecEvent.call Cmd.cmdHA ["ha".toList] Outcome.interrupted,
                 ExecEvent.aborted] } := rfl
  rw [e] at hr
  cases hr
  exact ⟨_, e, hd (by decide), rfl⟩

/-! ## Breakpoint commands on one line -/

/-- C23 (what the code does on the line of the usage text): on the one line
`br2 --iord 03772440 --mask 037;br3 --iowr 03772440 --mask 037` the first
segment arms unit 2, but the second segment finds `optind` at 5, its own
`argc`, so that `getopt_long` yields `-1` at once and `cmdBR` writes 0 to the
Address Register and to the Mask Register of unit 3.  The same two commands
on separate lines arm unit 2 and unit 3: `execute` sets `optind` to 0 once a
line, not once a segment. -/
theorem execute_br_line (k : BrConst) :
    (execute (brHandlers k)
        "br2 --iord 03772440 --mask 037;br3 --iowr 03772440 --mask 037".toList brWorld).map
      (fun r => (r.world.dev.writes, r.world.dev.brar 3, r.world.dev.brmr 3))
      = some ([BrWrite.brar 2 (k.brarIORD ||| (k.brarIOMASK &&& 0o3772440)),
               BrWrite.brmr 2 ((k.brmrIORD ||| k.brmrIOMASK) &&& not64 (k.brarIOMASK &&& 0o37)),
               BrWrite.brar 3 0, BrWrite.brmr 3 (0 &&& not64 0)], 0, 0)
    ∧ ∃ r1, execute (brHandlers k) "br2 --iord 03772440 --mask 037".toList brWorld = some r1
        ∧ (execute (brHandlers k) "br3 --iowr 03772440 --mask 037".toList r1.world).map
            (fun r => r.world.dev.writes)
          = some [BrWrite.brar 2 (k.brarIORD ||| (k.brarIOMASK &&& 0o3772440)),
               BrWrite.brmr 2 ((k.brmrIORD ||| k.brmrIOMASK) &&& not64 (k.brarIOMASK &&& 0o37)),
               BrWrite.brar 3 (k.brarIOWR ||| (k.brarIOMASK &&& 0o3772440)),
               BrWrite.brmr 3 ((k.brmrIOWR ||| k.brmrIOMASK) &&& not64 (k.brarIOMASK &&& 0o37))] := by
  constructor
  · rfl
  · exact ⟨_, rfl, rfl⟩

/-! ## Frame of the breakpoint command -/

theorem noWrite_refl (s : BrState) : noWrite s s := ⟨rfl, rfl, rfl⟩

theorem noWrite_trans {s t r : BrState} (h1 : noWrite s t) (h2 : noWrite t r) : noWrite s r :=
  ⟨h2.1.trans h1.1, h2.2.1.trans h1.2.1, h2.2.2.trans h1.2.2⟩

theorem noWrite_print (s : BrState) (m : BrMsg) : noWrite s (s.print m) := ⟨rfl, rfl, rfl⟩

theorem noWrite_parseArg (arg : List Char) (s : BrState) : noWrite s (parseArg arg s).2 := by
  unfold parseArg
  simp only []
  split_ifs
  · exact noWrite_print _ _
  · exact noWrite_refl _

theorem noWrite_onlyUnit {s t : BrState} (u : Nat) (h : noWrite s t) : onlyUnit u s t :=
  ⟨fun v _ => ⟨by rw [h.1], by rw [h.2.1]⟩, [], by rw [h.2.2, List.append_nil], by
    intro w hw; cases hw⟩

theorem onlyUnit_trans {u : Nat} {s t r : BrState} (h1 : onlyUnit u s t)
    (h2 : onlyUnit u t r) : onlyUnit u s r := by
  obtain ⟨a1, ws1, b1, c1⟩ := h1
  obtain ⟨a2, ws2, b2, c2⟩ := h2
  refine ⟨fun v hv => ⟨((a2 v hv).1).trans (a1 v hv).1, ((a2 v hv).2).trans (a1 v hv).2⟩,
    ws1 ++ ws2, by rw [b2, b1, List.append_assoc], ?_⟩
  intro w hw
  rcases List.mem_append.1 hw with h | h
  · exact c1 w h
  · exact c2 w h

theorem onlyUnit_write (u brar brmr : Nat) (s : BrState) :
    onlyUnit u s (ks10_t.writeBRMR u brmr (ks10_t.writeBRAR u brar s)) := by
  refine ⟨fun v hv => ⟨?_, ?_⟩, [BrWrite.brar u brar, BrWrite.brmr u brmr], ?_, ?_⟩
  · show Function.update s.brar u brar v = s.brar v
    exact Function.update_noteq hv _ _
  · show Function.update s.brmr u brmr v = s.brmr v
    exact Function.update_noteq hv _ _
  · show (s.writes ++ [BrWrite.brar u brar]) ++ [BrWrite.brmr u brmr] = _
    rw [List.append_assoc]
    rfl
  · intro w hw
    simp only [List.mem_cons, List.mem_singleton, List.not_mem_nil, or_false] at hw
    rcases hw with h | h <;> subst h <;> rfl

theorem noWrite_printStatus (k : BrConst) (ch : Char) (s : BrState) :
    noWrite s (cmdBR_printStatus k ch s) := by
  have hu : ∀ n a m, noWrite s (printStatusUnit k n a m s) := by
    intro n a m
    unfold printStatusUnit printBRxR
    by_cases h : ks10_t.readBRAR s n = 0 ∧ ks10_t.readBRMR s n = 0
    · rw [if_pos h]
      exact noWrite_print _ _
    · rw [if_neg h]
      exact noWrite_trans (noWrite_print _ _) (noWrite_print _ _)
  unfold cmdBR_printStatus
  split_ifs
  · exact hu _ _ _
  · exact hu _ _ _
  · exact hu _ _ _
  · exact hu _ _ _
  · exact noWrite_refl _

/-- One turn of the option loop of `cmdBR` for an option other than `--help`
and `--disable`: the loop goes on and no register has been written. -/
theorem cmdBR_options_step (k : BrConst) (unit : Char) (i : Nat) (arg : List Char)
    (rest : List Getopt) (index brar brmr mask : Nat) (s : BrState)
    (h0 : i ≠ 0) (h1 : i ≠ 1) :
    ∃ brar1 brmr1 mask1 s1, noWrite s s1
      ∧ cmdBR_options k unit (Getopt.option i arg :: rest) index brar brmr mask s
        = cmdBR_options k unit rest i brar1 brmr1 mask1 s1 := by
  have hp := noWrite_parseArg arg s
  by_cases h2 : i = 2
  · subst h2
    exact ⟨_, _, _, _, hp, by simp [cmdBR_options]; rfl⟩
  by_cases h3 : i = 3
  · subst h3
    exact ⟨_, _, _, _, hp, by simp [cmdBR_options]; rfl⟩
  by_cases h4 : i = 4
  · subst h4
    exact ⟨_, _, _, _, hp, by simp [cmdBR_options]; rfl⟩
  by_cases h5 : i = 5
  · subst h5
    exact ⟨_, _, _, _, hp, by simp [cmdBR_options]; rfl⟩
  by_cases h6 : i = 6
  · subst h6
    exact ⟨_, _, _, _, hp, by simp [cmdBR_options]; rfl⟩
  by_cases h7 : i = 7
  · subst h7
    exact ⟨_, _, _, _, hp, by simp [cmdBR_options]; rfl⟩
  by_cases h8 : i = 8
  · subst h8
    exact ⟨_, _, _, _, hp, by simp [cmdBR_options]; rfl⟩
  by_cases h9 : i = 9
  · subst h9
    exact ⟨_, _, _, _, hp, by simp [cmdBR_options]; rfl⟩
  by_cases h10 : i = 10
  · subst h10
    exact ⟨_, _, _, _, noWrite_print s BrMsg.rawNotImplemented, by simp [cmdBR_options]; rfl⟩
  exact ⟨_, _, _, _, noWrite_refl s, by
    simp [cmdBR_options, h0, h1, h2, h3, h4, h5, h6, h7, h8, h9, h10]; rfl⟩

/-- The option loop of `cmdBR` for the unit `u` writes registers of that unit
only. -/
theorem cmdBR_options_only (k : BrConst) (u : Nat) (hu : u < 4) (opts : List Getopt) :
    ∀ (index brar brmr mask : Nat) (s : BrState),
      onlyUnit u s (cmdBR_options k (unitChar u) opts index brar brmr mask s).state := by
  induction opts with
  | nil =>
    intro index brar brmr mask s
    exact noWrite_onlyUnit u (noWrite_refl s)
  | cons o rest ih =>
    intro index brar brmr mask s
    cases o with
    | unrecognized arg => exact noWrite_onlyUnit u (noWrite_print _ _)
    | option i arg =>
      by_cases h0 : i = 0
      · subst h0
        have e : cmdBR_options k (unitChar u) (Getopt.option 0 arg :: rest) index brar brmr
            mask s = BrParse.returned (s.print BrMsg.usage) := by simp [cmdBR_options]
        rw [e]
        exact noWrite_onlyUnit u (noWrite_print _ _)
      by_cases h1 : i = 1
      · subst h1
        have e : cmdBR_options k (unitChar u) (Getopt.option 1 arg :: rest) index brar brmr
            mask s = BrParse.returned (cmdBR_disable (unitChar u) s) := by
          simp [cmdBR_options]
        rw [e, cmdBR_disable_unit u hu]
        exact onlyUnit_trans (onlyUnit_write u 0 0 s) (noWrite_onlyUnit u (noWrite_print _ _))
      obtain ⟨b1, m1, k1, s1, hs, e⟩ :=
        cmdBR_options_step k (unitChar u) i arg rest index brar brmr mask s h0 h1
      rw [e]
      exact onlyUnit_trans (noWrite_onlyUnit u hs) (ih _ _ _ _ _)

/-- Without the option `--disable` the option loop of `cmdBR` writes no
register, whatever the unit character is. -/
theorem cmdBR_options_noWrite (k : BrConst) (ch : Char) (opts : List Getopt)
    (hopts : ∀ o ∈ opts, ∀ a, o ≠ Getopt.option 1 a) :
    ∀ (index brar brmr mask : Nat) (s : BrState),
      noWrite s (cmdBR_options k ch opts index brar brmr mask s).state := by
  induction opts with
  | nil =>
    intro index brar brmr mask s
    exact noWrite_refl s
  | cons o rest ih =>
    have ih1 := ih (fun o ho => hopts o (List.mem_cons_of_mem _ ho))
    intro index brar brmr mask s
    cases o with
    | unrecognized arg => exact noWrite_print _ _
    | option i arg =>
      by_cases h0 : i = 0
      · subst h0
        have e : cmdBR_options k ch (Getopt.option 0 arg :: rest) index brar brmr
            mask s = BrParse.returned (s.print BrMsg.usage) := by simp [cmdBR_options]
        rw [e]
        exact noWrite_print _ _
      have h1 : i ≠ 1 := by
        intro h
        exact hopts (Getopt.option i arg) (List.mem_cons_self _ _) arg (by rw [h])
      obtain ⟨b1, m1, k1, s1, hs, e⟩ :=
        cmdBR_options_step k ch i arg rest index brar brmr mask s h0 h1
      rw [e]
      exact noWrite_trans hs (ih1 _ _ _ _ _)

theorem foldl_printStatus (k : BrConst) (l : List Char) :
    ∀ s : BrState, noWrite s (l.foldl (fun t ch => cmdBR_printStatus k ch t) s) := by
  induction l with
  | nil => intro s; exact noWrite_refl s
  | cons c cs ih =>
    intro s
    exact noWrite_trans (noWrite_printStatus k c s) (ih _)

/-- C27: a `br` command whose token names the unit `u` in 0..3 writes only
registers of that unit, whatever its options are (a break condition, a mask,
`--disable`, none): the Address and Mask Registers of the other units are as
before and every call of `writeBRAR` or `writeBRMR` made addresses `u`.  A
`br` command whose token has no unit digit and that carries no `--disable`,
so in particular one that carries only a break condition, writes no
breakpoint register at all. -/
theorem cmdBR_frame (k : BrConst) (argc : Nat) (argv0 : List Char) (opts : List Getopt)
    (s : BrState) :
    (∀ u, u < 4 → cchar argv0 2 = unitChar u → onlyUnit u s (cmdBR k argc argv0 opts s).2)
    ∧ (cchar argv0 2 ≠ '0' ∧ cchar argv0 2 ≠ '1' ∧ cchar argv0 2 ≠ '2' ∧ cchar argv0 2 ≠ '3' →
        (∀ o ∈ opts, ∀ a, o ≠ Getopt.option 1 a) →
        noWrite s (cmdBR k argc argv0 opts s).2) := by
  constructor
  · intro u hu h0
    unfold cmdBR
    by_cases hargc : argc = 1
    · simp only [if_pos hargc]
      split_ifs
      · exact noWrite_onlyUnit u (noWrite_printStatus k _ s)
      · exact noWrite_onlyUnit u (foldl_printStatus k _ s)
    · simp only [if_neg hargc]
      have ho := cmdBR_options_only k u hu opts 0 0 0 0 s
      rw [h0]
      cases hc : cmdBR_options k (unitChar u) opts 0 0 0 0 s with
      | returned s1 =>
        rw [hc] at ho
        exact ho
      | parsed index brar brmr mask s1 =>
        rw [hc] at ho
        simp only []
        rw [cmdBR_write_unit u hu]
        exact onlyUnit_trans ho (onlyUnit_trans (noWrite_onlyUnit u (noWrite_print _ _))
          (onlyUnit_write u _ _ _))
  · intro hnd hopts
    unfold cmdBR
    by_cases hargc : argc = 1
    · simp only [if_pos hargc]
      split_ifs
      · exact noWrite_printStatus k _ s
      · exact foldl_printStatus k _ s
    · simp only [if_neg hargc]
      have ho := cmdBR_options_noWrite k (cchar argv0 2) opts hopts 0 0 0 0 s
      cases hc : cmdBR_options k (cchar argv0 2) opts 0 0 0 0 s with
      | returned s1 =>
        rw [hc] at ho
        exact ho
      | parsed index brar brmr mask s1 =>
        rw [hc] at ho
        simp only []
        unfold cmdBR_write
        rw [if_neg hnd.1, if_neg hnd.2.1, if_neg hnd.2.2.1, if_neg hnd.2.2.2]
        exact noWrite_trans ho (noWrite_print _ _)

/-- C27 on `br2 --fetch 030000`, which leaves the Address Register of unit 1
as it was, and on `br --fetch 030000`, which writes nothing. -/
theorem cmdBR_frame_witness :
    (cmdBR exampleConst 3 "br2".toList [Getopt.option 2 "030000".toList] (BrState.init 5)).2.brar 1
      = 5
    ∧ (cmdBR exampleConst 3 "br".toList [Getopt.option 2 "030000".toList]
        (BrState.init 5)).2.writes = [] := by
  have h := cmdBR_frame exampleConst 3 "br2".toList [Getopt.option 2 "030000".toList]
    (BrState.init 5)
  have g := cmdBR_frame exampleConst 3 "br".toList [Getopt.option 2 "030000".toList]
    (BrState.init 5)
  exact ⟨((h.1 2 (by decide) (by decide)).1 1 (by decide)).1,
    (g.2 (by decide) (by intro o ho a; simp at ho; subst ho; simp)).2.2⟩


/-! ## The raw condition -/

/-- C24 (as the code has it): the option `--raw` of a `br` command for the
unit `u` in 0..3 prints `br --raw not implemented.` and its values are not
used: with `--raw` as the only option `cmdBR` writes 0 to the Address
Register and 0 to the Mask Register of the unit, whatever the argument of
the option is. -/
theorem cmdBR_raw (k : BrConst) (u : Nat) (hu : u < 4) (argc : Nat) (hargc : argc ≠ 1)
    (argv0 : List Char) (h0 : cchar argv0 2 = unitChar u) (arg : List Char) (s : BrState) :
    (cmdBR k argc argv0 [Getopt.option 10 arg] s).2.brar u = 0
    ∧ (cmdBR k argc argv0 [Getopt.option 10 arg] s).2.brmr u = 0
    ∧ (cmdBR k argc argv0 [Getopt.option 10 arg] s).2.writes
        = s.writes ++ [BrWrite.brar u 0, BrWrite.brmr u 0]
    ∧ (cmdBR k argc argv0 [Getopt.option 10 arg] s).2.out
        = s.out ++ [BrMsg.rawNotImplemented, BrMsg.debug argc 10] := by
  have e : cmdBR_options k (unitChar u) [Getopt.option 10 arg] 0 0 0 0 s
      = BrParse.parsed 10 0 0 0 (s.print BrMsg.rawNotImplemented) := by
    simp [cmdBR_options]
  rw [cmdBR_eval k u hu argc hargc argv0 h0 _ s _ 10 0 0 0 e]
  refine ⟨?_, ?_, ?_, ?_⟩
  · simp [ks10_t.writeBRMR, ks10_t.writeBRAR]
  · simp [ks10_t.writeBRMR, ks10_t.writeBRAR]
  · simp [ks10_t.writeBRMR, ks10_t.writeBRAR, BrState.print]
  · simp [ks10_t.writeBRMR, ks10_t.writeBRAR, BrState.print]

/-- C24 on `br1 --raw 0123,0456`: the Address Register of unit 1 is 0 after
the command. -/
theorem cmdBR_raw_witness :
    (cmdBR exampleConst 2 "br1".toList [Getopt.option 10 "0123,0456".toList]
      (BrState.init 5)).2.brar 1 = 0 :=
  (cmdBR_raw exampleConst 1 (by decide) 2 (by decide) "br1".toList (by decide)
    "0123,0456".toList (BrState.init 5)).1

/-- C24 as stated fails on `br1 --raw 0123,0456`: the Address Register of
unit 1 does not receive the value `0123`; the two writes made are of 0. -/
theorem cmdBR_raw_counterexample :
    (parseOctal "0123".toList).1 = 0o123
    ∧ (cmdBR exampleConst 2 "br1".toList [Getopt.option 10 "0123,0456".toList]
        (BrState.init 5)).2.brar 1 ≠ 0o123
    ∧ (cmdBR exampleConst 2 "br1".toList [Getopt.option 10 "0123,0456".toList]
        (BrState.init 5)).2.writes = [BrWrite.brar 1 0, BrWrite.brmr 1 0] := by
  decide

/-! ## Bus accesses and the NXM flag -/

theorem checkedFrom_pair (a : BusEvent) (f : Bool) (ha : a.isAccess = true) (t : List BusEvent) :
    ∀ p, checkedFrom p ((t ++ [a]) ++ [BusEvent.nxmnxd f]) = checkedFrom p t := by
  induction t with
  | nil =>
    intro p
    show checkedFrom p [a, BusEvent.nxmnxd f] = checkedFrom p []
    simp only [checkedFrom, ha, if_true]
    have hq : (BusEvent.nxmnxd f).isAccess = false := rfl
    simp [hq]
  | cons e es ih =>
    intro p
    show checkedFrom p (e :: ((es ++ [a]) ++ [BusEvent.nxmnxd f])) = checkedFrom p (e :: es)
    simp only [checkedFrom]
    rw [ih, ih]

/-- The invariant of the commands that check the flag. -/
theorem step_ok (s : BusState) (a : BusEvent) (f : Bool) (m : BusMsg)
    (ha : a.isAccess = true) (hm : m.isFailure = f)
    (hc : checked s.trace = true) (hr : reported s) :
    checked ((s.trace ++ [a]) ++ [BusEvent.nxmnxd f]) = true
    ∧ reported { trace := (s.trace ++ [a]) ++ [BusEvent.nxmnxd f], out := s.out ++ [m] } := by
  constructor
  · unfold checked
    rw [checkedFrom_pair a f ha]
    exact hc
  · unfold reported at hr ⊢
    have h1 : (List.filter (fun e => decide (e = BusEvent.nxmnxd true)) [a]) = [] := by
      cases a <;> simp_all [BusEvent.isAccess]
    simp only [List.filter_append, List.length_append, h1, List.length_nil, Nat.add_zero, hr]
    cases f <;> cases m <;> simp_all [BusMsg.isFailure]

theorem print_ok (s : BusState) (m : BusMsg) (hm : m.isFailure = false)
    (hc : checked s.trace = true) (hr : reported s) :
    checked (s.print m).trace = true ∧ reported (s.print m) := by
  refine ⟨hc, ?_⟩
  unfold reported at hr ⊢
  show (List.filter BusMsg.isFailure (s.out ++ [m])).length = _
  rw [List.filter_append, List.length_append, hr]
  simp [hm]
  rfl

theorem parseNumber_ok (arg : List Char) (s : BusState)
    (hc : checked s.trace = true) (hr : reported s) :
    checked (parseNumber arg s).2.trace = true ∧ reported (parseNumber arg s).2 := by
  unfold parseNumber
  simp only []
  split_ifs
  · exact print_ok s _ rfl hc hr
  · exact ⟨hc, hr⟩

theorem readMemChecked_ok (bus : Bus) (addr : Nat) (s : BusState)
    (hc : checked s.trace = true) (hr : reported s) :
    checked (readMemChecked bus addr s).trace = true ∧ reported (readMemChecked bus addr s) := by
  unfold readMemChecked
  cases hf : (ks10_t.nxmnxd bus (ks10_t.readMem bus addr s).2).1 with
  | true =>
    have hf1 : bus.nxm (s.trace ++ [BusEvent.readMem addr]) = true := hf
    have h := step_ok s (BusEvent.readMem addr) true
      (BusMsg.failed "rd mem: memory access failed with NXM") rfl rfl hc hr
    simp only [if_true]
    simpa [ks10_t.nxmnxd, ks10_t.readMem, BusState.print, hf1] using h
  | false =>
    have hf1 : bus.nxm (s.trace ++ [BusEvent.readMem addr]) = false := hf
    have h := step_ok s (BusEvent.readMem addr) false
      (BusMsg.word addr (bus.mem addr)) rfl rfl hc hr
    simp only [Bool.false_eq_true, if_false]
    simpa [ks10_t.nxmnxd, ks10_t.readMem, BusState.print, hf1] using h

theorem cmdRD_memLoop_ok (bus : Bus) (n : Nat) : ∀ (addr : Nat) (s : BusState),
    checked s.trace = true → reported s →
    checked (cmdRD_memLoop bus n addr s).trace = true ∧ reported (cmdRD_memLoop bus n addr s) := by
  induction n with
  | zero => intro addr s hc hr; exact ⟨hc, hr⟩
  | succ n ih =>
    intro addr s hc hr
    obtain ⟨h1, h2⟩ := readMemChecked_ok bus addr s hc hr
    exact ih _ _ h1 h2

theorem dasmLoop_ok (bus : Bus) (maxMemAddr n : Nat) : ∀ (addr : Nat) (s : BusState),
    checked s.trace = true → reported s →
    checked (dasmLoop bus maxMemAddr n addr s).trace = true
      ∧ reported (dasmLoop bus maxMemAddr n addr s) := by
  induction n with
  | zero => intro addr s hc hr; exact ⟨hc, hr⟩
  | succ n ih =>
    intro addr s hc hr
    unfold dasmLoop
    apply ih
    · cases hf : (ks10_t.nxmnxd bus (ks10_t.readMem bus addr s).2).1 with
      | true =>
        have hf1 : bus.nxm (s.trace ++ [BusEvent.readMem addr]) = true := hf
        have h := step_ok s (BusEvent.readMem addr) true
          (BusMsg.failed "  Failed. (NXM)") rfl rfl hc hr
        simp only [if_true]
        simpa [ks10_t.nxmnxd, ks10_t.readMem, BusState.print, hf1] using h.1
      | false =>
        have hf1 : bus.nxm (s.trace ++ [BusEvent.readMem addr]) = false := hf
        have h := step_ok s (BusEvent.readMem addr) false
          (BusMsg.dasm (addr &&& maxMemAddr) (bus.mem addr)) rfl rfl hc hr
        simp only [Bool.false_eq_true, if_false]
        simpa [ks10_t.nxmnxd, ks10_t.readMem, BusState.print, hf1] using h.1
    · cases hf : (ks10_t.nxmnxd bus (ks10_t.readMem bus addr s).2).1 with
      | true =>
        have hf1 : bus.nxm (s.trace ++ [BusEvent.readMem addr]) = true := hf
        have h := step_ok s (BusEvent.readMem addr) true
          (BusMsg.failed "  Failed. (NXM)") rfl rfl hc hr
        simp only [if_true]
        simpa [ks10_t.nxmnxd, ks10_t.readMem, BusState.print, hf1] using h.2
      | false =>
        have hf1 : bus.nxm (s.trace ++ [BusEvent.readMem addr]) = false := hf
        have h := step_ok s (BusEvent.readMem addr) false
          (BusMsg.dasm (addr &&& maxMemAddr) (bus.mem addr)) rfl rfl hc hr
        simp only [Bool.false_eq_true, if_false]
        simpa [ks10_t.nxmnxd, ks10_t.readMem, BusState.print, hf1] using h.2

theorem cmdRD_mem_ok (bus : Bus) (argv : List (List Char)) (s : BusState)
    (hc : checked s.trace = true) (hr : reported s) :
    checked (cmdRD_mem bus argv s).trace = true ∧ reported (cmdRD_mem bus argv s) := by
  unfold cmdRD_mem
  obtain ⟨h1, h2⟩ := parseNumber_ok (argv.getD 2 []) s hc hr
  obtain ⟨h3, h4⟩ := parseNumber_ok (argv.getD 3 []) _ h1 h2
  split_ifs
  · exact readMemChecked_ok bus _ _ h1 h2
  · exact cmdRD_memLoop_ok bus _ _ _ h3 h4
  · exact print_ok s _ rfl hc hr

theorem cmdRD_io_ok (bus : Bus) (argv : List (List Char)) (s : BusState)
    (hc : checked s.trace = true) (hr : reported s) :
    checked (cmdRD_io bus argv s).trace = true ∧ reported (cmdRD_io bus argv s) := by
  unfold cmdRD_io
  obtain ⟨h1, h2⟩ := parseNumber_ok (argv.getD 2 []) s hc hr
  by_cases h3 : argv.length = 3
  · rw [if_pos h3]
    generalize (parseNumber (argv.getD 2 []) s).1 = addr at *
    generalize (parseNumber (argv.getD 2 []) s).2 = s1 at *
    cases hf : (ks10_t.nxmnxd bus (ks10_t.readIO bus addr s1).2).1 with
    | true =>
      have hf1 : bus.nxm (s1.trace ++ [BusEvent.readIO addr]) = true := hf
      have h := step_ok s1 (BusEvent.readIO addr) true
        (BusMsg.failed "rd mem: IO access failed with NXM") rfl rfl h1 h2
      simp only [if_true]
      simpa [ks10_t.nxmnxd, ks10_t.readIO, BusState.print, hf1] using h
    | false =>
      have hf1 : bus.nxm (s1.trace ++ [BusEvent.readIO addr]) = false := hf
      have h := step_ok s1 (BusEvent.readIO addr) false
        (BusMsg.word addr (bus.io addr)) rfl rfl h1 h2
      simp only [Bool.false_eq_true, if_false]
      simpa [ks10_t.nxmnxd, ks10_t.readIO, BusState.print, hf1] using h
  · rw [if_neg h3]
    exact print_ok s _ rfl hc hr

/-- The end of a branch of `cmdWR` after a write `a` made in the state
`s`. -/
theorem wrReport_ok (bus : Bus) (argc : Nat) (written failed ignored : String)
    (s : BusState) (a : BusEvent) (ha : a.isAccess = true)
    (hc : checked s.trace = true) (hr : reported s) :
    checked (wrReport bus argc written failed ignored
        { s with trace := s.trace ++ [a] }).trace = true
    ∧ reported (wrReport bus argc written failed ignored
        { s with trace := s.trace ++ [a] }) := by
  unfold wrReport
  simp only []
  have key : checked (if (ks10_t.nxmnxd bus
        (BusState.print { s with trace := s.trace ++ [a] } (BusMsg.text written))).1 = true then
        (ks10_t.nxmnxd bus (BusState.print { s with trace := s.trace ++ [a] }
          (BusMsg.text written))).2.print (BusMsg.failed failed)
      else (ks10_t.nxmnxd bus (BusState.print { s with trace := s.trace ++ [a] }
          (BusMsg.text written))).2).trace = true
      ∧ reported (if (ks10_t.nxmnxd bus
        (BusState.print { s with trace := s.trace ++ [a] } (BusMsg.text written))).1 = true then
        (ks10_t.nxmnxd bus (BusState.print { s with trace := s.trace ++ [a] }
          (BusMsg.text written))).2.print (BusMsg.failed failed)
      else (ks10_t.nxmnxd bus (BusState.print { s with trace := s.trace ++ [a] }
          (BusMsg.text written))).2) := by
    obtain ⟨p1, p2⟩ := print_ok s (BusMsg.text written) rfl hc hr
    cases hf : (ks10_t.nxmnxd bus
        (BusState.print { s with trace := s.trace ++ [a] } (BusMsg.text written))).1 with
    | true =>
      have hf1 : bus.nxm (s.trace ++ [a]) = true := hf
      have h := step_ok (s.print (BusMsg.text written)) a true (BusMsg.failed failed) ha rfl
        p1 p2
      simp only [if_true]
      simpa [ks10_t.nxmnxd, BusState.print, hf1] using h
    | false =>
      have hf1 : bus.nxm (s.trace ++ [a]) = false := hf
      have h := step_ok s a false (BusMsg.text written) ha rfl hc hr
      simp only [Bool.false_eq_true, if_false]
      simpa [ks10_t.nxmnxd, BusState.print, hf1] using h
  by_cases h4 : argc > 4
  · rw [if_pos h4]
    exact print_ok _ _ rfl key.1 key.2
  · rw [if_neg h4]
    exact key

theorem cmdWR_ok (bus : Bus) (argv : List (List Char)) (s : BusState)
    (hc : checked s.trace = true) (hr : reported s) :
    checked (cmdWR bus argv s).trace = true ∧ reported (cmdWR bus argv s) := by
  unfold cmdWR
  obtain ⟨h1, h2⟩ := parseNumber_ok (argv.getD 2 []) s hc hr
  obtain ⟨h3, h4⟩ := parseNumber_ok (argv.getD 3 []) _ h1 h2
  split_ifs
  · exact print_ok s _ rfl hc hr
  · exact print_ok s _ rfl hc hr
  · exact wrReport_ok bus _ _ _ _ _ (BusEvent.writeIO _ _) rfl h3 h4
  · exact print_ok s _ rfl hc hr
  · exact wrReport_ok bus _ _ _ _ _ (BusEvent.writeMem _ _) rfl h3 h4
  · exact print_ok s _ rfl hc hr

theorem loadBus_unchecked (t : LoadState) (h : t.mem ≠ []) : checked (loadBus t) = false := by
  unfold loadBus checked
  cases hm : t.mem with
  | nil => exact absurd hm h
  | cons p ps =>
    cases ps with
    | nil => rfl
    | cons q qs => rfl

/-- C25 (as the code has it): in the memory and I/O reads of `rd`, in the
memory and I/O writes of `wr` and in the memory disassembly every bus access
is followed by a query of the NXM flag before the next access, and every
query that finds the flag set is reported by a message of failure (there are
as many such messages as queries that returned `true`).  The loader is
different: the bus calls of `loadCode` are writes only, with no query of the
flag, so that a load that writes at least one word has accesses that no
query follows. -/
theorem bus_access_checked (bus : Bus) (s : BusState)
    (hc : checked s.trace = true) (hr : reported s) :
    (∀ argv, checked (cmdRD_mem bus argv s).trace = true ∧ reported (cmdRD_mem bus argv s))
    ∧ (∀ argv, checked (cmdRD_io bus argv s).trace = true ∧ reported (cmdRD_io bus argv s))
    ∧ (∀ argv, checked (cmdWR bus argv s).trace = true ∧ reported (cmdWR bus argv s))
    ∧ (∀ maxMemAddr addr len, checked (dasmMEM bus maxMemAddr addr len s).trace = true
        ∧ reported (dasmMEM bus maxMemAddr addr len s))
    ∧ (∀ t : LoadState, (∀ e ∈ loadBus t, e.isAccess = true)
        ∧ (t.mem ≠ [] → checked (loadBus t) = false)) := by
  refine ⟨fun argv => cmdRD_mem_ok bus argv s hc hr, fun argv => cmdRD_io_ok bus argv s hc hr,
    fun argv => cmdWR_ok bus argv s hc hr, ?_, ?_⟩
  · intro maxMemAddr addr len
    obtain ⟨p1, p2⟩ := print_ok s (BusMsg.text "KS10: Memory disassembly:") rfl hc hr
    exact dasmLoop_ok bus maxMemAddr _ addr _ p1 p2
  · intro t
    refine ⟨?_, loadBus_unchecked t⟩
    intro e he
    unfold loadBus at he
    obtain ⟨p, _, rfl⟩ := List.mem_map.1 he
    rfl

/-- C25 on `rd mem 01000 2` with a target where the second address does not
respond: both reads are followed by the query and the second is reported as
failed. -/
theorem bus_access_checked_witness :
    cmdRD_mem sampleBus ["rd".toList, "mem".toList, "01000".toList, "2".toList]
        { trace := [], out := [] }
      = { trace := [BusEvent.readMem 0o1000, BusEvent.nxmnxd false,
                    BusEvent.readMem 0o1001, BusEvent.nxmnxd true]
          out := [BusMsg.word 0o1000 0o1000,
                  BusMsg.failed "rd mem: memory access failed with NXM"] }
    ∧ checked (cmdRD_mem sampleBus ["rd".toList, "mem".toList, "01000".toList, "2".toList]
        { trace := [], out := [] }).trace = true :=
  ⟨by decide,
   ((bus_access_checked sampleBus { trace := [], out := [] } rfl rfl).1
      ["rd".toList, "mem".toList, "01000".toList, "2".toList]).1⟩

/-- C25 as stated fails for the loader: on an image of one record with one
data word and a start address, `loadCode` writes the word over the bus,
never queries the flag, and returns `true` with the start address as its
only message. -/
theorem bus_access_checked_counterexample :
    ∃ r, loadCode 0o254000 (fun _ => [0, 0, 0, 0, 0]) 3
          (some [0x7f, 0x7f, 0x78, 0x01, 0xff, 0x14, 0x72, 0x77, 0x02, 0x4e,
                 0x2b, 0x00, 0x00, 0x02, 0x00]) = some r
      ∧ r.1 = true
      ∧ r.2.out = [LoadMsg.startingAddress 0o254000 0o001000]
      ∧ loadBus r.2 = [BusEvent.writeMem 0o1000 0o123456701234]
      ∧ checked (loadBus r.2) = false := by
  refine ⟨_, rfl, ?_, ?_, ?_, ?_⟩ <;> decide

/-! ## Formatted output of the console firmware -/

theorem lower_digit_value : ∀ d, d < 36 → digitValue (cchar lower_digits d) = d := by
  decide

theorem valueOf_append (radix : Nat) (s : List Char) (c : Char) :
    valueOf radix (s ++ [c]) = radix * valueOf radix s + digitValue c := by
  unfold valueOf
  rw [List.foldl_append]
  rfl

/-- The recursion of `__utoa` writes a number other than zero without
leading zeros. -/
theorem utoaDigits_pos (radix : Nat) (h2 : 2 ≤ radix) (h36 : radix ≤ 36) (fuel : Nat) :
    ∀ v, 0 < v → v < radix ^ fuel →
      utoaDigits fuel v radix lower_digits ≠ []
      ∧ (∀ c ∈ utoaDigits fuel v radix lower_digits, digitValue c < radix)
      ∧ valueOf radix (utoaDigits fuel v radix lower_digits) = v
      ∧ (utoaDigits fuel v radix lower_digits).head? ≠ some '0' := by
  induction fuel with
  | zero =>
    intro v hv hlt
    simp at hlt
    omega
  | succ f ih =>
    intro v hv hlt
    have hmod : v % radix < radix := Nat.mod_lt _ (by omega)
    have hd := lower_digit_value (v % radix) (by omega)
    unfold utoaDigits
    by_cases hq : v / radix = 0
    · have hvr : v < radix := (Nat.div_eq_zero_iff (by omega)).1 hq
      have hm : v % radix = v := Nat.mod_eq_of_lt hvr
      rw [if_neg (by simpa using hq), List.nil_append]
      refine ⟨by simp, ?_, ?_, ?_⟩
      · intro c hc
        rw [List.mem_singleton] at hc
        rw [hc, hd]
        exact hmod
      · show radix * 0 + digitValue _ = v
        rw [hd, hm]
        omega
      · intro hh
        simp only [List.head?_cons, Option.some.injEq] at hh
        rw [hh] at hd
        have : digitValue '0' = 0 := by decide
        omega
    · have hq1 : 0 < v / radix := Nat.pos_of_ne_zero hq
      have hq2 : v / radix < radix ^ f := by
        rw [Nat.div_lt_iff_lt_mul (by omega)]
        rw [pow_succ] at hlt
        exact hlt
      obtain ⟨i1, i2, i3, i4⟩ := ih (v / radix) hq1 hq2
      rw [if_pos hq]
      refine ⟨by simp, ?_, ?_, ?_⟩
      · intro c hc
        rcases List.mem_append.1 hc with h | h
        · exact i2 c h
        · rw [List.mem_singleton] at h
          rw [h, hd]
          exact hmod
      · rw [valueOf_append, i3, hd]
        exact Nat.div_add_mod v radix
      · rw [List.head?_append_of_ne_nil _ i1]
        exact i4

/-- The recursion of `__utoa` writes the numeral of its argument. -/
theorem utoaDigits_numeral (radix : Nat) (h2 : 2 ≤ radix) (h36 : radix ≤ 36) (fuel v : Nat)
    (hf : 0 < fuel) (hv : v < radix ^ fuel) :
    isNumeral radix v (utoaDigits fuel v radix lower_digits) := by
  by_cases h0 : v = 0
  · subst h0
    obtain ⟨f, rfl⟩ : ∃ f, fuel = f + 1 := ⟨fuel - 1, by omega⟩
    have e : utoaDigits (f + 1) 0 radix lower_digits = ['0'] := by
      unfold utoaDigits
      simp only [Nat.zero_div, ne_eq, not_true_eq_false, if_false, List.nil_append,
        Nat.zero_mod]
      rfl
    rw [e]
    refine ⟨by simp, ?_, ?_, fun _ => rfl⟩
    · intro c hc
      rw [List.mem_singleton] at hc
      rw [hc]
      have : digitValue '0' = 0 := by decide
      omega
    · rfl
  · obtain ⟨i1, i2, i3, i4⟩ := utoaDigits_pos radix h2 h36 fuel v (Nat.pos_of_ne_zero h0) hv
    exact ⟨i1, i2, i3, fun h => absurd h i4⟩

theorem ulltoaDigits_octal (digits : List Char) (fuel : Nat) :
    ∀ v, ulltoaDigits fuel v 3 7 digits = utoaDigits fuel v 8 digits := by
  induction fuel with
  | zero => intro v; rfl
  | succ f ih =>
    intro v
    have e1 : v >>> 3 = v / 8 := by rw [Nat.shiftRight_eq_div_pow]
    have e2 : v &&& 7 = v % 8 := Nat.and_pow_two_sub_one_eq_mod v 3
    simp only [ulltoaDigits, utoaDigits, e1, e2, ih]

theorem ulltoaDigits_hex (digits : List Char) (fuel : Nat) :
    ∀ v, ulltoaDigits fuel v 4 15 digits = utoaDigits fuel v 16 digits := by
  induction fuel with
  | zero => intro v; rfl
  | succ f ih =>
    intro v
    have e1 : v >>> 4 = v / 16 := by rw [Nat.shiftRight_eq_div_pow]
    have e2 : v &&& 15 = v % 16 := Nat.and_pow_two_sub_one_eq_mod v 4
    simp only [ulltoaDigits, utoaDigits, e1, e2, ih]

theorem putchar_plain (ch : Char) (out : List Char) (h : ch ≠ '\n') :
    putchar ch out = out ++ [ch] := by
  unfold putchar
  rw [if_neg h]

theorem puts_plain (s : List Char) : ∀ out : List Char, (∀ c ∈ s, c ≠ '\n') →
    puts s out = out ++ s := by
  induction s with
  | nil => intro out _; simp [puts]
  | cons c cs ih =>
    intro out h
    show puts cs (putchar c out) = _
    rw [putchar_plain c out (h c (List.mem_cons_self _ _)),
      ih _ (fun d hd => h d (List.mem_cons_of_mem _ hd))]
    simp

theorem numeral_plain (radix v : Nat) (s : List Char) (h36 : radix ≤ 36)
    (h : isNumeral radix v s) : ∀ c ∈ s, c ≠ '\n' := by
  intro c hc hn
  have := h.2.1 c hc
  rw [hn] at this
  have e : digitValue '\n' = 36 := by decide
  omega

theorem two_pow_half (b : Nat) (hb : 0 < b) : (2 : Int) ^ b = 2 * 2 ^ (b - 1) := by
  obtain ⟨c, rfl⟩ : ∃ c, b = c + 1 := ⟨b - 1, by omega⟩
  rw [pow_succ]
  simp
  ring

theorem toSigned_range (b : Nat) (hb : 0 < b) (v : Int) (h1 : -2 ^ (b - 1) ≤ v)
    (h2 : v < 2 ^ (b - 1)) : toSigned b v = v := by
  unfold toSigned
  have e := two_pow_half b hb
  rw [Int.emod_eq_of_lt (by omega) (by omega)]
  omega

theorem toUnsigned_toSigned (b : Nat) (x : Int) :
    toUnsigned b (toSigned b x) = toUnsigned b x := by
  unfold toUnsigned toSigned
  have h : ((x + 2 ^ (b - 1)) % 2 ^ b - 2 ^ (b - 1)) % 2 ^ b = x % 2 ^ b := by
    have := (Int.mod_modEq (x + 2 ^ (b - 1)) (2 ^ b)).sub_right (2 ^ (b - 1))
    rw [add_sub_cancel_right] at this
    exact this
  rw [h]

theorem toUnsigned_neg (b : Nat) (hb : 0 < b) (v : Int) (h1 : -2 ^ (b - 1) ≤ v)
    (h2 : v < 0) : toUnsigned b (toSigned b (-v)) = v.natAbs := by
  rw [toUnsigned_toSigned]
  unfold toUnsigned
  have e := two_pow_half b hb
  have hp : (0 : Int) < 2 ^ (b - 1) := by positivity
  rw [Int.emod_eq_of_lt (by omega) (by omega)]
  omega

theorem toUnsigned_nonneg (b : Nat) (v : Int) (h1 : 0 ≤ v) (h2 : v < 2 ^ b) :
    toUnsigned b v = v.natAbs := by
  unfold toUnsigned
  rw [Int.emod_eq_of_lt h1 h2]
  omega

/-- The string `__utoa` and `__ultoa` write for a number of `b` bits. -/
theorem utoa_numeral (radix : Nat) (h2 : 2 ≤ radix) (h36 : radix ≤ 36) (b n : Nat)
    (hb : 0 < b) (hn : n < 2 ^ b) :
    isNumeral radix n (utoaDigits b (n % 2 ^ b) radix lower_digits) := by
  rw [Nat.mod_eq_of_lt hn]
  exact utoaDigits_numeral radix h2 h36 b n hb
    (lt_of_lt_of_le hn (Nat.pow_le_pow_left h2 b))

theorem padout_zero (padchar : Char) (s : List Char) (h : ∀ c ∈ s, c ≠ '\n') :
    padout 0 padchar s [] = s := by
  unfold padout
  simp only [Nat.zero_sub, ite_self, List.replicate_zero, List.foldl_nil]
  rw [puts_plain s [] h]
  rfl

theorem padout_zeros (w : Nat) (s : List Char) (hw : w < 2 ^ 31) (h : ∀ c ∈ s, c ≠ '\n') :
    padout w '0' s [] = List.replicate (w - s.length) '0' ++ s := by
  unfold padout
  rw [if_pos hw]
  have hz : ∀ (n : Nat) (out : List Char),
      (List.replicate n '0').foldl (fun o ch => putchar ch o) out
        = out ++ List.replicate n '0' := by
    intro n
    induction n with
    | zero => intro out; simp
    | succ n ih =>
      intro out
      rw [List.replicate_succ, List.foldl_cons, putchar_plain '0' out (by decide), ih]
      simp
  rw [hz, puts_plain _ _ h]
  rfl

/-- The string `ltoa` writes in the radix 10 for a number in the range of a
`long` of `b` bits. -/
theorem ltoa_decimal (b : Nat) (hb : 0 < b) (v : Int) (h1 : -2 ^ (b - 1) ≤ v)
    (h2 : v < 2 ^ (b - 1)) :
    ∃ s, isNumeral 10 v.natAbs s
      ∧ ltoa b (toSigned b v) 10 = if v < 0 then '-' :: s else s := by
  have e := two_pow_half b hb
  have hp : (0 : Int) < 2 ^ (b - 1) := by positivity
  have hc : ((2 ^ b : Nat) : Int) = 2 ^ b := by push_cast; rfl
  have hn : v.natAbs < 2 ^ b := by omega
  refine ⟨utoaDigits b (v.natAbs % 2 ^ b) 10 lower_digits,
    utoa_numeral 10 (by decide) (by decide) b _ hb hn, ?_⟩
  rw [toSigned_range b hb v h1 h2]
  unfold ltoa __ultoa
  rw [if_neg (by decide)]
  by_cases hv : v < 0
  · rw [if_pos ⟨rfl, hv⟩, if_pos hv, toUnsigned_neg b hb v h1 hv]
    rfl
  · rw [if_neg (fun h => hv h.2), if_neg hv, toUnsigned_nonneg b v (by omega) (by omega)]
    rfl

/-- The string `__ultoa`, and `__utoa` for 32 bits, write for an unsigned
argument of `b` bits. -/
theorem ultoa_numeral (radix : Nat) (h2 : 2 ≤ radix) (h36 : radix ≤ 36) (b v : Nat)
    (hb : 0 < b) (hv : v < 2 ^ b) :
    isNumeral radix v (__ultoa b (toUnsigned b (v : Int)) radix lower_digits) := by
  have hc : ((2 ^ b : Nat) : Int) = 2 ^ b := by push_cast; rfl
  have e : toUnsigned b (v : Int) = v := by
    rw [toUnsigned_nonneg b v (by omega) (by omega)]
    simp
  rw [e]
  exact utoa_numeral radix h2 h36 b v hb hv

theorem ulltoa_numeral (v : Nat) (hv : v < 2 ^ 64) :
    isNumeral 8 v (__ulltoa (toUnsigned 64 (v : Int)) 8 lower_digits)
    ∧ isNumeral 16 v (__ulltoa (toUnsigned 64 (v : Int)) 16 lower_digits) := by
  have e : toUnsigned 64 (v : Int) = v := by
    rw [toUnsigned_nonneg 64 v (by omega) (by omega)]
    simp
  rw [e]
  unfold __ulltoa
  constructor
  · rw [if_neg (by decide), if_pos rfl, ulltoaDigits_octal]
    exact utoa_numeral 8 (by decide) (by decide) 64 v (by decide) hv
  · rw [if_pos rfl, ulltoaDigits_hex]
    exact utoa_numeral 16 (by decide) (by decide) 64 v (by decide) hv

theorem lltoa_decimal (v : Int) :
    lltoa v 10 = if v < 0 then "-Not implemented".toList else "Not implemented".toList := by
  unfold lltoa __ulltoa
  rw [if_neg (by decide)]
  by_cases hv : v < 0
  · rw [if_pos ⟨rfl, hv⟩, if_pos hv]
    rfl
  · rw [if_neg (fun h => hv h.2), if_neg hv]
    rfl

theorem utoa_eq_ultoa (value radix : Nat) (digits : List Char) :
    __utoa value radix digits = __ultoa 32 value radix digits := rfl

theorem itoa_eq_ltoa (value radix : Int) : itoa value radix = ltoa 32 value radix := by
  unfold itoa ltoa
  simp only [utoa_eq_ultoa]

/-- The run of `printf` on a format that is one numeric conversion: the
string of the conversion, padded, is printed. -/
theorem printf_conv (lbits : Nat) (fmt : List Char) (c : Conversion) (a : Arg)
    (hp : parseConversion fmt = c)
    (hch : c.ch = 'u' ∨ c.ch = 'o' ∨ c.ch = 'd' ∨ c.ch = 'x' ∨ c.ch = 'X')
    (hrest : c.fmt = []) :
    printf lbits ('%' :: fmt) [a]
      = some (padout c.width c.padchar (convert lbits c.ch c.size a.value) []) := by
  have hne : c.ch ≠ NUL := by
    rcases hch with h | h | h | h | h <;> rw [h] <;> decide
  have h1 : cchar ('%' :: fmt) 0 = '%' := rfl
  have h2 : ¬ (('%' : Char) = NUL) := by decide
  unfold printf
  rw [List.length_cons, printfLoop]
  simp only [h1, h2, if_false, ne_eq, not_true_eq_false, List.drop_succ_cons, List.drop_zero,
    hp, hne, hch, if_true, hrest, List.headD_cons]
  rw [printfLoop]
  have h3 : cchar [] 0 = NUL := rfl
  simp only [h3, if_true]

theorem convert_d (lbits : Nat) (v : Int) :
    convert lbits 'd' 0 v = ltoa 32 (toSigned 32 v) 10
    ∧ convert lbits 'd' 1 v = ltoa lbits (toSigned lbits v) 10
    ∧ convert lbits 'd' 2 v = lltoa (toSigned 64 v) 10 := by
  refine ⟨?_, ?_, ?_⟩ <;> simp [convert, itoa_eq_ltoa]

theorem convert_o (lbits : Nat) (v : Int) :
    convert lbits 'o' 0 v = __ultoa 32 (toUnsigned 32 v) 8 lower_digits
    ∧ convert lbits 'o' 1 v = __ultoa lbits (toUnsigned lbits v) 8 lower_digits
    ∧ convert lbits 'o' 2 v = __ulltoa (toUnsigned 64 v) 8 lower_digits := by
  refine ⟨?_, ?_, ?_⟩ <;> simp [convert, utoa_eq_ultoa]

theorem convert_x (lbits : Nat) (v : Int) :
    convert lbits 'x' 0 v = __ultoa 32 (toUnsigned 32 v) 16 lower_digits
    ∧ convert lbits 'x' 1 v = __ultoa lbits (toUnsigned lbits v) 16 lower_digits
    ∧ convert lbits 'x' 2 v = __ulltoa (toUnsigned 64 v) 16 lower_digits := by
  refine ⟨?_, ?_, ?_⟩ <;> simp [convert, utoa_eq_ultoa]

/-- C26 (as the code has it): for a value in the range of the type, `printf`
prints `%d` and `%ld` as the decimal numeral of the value (after a `-` for a
negative one), `%o`, `%lo` and `%llo` as its octal numeral and `%x`, `%lx`
and `%llx` as its hexadecimal numeral, each without leading zeros; a
zero-padded width puts zeros in front up to the width, as in `%012llo` of
`0123456`.  The conversion `%lld` does not print the number: it prints the
text `Not implemented` (after a `-` for a negative value).  `lbits` is the
number of bits of a `long`. -/
theorem printf_radix (lbits : Nat) (hl : 0 < lbits) :
    (∀ v : Int, -2 ^ 31 ≤ v → v < 2 ^ 31 →
      ∃ s, isNumeral 10 v.natAbs s
        ∧ printf lbits "%d".toList [Arg.num v] = some (if v < 0 then '-' :: s else s))
    ∧ (∀ v : Int, -2 ^ (lbits - 1) ≤ v → v < 2 ^ (lbits - 1) →
      ∃ s, isNumeral 10 v.natAbs s
        ∧ printf lbits "%ld".toList [Arg.num v] = some (if v < 0 then '-' :: s else s))
    ∧ (∀ v : Nat, v < 2 ^ 32 →
      (∃ s, isNumeral 8 v s ∧ printf lbits "%o".toList [Arg.num v] = some s)
      ∧ (∃ s, isNumeral 16 v s ∧ printf lbits "%x".toList [Arg.num v] = some s))
    ∧ (∀ v : Nat, v < 2 ^ lbits →
      (∃ s, isNumeral 8 v s ∧ printf lbits "%lo".toList [Arg.num v] = some s)
      ∧ (∃ s, isNumeral 16 v s ∧ printf lbits "%lx".toList [Arg.num v] = some s))
    ∧ (∀ v : Nat, v < 2 ^ 64 →
      (∃ s, isNumeral 8 v s ∧ printf lbits "%llo".toList [Arg.num v] = some s)
      ∧ (∃ s, isNumeral 16 v s ∧ printf lbits "%llx".toList [Arg.num v] = some s))
    ∧ (∀ v : Int, -2 ^ 63 ≤ v → v < 2 ^ 63 →
        printf lbits "%lld".toList [Arg.num v]
          = some (if v < 0 then "-Not implemented".toList else "Not implemented".toList))
    ∧ (∀ (w : Nat) (s : List Char), w < 2 ^ 31 → (∀ c ∈ s, c ≠ '\n') →
        padout w '0' s [] = List.replicate (w - s.length) '0' ++ s)
    ∧ printf lbits "%012llo".toList [Arg.num 0o123456] = some "000000123456".toList := by
  have plain_neg : ∀ s : List Char, (∀ c ∈ s, c ≠ '\n') → ∀ c ∈ '-' :: s, c ≠ '\n' := by
    intro s h c hc
    rcases List.mem_cons.1 hc with h1 | h1
    · rw [h1]; decide
    · exact h c h1
  have ev : ∀ (fmt : List Char) (c : Conversion) (v : Int), parseConversion fmt = c →
      (c.ch = 'u' ∨ c.ch = 'o' ∨ c.ch = 'd' ∨ c.ch = 'x' ∨ c.ch = 'X') → c.fmt = [] →
      printf lbits ('%' :: fmt) [Arg.num v]
        = some (padout c.width c.padchar (convert lbits c.ch c.size v) []) :=
    fun fmt c v hp hch hrest => printf_conv lbits fmt c (Arg.num v) hp hch hrest
  refine ⟨?_, ?_, ?_, ?_, ?_, ?_, ?_, ?_⟩
  · intro v h1 h2
    obtain ⟨s, hs, e⟩ := ltoa_decimal 32 (by decide) v h1 h2
    refine ⟨s, hs, ?_⟩
    have hp := numeral_plain 10 _ s (by decide) hs
    have e1 := ev "d".toList ⟨' ', 0, 0, 'd', []⟩ v (by decide) (by decide) rfl
    simp only [(convert_d lbits v).1] at e1
    refine e1.trans ?_
    rw [e, padout_zero]
    split_ifs
    · exact plain_neg s hp
    · exact hp
  · intro v h1 h2
    obtain ⟨s, hs, e⟩ := ltoa_decimal lbits hl v h1 h2
    refine ⟨s, hs, ?_⟩
    have hp := numeral_plain 10 _ s (by decide) hs
    have e1 := ev "ld".toList ⟨' ', 0, 1, 'd', []⟩ v (by decide) (by decide) rfl
    simp only [(convert_d lbits v).2.1] at e1
    refine e1.trans ?_
    rw [e, padout_zero]
    split_ifs
    · exact plain_neg s hp
    · exact hp
  · intro v hv
    have h8 := ultoa_numeral 8 (by decide) (by decide) 32 v (by decide) hv
    have h16 := ultoa_numeral 16 (by decide) (by decide) 32 v (by decide) hv
    refine ⟨⟨_, h8, ?_⟩, ⟨_, h16, ?_⟩⟩
    · have e1 := ev "o".toList ⟨' ', 0, 0, 'o', []⟩ v (by decide) (by decide) rfl
      simp only [(convert_o lbits v).1] at e1
      refine e1.trans ?_
      rw [padout_zero _ _ (numeral_plain 8 _ _ (by decide) h8)]
    · have e1 := ev "x".toList ⟨' ', 0, 0, 'x', []⟩ v (by decide) (by decide) rfl
      simp only [(convert_x lbits v).1] at e1
      refine e1.trans ?_
      rw [padout_zero _ _ (numeral_plain 16 _ _ (by decide) h16)]
  · intro v hv
    have h8 := ultoa_numeral 8 (by decide) (by decide) lbits v hl hv
    have h16 := ultoa_numeral 16 (by decide) (by decide) lbits v hl hv
    refine ⟨⟨_, h8, ?_⟩, ⟨_, h16, ?_⟩⟩
    · have e1 := ev "lo".toList ⟨' ', 0, 1, 'o', []⟩ v (by decide) (by decide) rfl
      simp only [(convert_o lbits v).2.1] at e1
      refine e1.trans ?_
      rw [padout_zero _ _ (numeral_plain 8 _ _ (by decide) h8)]
    · have e1 := ev "lx".toList ⟨' ', 0, 1, 'x', []⟩ v (by decide) (by decide) rfl
      simp only [(convert_x lbits v).2.1] at e1
      refine e1.trans ?_
      rw [padout_zero _ _ (numeral_plain 16 _ _ (by decide) h16)]
  · intro v hv
    obtain ⟨h8, h16⟩ := ulltoa_numeral v hv
    refine ⟨⟨_, h8, ?_⟩, ⟨_, h16, ?_⟩⟩
    · have e1 := ev "llo".toList ⟨' ', 0, 2, 'o', []⟩ v (by decide) (by decide) rfl
      simp only [(convert_o lbits v).2.2] at e1
      refine e1.trans ?_
      rw [padout_zero _ _ (numeral_plain 8 _ _ (by decide) h8)]
    · have e1 := ev "llx".toList ⟨' ', 0, 2, 'x', []⟩ v (by decide) (by decide) rfl
      simp only [(convert_x lbits v).2.2] at e1
      refine e1.trans ?_
      rw [padout_zero _ _ (numeral_plain 16 _ _ (by decide) h16)]
  · intro v h1 h2
    have e1 := ev "lld".toList ⟨' ', 0, 2, 'd', []⟩ v (by decide) (by decide) rfl
    simp only [(convert_d lbits v).2.2] at e1
    refine e1.trans ?_
    rw [toSigned_range 64 (by decide) v h1 h2, lltoa_decimal, padout_zero]
    split_ifs <;> decide
  · intro w s hw h
    exact padout_zeros w s hw h
  · have e1 := ev "012llo".toList ⟨'0', 12, 2, 'o', []⟩ 0o123456 (by decide) (by decide) rfl
    simp only [(convert_o lbits _).2.2] at e1
    refine e1.trans ?_
    decide

/-- C26 on the line of the self-test with `%x`: `0x123456` is printed as
`123456`. -/
theorem printf_radix_witness :
    (∃ s, isNumeral 16 0x123456 s ∧ printf 32 "%x".toList [Arg.num 0x123456] = some s)
    ∧ printf 32 "%x".toList [Arg.num 0x123456] = some "123456".toList :=
  ⟨((printf_radix 32 (by decide)).2.2.1 0x123456 (by norm_num)).2, by decide⟩

/-- C26 as stated fails for `%lld`: the line of the self-test with
`345699234` prints `Not implemented`, which is no decimal numeral. -/
theorem printf_radix_counterexample :
    printf 32 "%lld".toList [Arg.num 345699234] = some "Not implemented".toList
    ∧ printf 32 "This is a test (long long decimal) %lld\n".toList [Arg.num 345699234]
        = some "This is a test (long long decimal) Not implemented\r\n".toList
    ∧ ¬ isNumeral 10 345699234 "Not implemented".toList := by
  refine ⟨by decide, by decide, ?_⟩
  intro h
  have := h.2.1 'N' (by decide)
  revert this
  decide

/-! ## Termination of the loader -/

theorem recordWrites_length (ds : List Nat) (a : Nat) :
    (recordWrites a ds).length = ds.length := by
  rw [recordWrites_eq]
  simp

/-- The count field of a header that announces a record, as the negated
number of data words. -/
theorem count_field (w : Nat) (hw : w < 262144) (hb : w &&& 0o400000 ≠ 0) :
    262144 - w ≤ 131072 ∧ (262144 - (262144 - w)) % 262144 = w := by
  have h1 : ¬ (w / 131072 % 2 = 0) := fun h => hb ((and_bit17 w).2 h)
  constructor
  · omega
  · omega

/-- The inner loop of `loadCode` on a count field `w` with the continuation
bit set: it ends after `01000000 - w` turns. -/
theorem readRecord_count (junk : Nat → List Nat) (w a fuel : Nat) (s : LoadState)
    (hw : w < 262144) (hb : w &&& 0o400000 ≠ 0) (hf : 262144 - w ≤ fuel) :
    readRecord junk fuel w a s
      = some { (getWords junk (262144 - w) s).2 with
               mem := s.mem ++ recordWrites a (getWords junk (262144 - w) s).1 } := by
  obtain ⟨h1, h2⟩ := count_field w hw hb
  have h := readRecord_run junk (262144 - w) h1 a s fuel hf
  rw [h2] at h
  exact h

theorem rdword_append (l x : List Nat) (h : l.length = 5) : rdword (l ++ x) = rdword l := by
  have g : ∀ i, i < 5 → (l ++ x).getD i 0 = l.getD i 0 := by
    intro i hi
    simp only [List.getD_eq_getElem?_getD, List.getElem?_append_left (by omega : i < l.length)]
  unfold rdword
  rw [g 0 (by omega), g 1 (by omega), g 2 (by omega), g 3 (by omega), g 4 (by omega)]

/-- A call of `getdata` where five bytes at least are left: the word is built
from the five bytes read, whatever the buffer held, and nothing is printed. -/
theorem getdata_full (junk : Nat → List Nat) (s : LoadState) (h : 5 ≤ s.stream.length) :
    getdata junk s
      = (rdword (s.stream.take 5),
         { s with stream := s.stream.drop 5, calls := s.calls + 1 }) := by
  have hl : (s.stream.take 5).length = 5 := by
    rw [List.length_take]
    omega
  unfold getdata fread
  simp only [hl, ne_eq, not_true_eq_false, if_false]
  rw [rdword_append _ _ hl]

/-- The data words of a record that the stream holds in full: they do not
depend on what the buffer held and no read is short. -/
theorem getWords_full (junk : Nat → List Nat) (n : Nat) :
    ∀ s : LoadState, 5 * n ≤ s.stream.length →
      getWords junk n s = getWords (fun _ => []) n s
      ∧ (getWords junk n s).2.out = s.out := by
  induction n with
  | zero => intro s _; exact ⟨rfl, rfl⟩
  | succ n ih =>
    intro s h
    have h5 : 5 ≤ s.stream.length := by omega
    have e1 := getdata_full junk s h5
    have e2 := getdata_full (fun _ => []) s h5
    have hlen : 5 * n ≤ ({ s with stream := s.stream.drop 5, calls := s.calls + 1 } :
        LoadState).stream.length := by
      show 5 * n ≤ (s.stream.drop 5).length
      rw [List.length_drop]
      omega
    obtain ⟨i1, i2⟩ := ih _ hlen
    simp only [getWords, e1, e2]
    rw [i1]
    exact ⟨rfl, by rw [← i1]; exact i2⟩

/-- On a whole image the outer loop of `loadCode` ends, whatever the buffer
held, with no short read. -/
theorem loadLoop_whole (opJRST : Nat) (junk : Nat → List Nat) (n : Nat) :
    ∀ (s : LoadState) (fuel : Nat), wholeImage n s.stream = true → 131072 + n ≤ fuel →
      ∃ r, loadLoop opJRST junk fuel s = some r
        ∧ r.1 = true
        ∧ loadLoop opJRST (fun _ => []) fuel s = some r
        ∧ (LoadMsg.readFailed ∉ s.out → LoadMsg.readFailed ∉ r.2.out) := by
  induction n with
  | zero =>
    intro s fuel h _
    simp [wholeImage] at h
  | succ n ih =>
    intro s fuel h hf
    obtain ⟨f, rfl⟩ : ∃ f, fuel = f + 1 := ⟨fuel - 1, by omega⟩
    unfold wholeImage at h
    rw [Bool.and_eq_true, decide_eq_true_eq] at h
    obtain ⟨h5, h⟩ := h
    have e1 := getdata_full junk s h5
    have e2 := getdata_full (fun _ => []) s h5
    unfold loadLoop
    simp only [e1, e2]
    by_cases hb : ks10_t.lh (rdword (s.stream.take 5)) &&& 0o400000 = 0
    · simp only [if_pos hb]
      by_cases hj : ks10_t.lh (rdword (s.stream.take 5)) = opJRST
      · simp only [if_pos hj]
        refine ⟨_, rfl, rfl, rfl, ?_⟩
        intro hs hm
        simp only [List.mem_append, List.mem_singleton] at hm
        rcases hm with hm | hm
        · exact hs hm
        · cases hm
      · simp only [if_neg hj]
        exact ⟨_, rfl, rfl, rfl, fun hs => hs⟩
    · simp only [if_neg hb]
      rw [if_neg hb, Bool.and_eq_true, decide_eq_true_eq] at h
      obtain ⟨hlen, hrest⟩ := h
      have hw := lh_lt (rdword (s.stream.take 5))
      obtain ⟨hc, _⟩ := count_field _ hw hb
      rw [readRecord_count junk _ _ f _ hw hb (by omega),
        readRecord_count (fun _ => []) _ _ f _ hw hb (by omega)]
      simp only []
      obtain ⟨g1, g2⟩ := getWords_full junk (262144 - ks10_t.lh (rdword (s.stream.take 5)))
        { s with stream := s.stream.drop 5, calls := s.calls + 1 } hlen
      have hst := (getWords_stream (fun _ => [])
        (262144 - ks10_t.lh (rdword (s.stream.take 5)))
        { s with stream := s.stream.drop 5, calls := s.calls + 1 }).1
      rw [g1] at g2 ⊢
      obtain ⟨r, r1, r2, r3, r4⟩ := ih
        { (getWords (fun _ => []) (262144 - ks10_t.lh (rdword (s.stream.take 5)))
            { s with stream := s.stream.drop 5, calls := s.calls + 1 }).2 with
          mem := s.mem ++ recordWrites (ks10_t.rh (rdword (s.stream.take 5)))
            (getWords (fun _ => []) (262144 - ks10_t.lh (rdword (s.stream.take 5)))
              { s with stream := s.stream.drop 5, calls := s.calls + 1 }).1 }
        f (by
          show wholeImage n (getWords (fun _ => [])
            (262144 - ks10_t.lh (rdword (s.stream.take 5)))
            { s with stream := s.stream.drop 5, calls := s.calls + 1 }).2.stream = true
          rw [hst]
          exact hrest) (by omega)
      refine ⟨r, r1, r2, r3, ?_⟩
      intro hs
      apply r4
      show LoadMsg.readFailed ∉ (getWords (fun _ => [])
            (262144 - ks10_t.lh (rdword (s.stream.take 5)))
            { s with stream := s.stream.drop 5, calls := s.calls + 1 }).2.out
      rw [g2]
      exact hs

/-- A call of `getdata` at the end of the stream with a buffer that holds the
bytes `FF FF FF 00 00`. -/
theorem getdata_stale (s : LoadState) (hs : s.stream = []) :
    getdata (fun _ => [0xff, 0xff, 0xff, 0, 0]) s
      = (0o777777700000,
         { s with stream := [], calls := s.calls + 1,
                  out := s.out ++ [LoadMsg.readFailed] }) := by
  unfold getdata fread
  simp only [hs]
  rfl

/-- With a buffer that holds the bytes `FF FF FF 00 00` a header read at
the end of the stream announces a record of one word, and so does the next:
the outer loop of `loadCode` does not end, whatever the number of turns. -/
theorem loadLoop_stale (opJRST : Nat) (fuel : Nat) :
    ∀ s : LoadState, s.stream = [] →
      loadLoop opJRST (fun _ => [0xff, 0xff, 0xff, 0, 0]) fuel s = none := by
  induction fuel with
  | zero => intro s _; rfl
  | succ fuel ih =>
    intro s hs
    have hb : ks10_t.lh 0o777777700000 &&& 0o400000 ≠ 0 := by decide
    unfold loadLoop
    simp only [getdata_stale s hs, if_neg hb]
    cases fuel with
    | zero =>
      have e : ∀ a t, readRecord (fun _ => [0xff, 0xff, 0xff, 0, 0]) 0
          (ks10_t.lh 0o777777700000) a t = none := by
        intro a t
        unfold readRecord
        rw [if_pos hb]
      rw [e]
    | succ f =>
      have h1 : 262144 - ks10_t.lh 0o777777700000 = 1 := by decide
      rw [readRecord_count _ _ _ (f + 1) _ (lh_lt _) hb (by rw [h1]; omega)]
      simp only []
      apply ih
      show (getWords (fun _ => [0xff, 0xff, 0xff, 0, 0]) (262144 - ks10_t.lh 0o777777700000)
        _).2.stream = []
      rw [(getWords_stream _ _ _).1]
      rfl

/-- C28 (as the code has it): on every stream of bytes that holds a whole
image (records with all their data words, up to a header with the
continuation bit clear) `loadCode` ends and returns `true`, whatever the read
buffer held before, with the same result for every buffer and with no short
read: `131072` turns more than the image has headers are enough for each of
its loops.  For every stream, the data loop of a record whose count field is
`w` (18 bits, continuation bit set) makes exactly `01000000 - w` turns, at
most `2^17`: so many calls of `getdata` and so many writes; and a header
read either takes five bytes and is the word of those bytes, or finds fewer
than five, empties the stream, reports the failure and is the word `rdword`
builds from the buffer as it is, which is not the zero word in general. -/
theorem loadCode_terminates (opJRST : Nat) (junk : Nat → List Nat) :
    (∀ (bytes : List Nat) (n : Nat), wholeImage n bytes = true →
      ∀ fuel, 131072 + n ≤ fuel →
        ∃ r, loadCode opJRST junk fuel (some bytes) = some r
          ∧ r.1 = true
          ∧ loadCode opJRST (fun _ => []) fuel (some bytes) = some r
          ∧ LoadMsg.readFailed ∉ r.2.out)
    ∧ (∀ (w a fuel : Nat) (s : LoadState), w < 262144 → w &&& 0o400000 ≠ 0 →
        262144 - w ≤ 2 ^ 17
        ∧ (262144 - w ≤ fuel →
            ∃ s1, readRecord junk fuel w a s = some s1
              ∧ s1.calls = s.calls + (262144 - w)
              ∧ s1.mem.length = s.mem.length + (262144 - w)))
    ∧ (∀ s : LoadState,
        (5 ≤ s.stream.length
          ∧ (getdata junk s).2.stream = s.stream.drop 5
          ∧ (getdata junk s).1 = rdword (s.stream.take 5)
          ∧ (getdata junk s).2.out = s.out)
        ∨ (s.stream.length < 5
          ∧ (getdata junk s).2.stream = []
          ∧ (getdata junk s).1 = rdword (s.stream ++ (junk s.calls).drop s.stream.length)
          ∧ (getdata junk s).2.out = s.out ++ [LoadMsg.readFailed])) := by
  refine ⟨?_, ?_, ?_⟩
  · intro bytes n hw fuel hf
    obtain ⟨r, r1, r2, r3, r4⟩ := loadLoop_whole opJRST junk n
      { stream := bytes, calls := 0, mem := [], cir := [], out := [] } fuel hw hf
    exact ⟨r, r1, r2, r3, r4 (by intro h; cases h)⟩
  · intro w a fuel s hw hb
    refine ⟨(count_field w hw hb).1, ?_⟩
    intro hf
    refine ⟨_, readRecord_count junk w a fuel s hw hb hf, ?_, ?_⟩
    · exact (getWords_stream junk _ s).2.1
    · show (s.mem ++ recordWrites a (getWords junk (262144 - w) s).1).length = _
      rw [List.length_append, recordWrites_length, getWords_length]
  · intro s
    by_cases h5 : 5 ≤ s.stream.length
    · left
      rw [getdata_full junk s h5]
      exact ⟨h5, rfl, rfl, rfl⟩
    · right
      have hlt : s.stream.length < 5 := by omega
      have htake : s.stream.take 5 = s.stream := List.take_of_length_le (by omega)
      refine ⟨hlt, ?_, ?_, ?_⟩
      · show s.stream.drop 5 = []
        exact List.drop_of_length_le (by omega)
      · simp only [getdata, fread, htake]
      · simp only [getdata, fread, htake]
        rw [if_pos (by omega)]

/-- C28 on an image of one record with one data word and a start address,
with a buffer that held `FF` bytes: `loadCode` ends with `true` and no read
is short. -/
theorem loadCode_terminates_witness :
    wholeImage 2 [0x7f, 0x7f, 0x78, 0x01, 0xff, 0x00, 0x00, 0x01, 0x02, 0x03,
                  0x2b, 0x00, 0x00, 0x02, 0x00] = true
    ∧ ∃ r, loadCode 0o254000 (fun _ => [0xff, 0xff, 0xff, 0xff, 0xff]) 131074
        (some [0x7f, 0x7f, 0x78, 0x01, 0xff, 0x00, 0x00, 0x01, 0x02, 0x03,
               0x2b, 0x00, 0x00, 0x02, 0x00]) = some r
      ∧ r.1 = true
      ∧ LoadMsg.readFailed ∉ r.2.out := by
  refine ⟨by decide, ?_⟩
  obtain ⟨r, r1, r2, _, r4⟩ :=
    (loadCode_terminates 0o254000 (fun _ => [0xff, 0xff, 0xff, 0xff, 0xff])).1
      [0x7f, 0x7f, 0x78, 0x01, 0xff, 0x00, 0x00, 0x01, 0x02, 0x03,
       0x2b, 0x00, 0x00, 0x02, 0x00] 2 (by decide) 131074 (by decide)
  exact ⟨r, r1, r2, r4⟩

/-- C28 as stated fails on the stream `FF FF FF` when the buffer holds the
bytes `FF FF FF 00 00` from before: the short reads do not yield the zero
word but a header that announces a record of one word, again and again, and
`loadCode` does not end, whatever the number of turns allowed. -/
theorem loadCode_terminates_counterexample :
    (getdata (fun _ => [0xff, 0xff, 0xff, 0, 0])
        { stream := [0xff, 0xff, 0xff], calls := 0, mem := [], cir := [], out := [] }).1
      = 0o777777700000
    ∧ (getdata (fun _ => [0xff, 0xff, 0xff, 0, 0])
        { stream := [], calls := 1, mem := [], cir := [], out := [] }).1 ≠ 0
    ∧ ∀ fuel, loadCode 0o254000 (fun _ => [0xff, 0xff, 0xff, 0, 0]) fuel
        (some [0xff, 0xff, 0xff]) = none := by
  refine ⟨by decide, by decide, ?_⟩
  intro fuel
  show loadLoop 0o254000 (fun _ => [0xff, 0xff, 0xff, 0, 0]) fuel
    { stream := [0xff, 0xff, 0xff], calls := 0, mem := [], cir := [], out := [] } = none
  cases fuel with
  | zero => rfl
  | succ fuel =>
    have hb : ks10_t.lh 0o777777700000 &&& 0o400000 ≠ 0 := by decide
    have e : getdata (fun _ => [0xff, 0xff, 0xff, 0, 0])
        { stream := [0xff, 0xff, 0xff], calls := 0, mem := [], cir := [], out := [] }
        = (0o777777700000,
           { stream := [], calls := 1, mem := [], cir := [], out := [LoadMsg.readFailed] }) := by
      decide
    unfold loadLoop
    simp only [e, if_neg hb]
    cases fuel with
    | zero =>
      have e0 : ∀ a t, readRecord (fun _ => [0xff, 0xff, 0xff, 0, 0]) 0
          (ks10_t.lh 0o777777700000) a t = none := by
        intro a t
        unfold readRecord
        rw [if_pos hb]
      rw [e0]
    | succ f =>
      have h1 : 262144 - ks10_t.lh 0o777777700000 = 1 := by decide
      rw [readRecord_count _ _ _ (f + 1) _ (lh_lt _) hb (by rw [h1]; omega)]
      simp only []
      apply loadLoop_stale
      show (getWords (fun _ => [0xff, 0xff, 0xff, 0, 0]) (262144 - ks10_t.lh 0o777777700000)
        _).2.stream = []
      rw [(getWords_stream _ _ _).1]
      rfl

/-! ## Octal numbers -/

theorem octal_digit_lt (c : Char) (h : '0' ≤ c ∧ c ≤ '7') : c.toNat - ('0').toNat < 8 := by
  have h2 : c.toNat ≤ ('7').toNat := h.2
  have e7 : ('7').toNat = 55 := by decide
  have e0 : ('0').toNat = 48 := by decide
  omega

theorem cchar_cons (c : Char) (cs : List Char) : cchar (c :: cs) 0 = c := rfl

theorem cchar_nil : cchar [] 0 = NUL := rfl

/-- The loop of `parseOctal` from an accumulator `8 * v`. -/
theorem parseOctalLoop_value (n : Nat) :
    ∀ (buf : List Char) (v k : Nat), k + n ≤ 12 → v < 8 ^ k →
      (parseOctalLoop n buf (8 * v)).1
          = 8 * ((buf.takeWhile (fun c => decide ('0' ≤ c ∧ c ≤ '7'))).take n).foldl
              (fun n c => 8 * n + (c.toNat - ('0').toNat)) v
      ∧ parseOctalLoop n buf (8 * v) = parseOctalWide n buf (8 * v)
      ∧ ((buf.takeWhile (fun c => decide ('0' ≤ c ∧ c ≤ '7'))).take n).foldl
              (fun n c => 8 * n + (c.toNat - ('0').toNat)) v < 8 ^ (k + n) := by
  induction n with
  | zero =>
    intro buf v k _ hv
    exact ⟨by simp [parseOctalLoop], rfl, by simpa using hv⟩
  | succ n ih =>
    intro buf v k hk hv
    have hvn : v < 8 ^ (k + (n + 1)) :=
      lt_of_lt_of_le hv (Nat.pow_le_pow_right (by decide) (by omega))
    cases buf with
    | nil =>
      have hn : ¬ ('0' ≤ cchar [] 0 ∧ cchar [] 0 ≤ '7') := by decide
      simp only [parseOctalLoop, parseOctalWide, if_neg hn, List.takeWhile_nil, List.take_nil,
        List.foldl_nil, true_and]
      exact hvn
    | cons c cs =>
      by_cases hc : '0' ≤ c ∧ c ≤ '7'
      · have hd := octal_digit_lt c hc
        have hv1 : 8 * v + (c.toNat - ('0').toNat) < 8 ^ (k + 1) := by
          rw [pow_succ]
          omega
        have h12 : 8 ^ (k + 1) ≤ 8 ^ 12 := Nat.pow_le_pow_right (by decide) (by omega)
        have e12 : (8 : Nat) ^ 12 = 68719476736 := by norm_num
        have hlt : 8 * v + (c.toNat - ('0').toNat) < 68719476736 := by omega
        obtain ⟨i1, i2, i3⟩ := ih cs (8 * v + (c.toNat - ('0').toNat)) (k + 1) (by omega) hv1
        have e1 : (((8 * v + (c.toNat - ('0').toNat)) % 2 ^ 64) <<< 3) % 2 ^ 64
            = 8 * (8 * v + (c.toNat - ('0').toNat)) := by
          rw [Nat.mod_eq_of_lt (by norm_num; omega), Nat.shiftLeft_eq,
            Nat.mod_eq_of_lt (by norm_num; omega)]
          ring
        have e2 : (8 * v + (c.toNat - ('0').toNat)) <<< 3
            = 8 * (8 * v + (c.toNat - ('0').toNat)) := by
          rw [Nat.shiftLeft_eq]
          ring
        have ht : (c :: cs).takeWhile (fun c => decide ('0' ≤ c ∧ c ≤ '7'))
            = c :: cs.takeWhile (fun c => decide ('0' ≤ c ∧ c ≤ '7')) :=
          List.takeWhile_cons_of_pos (by simpa using hc)
        simp only [parseOctalLoop, parseOctalWide, cchar_cons, if_pos hc, List.drop_succ_cons,
          List.drop_zero, e1, e2, ht, List.take_succ_cons, List.foldl_cons]
        refine ⟨i1, i2, ?_⟩
        have : k + 1 + n = k + (n + 1) := by omega
        rw [← this]
        exact i3
      · simp only [parseOctalLoop, parseOctalWide, cchar_cons, if_neg hc]
        rw [List.takeWhile_cons_of_neg (by simpa using hc)]
        simp only [List.take_nil, List.foldl_nil, true_and]
        exact hvn

/-- C29: for every string, `parseOctal` returns the number that the longest
prefix of octal digits, cut to its first 12 digits, denotes (0 for the empty
prefix, by the definition of `octalValue`); the number is below `2^36`; and
the loop run in 64-bit arithmetic equals the loop run in unbounded integers,
so that no left shift loses a bit. -/
theorem parseOctal_value (s : List Char) :
    (parseOctal s).1 = octalValue (octalDigits s)
    ∧ (parseOctal s).1 < 2 ^ 36
    ∧ parseOctalLoop 12 s 0 = parseOctalWide 12 s 0 := by
  obtain ⟨h1, h2, h3⟩ := parseOctalLoop_value 12 s 0 0 (by decide) (by decide)
  have hv : (parseOctal s).1 = octalValue (octalDigits s) := by
    unfold parseOctal octalValue octalDigits
    simp only []
    rw [h1, Nat.shiftRight_eq_div_pow]
    omega
  refine ⟨hv, ?_, h2⟩
  rw [hv]
  exact h3

/-! ## Line editing of the console -/

/-- From a count of at least one the loop of `cntl_u` makes as many turns as
the count says. -/
theorem cntl_u_pos (n : Nat) : ∀ (fuel : Nat) (out : List Nat), n + 1 < 2 ^ 32 → n + 1 ≤ fuel →
    cntl_u fuel (n + 1) out = some (0, out ++ eraseSequences (n + 1)) := by
  induction n with
  | zero =>
    intro fuel out _ hf
    obtain ⟨f, rfl⟩ : ∃ f, fuel = f + 1 := ⟨fuel - 1, by omega⟩
    have e : (0 + 1 + 2 ^ 32 - 1) % 2 ^ 32 = 0 := by norm_num
    rw [cntl_u, if_neg (by rw [e]; simp), e]
    rfl
  | succ n ih =>
    intro fuel out hn hf
    obtain ⟨f, rfl⟩ : ∃ f, fuel = f + 1 := ⟨fuel - 1, by omega⟩
    have e : (n + 1 + 1 + 2 ^ 32 - 1) % 2 ^ 32 = n + 1 := by
      have : n + 1 + 1 + 2 ^ 32 - 1 = n + 1 + 2 ^ 32 := by omega
      rw [this, Nat.add_mod_right, Nat.mod_eq_of_lt (by omega)]
    rw [cntl_u, if_pos (by rw [e]; omega), e, ih f _ (by omega) (by omega)]
    simp only [eraseSequences, List.append_assoc]

theorem eraseSequences_succ (n : Nat) :
    eraseSequences (n + 1) = [0x08, 0x20, 0x08] ++ eraseSequences n := rfl

/-- With fewer turns than the count the loop of `cntl_u` has not ended. -/
theorem cntl_u_short (fuel : Nat) : ∀ (n : Nat) (out : List Nat), n + 1 < 2 ^ 32 →
    fuel < n + 1 → cntl_u fuel (n + 1) out = none := by
  induction fuel with
  | zero =>
    intro n out _ _
    rfl
  | succ f ih =>
    intro n out hn hf
    obtain ⟨m, rfl⟩ : ∃ m, n = m + 1 := ⟨n - 1, by omega⟩
    have e : (m + 1 + 1 + 2 ^ 32 - 1) % 2 ^ 32 = m + 1 := by
      have : m + 1 + 1 + 2 ^ 32 - 1 = m + 1 + 2 ^ 32 := by omega
      rw [this, Nat.add_mod_right, Nat.mod_eq_of_lt (by omega)]
    rw [cntl_u, if_pos (by rw [e]; omega), e]
    exact ih m _ (by omega) (by omega)

/-- C30 (what the code does): `^U` with `n` characters typed, `n` at least 1,
echoes exactly `n` erase sequences and leaves the count at 0.  With no
character typed the loop `do ... while (--count != 0)` echoes one sequence,
takes the count from 0 to `2^32 - 1` and goes on: it ends only after `2^32`
turns, with `2^32` erase sequences echoed. -/
theorem cntl_u_erases (n : Nat) (hn : n < 2 ^ 32) (out : List Nat) :
    cntl_u (2 ^ 32) n out
      = some (0, out ++ eraseSequences (if n = 0 then 2 ^ 32 else n))
    ∧ (n = 0 → ∀ fuel, fuel < 2 ^ 32 → cntl_u fuel n out = none) := by
  have e0 : (0 + 2 ^ 32 - 1) % 2 ^ 32 = 4294967294 + 1 := by norm_num
  have p32 : 2 ^ 32 = 4294967294 + 1 + 1 := by norm_num
  constructor
  · by_cases h0 : n = 0
    · subst h0
      rw [if_pos rfl]
      nth_rewrite 1 [p32]
      rw [cntl_u, if_pos (by rw [e0]; omega), e0,
        cntl_u_pos 4294967294 _ _ (by norm_num) (le_refl _)]
      rw [p32, eraseSequences_succ (4294967294 + 1), List.append_assoc]
    · rw [if_neg h0]
      obtain ⟨m, rfl⟩ : ∃ m, n = m + 1 := ⟨n - 1, by omega⟩
      exact cntl_u_pos m _ _ hn (by omega)
  · intro h0 fuel hf
    subst h0
    cases fuel with
    | zero => rfl
    | succ f =>
      rw [cntl_u, if_pos (by rw [e0]; omega), e0]
      exact cntl_u_short f 4294967294 _ (by norm_num) (by omega)

/-- C30 with two characters typed: two erase sequences are echoed and the
count is 0. -/
theorem cntl_u_erases_witness :
    cntl_u (2 ^ 32) 2 [0x41, 0x42] = some (0, [0x41, 0x42, 0x08, 0x20, 0x08, 0x08, 0x20, 0x08]) :=
  (cntl_u_erases 2 (by norm_num) [0x41, 0x42]).1.trans (by decide)

end KS10
